import Mathlib

/-!
Verification of the bustub storage and concurrency core against its
natural-language specification.

The Lean definitions below are shallow embeddings of the C++ sources:

* `LRUK`    — `src/buffer/lru_k_replacer.cpp` (LRU-K replacer);
* `BPM`     — `src/buffer/buffer_pool_manager_instance.cpp`
  (`BufferPoolManagerInstance`, in particular `DeletePgImp`).

Machine integers (`size_t`, `int32_t`) are modelled as `Nat`/`Int`; the
constant `0xffffffffffffffff` used by `GetDiff` as the "infinite" backward
K-distance is kept literally, and well-formedness hypotheses record the
facts that hold of every state the C++ object can reach without wrapping
its 64-bit counter.
-/

namespace LRUK

/-- `0xffffffffffffffff`, the marker `GetDiff` returns for a frame with
fewer than `k` recorded accesses. -/
def INF : Nat := 0xffffffffffffffff

/-- State of `LRUKReplacer`: per-frame access history (front = oldest
retained timestamp), per-frame evictable flag, and the global timestamp
counter.  Frame `i`'s history is `accessHistory[i]`. -/
structure Replacer where
  k : Nat
  replacerSize : Nat
  accessHistory : List (List Nat)
  evictable : List Bool
  currentTimestamp : Nat
  deriving Repr, DecidableEq

/-- `accesss_history_[i]` (empty for an out-of-range index). -/
def Replacer.hist (r : Replacer) (i : Nat) : List Nat := r.accessHistory.getD i []

/-- `evictable_[i]`. -/
def Replacer.evic (r : Replacer) (i : Nat) : Bool := r.evictable.getD i false

/-- `LRUKReplacer::GetDiff`: pair of (distance used for comparison,
oldest retained timestamp `recent_k_timestamp = front`). -/
def getDiff (r : Replacer) (i : Nat) : Nat × Nat :=
  if (r.hist i).length < r.k then (INF, (r.hist i).headD 0)
  else (r.currentTimestamp - (r.hist i).headD 0, (r.hist i).headD 0)

theorem getDiff_fst (r : Replacer) (i : Nat) :
    (getDiff r i).1 =
      if (r.hist i).length < r.k then INF
      else r.currentTimestamp - (r.hist i).headD 0 := by
  unfold getDiff; split <;> rfl

theorem getDiff_snd (r : Replacer) (i : Nat) :
    (getDiff r i).2 = (r.hist i).headD 0 := by
  unfold getDiff; split <;> rfl

/-- Accumulator of the scan loop in `LRUKReplacer::Evict`. -/
structure Acc where
  status : Bool
  frame : Nat
  maxDiff : Nat
  maxTs : Nat
  deriving Repr, DecidableEq

/-- One iteration of the loop body of `LRUKReplacer::Evict`. -/
def evictStep (r : Replacer) (acc : Acc) (i : Nat) : Acc :=
  if (r.hist i).isEmpty || !(r.evic i) then acc
  else
    let d := getDiff r i
    if d.1 > acc.maxDiff || (d.1 == acc.maxDiff && d.2 < acc.maxTs) then
      ⟨true, i, d.1, d.2⟩
    else acc

/-- The scan over all frames in `LRUKReplacer::Evict`. -/
def evictFold (r : Replacer) : Acc :=
  (List.range r.replacerSize).foldl (evictStep r) ⟨false, 0, 0, 0⟩

/-- `LRUKReplacer::Evict`: the chosen frame (or `none`) and the state
after the call (on success the winner's history is cleared). -/
def evict (r : Replacer) : Option Nat × Replacer :=
  let acc := evictFold r
  if acc.status then
    (some acc.frame, { r with accessHistory := r.accessHistory.set acc.frame [] })
  else (none, r)

/-- `LRUKReplacer::RecordAccess`: append the current timestamp, trim the
oldest entry if the history exceeds `k`, bump the counter. -/
def recordAccess (r : Replacer) (i : Nat) : Replacer :=
  let h := r.hist i ++ [r.currentTimestamp]
  let h := if h.length > r.k then h.tail else h
  { r with accessHistory := r.accessHistory.set i h,
           currentTimestamp := r.currentTimestamp + 1 }

/-- `LRUKReplacer::SetEvictable`. -/
def setEvictable (r : Replacer) (i : Nat) (b : Bool) : Replacer :=
  { r with evictable := r.evictable.set i b }

/-- `LRUKReplacer::Remove`: clear the history unless it is already empty. -/
def removeFrame (r : Replacer) (i : Nat) : Replacer :=
  if (r.hist i).isEmpty then r
  else { r with accessHistory := r.accessHistory.set i [] }

/-- A frame the `Evict` scan considers: in range, non-empty history,
evictable. -/
def isCand (r : Replacer) (i : Nat) : Prop :=
  i < r.replacerSize ∧ r.hist i ≠ [] ∧ r.evic i = true

instance (r : Replacer) (i : Nat) : Decidable (isCand r i) := by
  unfold isCand; infer_instance

/-- Facts holding of every state reachable through the replacer's API as
long as the 64-bit counter has not wrapped: the vectors have the size
fixed at construction, recorded timestamps are below the counter,
histories are strictly increasing of length at most `k`, and distinct
frames never share a timestamp (the counter is bumped on every record). -/
structure WF (r : Replacer) : Prop where
  histLen : r.accessHistory.length = r.replacerSize
  evicLen : r.evictable.length = r.replacerSize
  tsLt : r.currentTimestamp < INF
  memLt : ∀ i < r.replacerSize, ∀ t ∈ r.hist i, t < r.currentTimestamp
  sorted : ∀ i < r.replacerSize, (r.hist i).Sorted (· < ·)
  lenLe : ∀ i < r.replacerSize, (r.hist i).length ≤ r.k
  disjoint : ∀ i < r.replacerSize, ∀ j < r.replacerSize,
    i = j ∨ ∀ t ∈ r.hist i, t ∉ r.hist j

/-- Spec-side backward K-distance (`⊤` = infinite, for a frame with fewer
than `k` recorded accesses; otherwise current time minus the Kth most
recent access, which for a history trimmed to the last `k` accesses is the
oldest retained timestamp). -/
def specDist (r : Replacer) (i : Nat) : WithTop Nat :=
  if (r.hist i).length < r.k then ⊤
  else ((r.currentTimestamp - (r.hist i).headD 0 : Nat) : WithTop Nat)

/-- Spec-side earliest recorded timestamp of a frame. -/
def specEarliest (r : Replacer) (i : Nat) : Nat := (r.hist i).headD 0

/-- Spec-side preference: `f` beats `j` when `f` has strictly larger
backward K-distance, or the distances tie and `f`'s earliest recorded
timestamp is smaller. -/
def specPrefer (r : Replacer) (f j : Nat) : Prop :=
  specDist r j < specDist r f ∨
    (specDist r f = specDist r j ∧ specEarliest r f < specEarliest r j)

/-- Code-side preference implemented by the comparison in `Evict`. -/
def codeBeats (r : Replacer) (f j : Nat) : Prop :=
  (getDiff r f).1 > (getDiff r j).1 ∨
    ((getDiff r f).1 = (getDiff r j).1 ∧ (getDiff r f).2 < (getDiff r j).2)

theorem codeBeats_asymm {r : Replacer} {a b : Nat} (h : codeBeats r a b) :
    ¬ codeBeats r b a := by
  rcases h with h | ⟨h1, h2⟩ <;> rintro (h' | ⟨h'1, h'2⟩) <;> omega

theorem codeBeats_trans {r : Replacer} {a b c : Nat} (h1 : codeBeats r a b)
    (h2 : codeBeats r b c) : codeBeats r a c := by
  rcases h1 with h1 | ⟨h1, h1'⟩ <;> rcases h2 with h2 | ⟨h2, h2'⟩ <;>
    unfold codeBeats <;> omega

/-- The head of a non-empty history is a member of it. -/
theorem headD_mem {l : List Nat} (h : l ≠ []) : l.headD 0 ∈ l := by
  cases l with
  | nil => exact absurd rfl h
  | cons a t => exact List.mem_cons_self a t

/-- Distinct candidate frames have distinct stored front timestamps. -/
theorem fronts_ne {r : Replacer} (hw : WF r) {i j : Nat}
    (hi : isCand r i) (hj : isCand r j) (hne : i ≠ j) :
    (r.hist i).headD 0 ≠ (r.hist j).headD 0 := by
  intro he
  have hmi : (r.hist i).headD 0 ∈ r.hist i := headD_mem hi.2.1
  have hmj : (r.hist j).headD 0 ∈ r.hist j := headD_mem hj.2.1
  exact ((hw.disjoint i hi.1 j hj.1).resolve_left hne) _ hmi (he ▸ hmj)

/-- On candidates, the code-side comparison is total: one side beats the
other. -/
theorem codeBeats_total {r : Replacer} (hw : WF r) {i j : Nat}
    (hi : isCand r i) (hj : isCand r j) (hne : i ≠ j) :
    codeBeats r i j ∨ codeBeats r j i := by
  have hfr : (getDiff r i).2 ≠ (getDiff r j).2 := by
    rw [getDiff_snd, getDiff_snd]; exact fronts_ne hw hi hj hne
  unfold codeBeats; omega

/-- A candidate's code distance is positive (its stored timestamps are
below the global counter, and `INF > 0`). -/
theorem cand_diff_pos {r : Replacer} (hw : WF r) {i : Nat} (hi : isCand r i) :
    0 < (getDiff r i).1 := by
  rw [getDiff_fst]
  split
  · decide
  · have := hw.memLt i hi.1 _ (headD_mem hi.2.1)
    omega

theorem sub_lt_INF {r : Replacer} (hw : WF r) (x : Nat) :
    r.currentTimestamp - x < INF :=
  lt_of_le_of_lt (Nat.sub_le _ _) hw.tsLt

/-- The code comparison agrees with the spec-side preference on
candidates. -/
theorem codeBeats_iff_specPrefer {r : Replacer} (hw : WF r) {i j : Nat}
    (hi : isCand r i) (hj : isCand r j) :
    codeBeats r i j ↔ specPrefer r i j := by
  unfold codeBeats specPrefer specDist specEarliest
  rw [getDiff_snd, getDiff_snd, getDiff_fst, getDiff_fst]
  by_cases hik : (r.hist i).length < r.k <;> by_cases hjk : (r.hist j).length < r.k
  · -- both infinite
    rw [if_pos hik, if_pos hjk, if_pos hik, if_pos hjk]
    constructor
    · rintro (h | ⟨_, h2⟩)
      · omega
      · exact Or.inr ⟨rfl, h2⟩
    · rintro (h | ⟨_, h2⟩)
      · exact absurd h (lt_irrefl _)
      · exact Or.inr ⟨rfl, h2⟩
  · -- i infinite, j finite
    have hjlt : r.currentTimestamp - (r.hist j).headD 0 < INF := sub_lt_INF hw _
    rw [if_pos hik, if_neg hjk, if_pos hik, if_neg hjk]
    constructor
    · intro _
      exact Or.inl (WithTop.coe_lt_top _)
    · intro _
      exact Or.inl hjlt
  · -- i finite, j infinite
    have hilt : r.currentTimestamp - (r.hist i).headD 0 < INF := sub_lt_INF hw _
    rw [if_neg hik, if_pos hjk, if_neg hik, if_pos hjk]
    constructor
    · rintro (h | ⟨h, _⟩) <;> omega
    · rintro (h | ⟨h, _⟩)
      · exact absurd h not_top_lt
      · exact absurd h (WithTop.coe_ne_top)
  · -- both finite
    rw [if_neg hik, if_neg hjk, if_neg hik, if_neg hjk]
    constructor
    · rintro (h | ⟨h, h2⟩)
      · exact Or.inl (by exact_mod_cast h)
      · exact Or.inr ⟨by exact_mod_cast h, h2⟩
    · rintro (h | ⟨h, h2⟩)
      · exact Or.inl (by exact_mod_cast h)
      · exact Or.inr ⟨by exact_mod_cast h, h2⟩

/-- The frames the scan loop does not skip. -/
def scanCand (r : Replacer) (i : Nat) : Prop := r.hist i ≠ [] ∧ r.evic i = true

theorem isEmpty_false_of_ne {α : Type} {l : List α} (h : l ≠ []) :
    l.isEmpty = false := by
  cases l with
  | nil => exact absurd rfl h
  | cons a t => rfl

theorem evictStep_skip {r : Replacer} {acc : Acc} {i : Nat}
    (h : ¬ scanCand r i) : evictStep r acc i = acc := by
  unfold evictStep
  rcases Decidable.em (r.hist i = []) with he | he
  · rw [if_pos]
    rw [he]
    rfl
  · have hev : r.evic i = false := by
      unfold scanCand at h
      rcases Bool.eq_false_or_eq_true (r.evic i) with h' | h'
      · exact absurd ⟨he, h'⟩ h
      · exact h'
    rw [if_pos]
    rw [hev, isEmpty_false_of_ne he]
    rfl

theorem evictStep_proc {r : Replacer} {acc : Acc} {i : Nat}
    (h : scanCand r i) :
    evictStep r acc i =
      if (getDiff r i).1 > acc.maxDiff ∨
          ((getDiff r i).1 = acc.maxDiff ∧ (getDiff r i).2 < acc.maxTs) then
        ⟨true, i, (getDiff r i).1, (getDiff r i).2⟩
      else acc := by
  unfold evictStep
  rw [isEmpty_false_of_ne h.1, h.2]
  simp only [Bool.false_or, Bool.not_true, Bool.or_false, Bool.false_eq_true,
    if_false]
  rcases Decidable.em ((getDiff r i).1 > acc.maxDiff ∨
      ((getDiff r i).1 = acc.maxDiff ∧ (getDiff r i).2 < acc.maxTs)) with hc | hc
  · rw [if_pos hc, if_pos]
    rcases hc with hc | ⟨hc1, hc2⟩
    · simp [hc]
    · simp [hc1, hc2]
  · rw [if_neg hc, if_neg]
    intro hb
    apply hc
    rcases Bool.or_eq_true_iff.mp hb with hb | hb
    · exact Or.inl (by simpa using hb)
    · rcases Bool.and_eq_true_iff.mp hb with ⟨hb1, hb2⟩
      exact Or.inr ⟨by simpa using Nat.beq_eq_true_eq _ _ ▸ hb1, by simpa using hb2⟩

/-- Invariant of the `Evict` scan: after examining frames `< n`, either no
candidate was seen and the accumulator is untouched, or the accumulator
holds the unique best candidate seen so far, with its `GetDiff` pair. -/
theorem evict_fold_invariant (r : Replacer) (hw : WF r) (n : Nat)
    (hn : n ≤ r.replacerSize) :
    ((List.range n).foldl (evictStep r) ⟨false, 0, 0, 0⟩ = ⟨false, 0, 0, 0⟩ ∧
      ∀ i < n, ¬ scanCand r i)
    ∨ (∃ f, (List.range n).foldl (evictStep r) ⟨false, 0, 0, 0⟩ =
          ⟨true, f, (getDiff r f).1, (getDiff r f).2⟩ ∧
        f < n ∧ scanCand r f ∧
        ∀ j < n, scanCand r j → j ≠ f → codeBeats r f j) := by
  induction n with
  | zero => exact Or.inl ⟨rfl, by omega⟩
  | succ n ih =>
    have hn' : n ≤ r.replacerSize := Nat.le_of_succ_le hn
    have hfold : (List.range (n + 1)).foldl (evictStep r) ⟨false, 0, 0, 0⟩ =
        evictStep r ((List.range n).foldl (evictStep r) ⟨false, 0, 0, 0⟩) n := by
      rw [List.range_succ, List.foldl_append]
      rfl
    rcases Classical.em (scanCand r n) with hc | hc
    · have hcand : isCand r n := ⟨Nat.lt_of_succ_le hn, hc.1, hc.2⟩
      rcases ih hn' with ⟨heq, hnone⟩ | ⟨f, heq, hflt, hfc, hbest⟩
      · -- first candidate: always selected since its distance is positive
        refine Or.inr ⟨n, ?_, Nat.lt_succ_self n, hc, ?_⟩
        · rw [hfold, heq, evictStep_proc hc]
          exact if_pos (Or.inl (cand_diff_pos hw hcand))
        · intro j hj hjc hjn
          exact absurd hjc (hnone j (by omega))
      · have hfcand : isCand r f := ⟨Nat.lt_of_lt_of_le hflt hn', hfc.1, hfc.2⟩
        rcases Classical.em (codeBeats r n f) with hb | hb
        · -- the new candidate beats the incumbent
          refine Or.inr ⟨n, ?_, Nat.lt_succ_self n, hc, ?_⟩
          · rw [hfold, heq, evictStep_proc hc]
            exact if_pos hb
          · intro j hj hjc hjn
            rcases Decidable.em (j = f) with hjf | hjf
            · exact hjf ▸ hb
            · exact codeBeats_trans hb (hbest j (by omega) hjc hjf)
        · -- the incumbent stays
          refine Or.inr ⟨f, ?_, Nat.lt_succ_of_lt hflt, hfc, ?_⟩
          · rw [hfold, heq, evictStep_proc hc]
            exact if_neg hb
          · intro j hj hjc hjf
            rcases Decidable.em (j = n) with hjn | hjn
            · subst hjn
              have hne : j ≠ f := hjf
              rcases codeBeats_total hw hfcand hcand (fun he => hne he.symm) with h | h
              · exact h
              · exact absurd h hb
            · exact hbest j (by omega) hjc hjf
    · rcases ih hn' with ⟨heq, hnone⟩ | ⟨f, heq, hflt, hfc, hbest⟩
      · refine Or.inl ⟨?_, ?_⟩
        · rw [hfold, heq, evictStep_skip hc]
        · intro i hi
          rcases Decidable.em (i = n) with hin | hin
          · exact hin ▸ hc
          · exact hnone i (by omega)
      · refine Or.inr ⟨f, ?_, Nat.lt_succ_of_lt hflt, hfc, ?_⟩
        · rw [hfold, heq, evictStep_skip hc]
        · intro j hj hjc hjf
          rcases Decidable.em (j = n) with hjn | hjn
          · exact absurd (hjn ▸ hjc) hc
          · exact hbest j (by omega) hjc hjf

end LRUK

/-- C1: For every well-formed LRU-K replacer state, `Evict` returns `none`
exactly when no frame is both evictable and has non-empty access history;
otherwise it returns a frame that is maximal in backward K-distance
(`current_time` minus the Kth most recent access, infinite when fewer than
K accesses are recorded), ties broken in favor of the earliest recorded
timestamp, and on success that frame's access history is cleared while the
rest of the state is untouched. -/
theorem C1_lruk_evict (r : LRUK.Replacer) (hw : LRUK.WF r) :
    ((LRUK.evict r).1 = none ↔ ∀ i, ¬ LRUK.isCand r i) ∧
    (∀ f, (LRUK.evict r).1 = some f →
      LRUK.isCand r f ∧
      (∀ j, LRUK.isCand r j → j ≠ f → LRUK.specPrefer r f j) ∧
      (LRUK.evict r).2 =
        { r with accessHistory := r.accessHistory.set f [] }) ∧
    ((LRUK.evict r).1 = none → (LRUK.evict r).2 = r) := by
  have hinv := LRUK.evict_fold_invariant r hw r.replacerSize (le_refl _)
  rcases hinv with ⟨heq, hnone⟩ | ⟨f, heq, hflt, hfc, hbest⟩
  · have hev : LRUK.evict r = (none, r) := by
      unfold LRUK.evict LRUK.evictFold
      rw [heq]
      rfl
    refine ⟨?_, ?_, ?_⟩
    · rw [hev]
      simp only [true_iff]
      intro i hi
      exact hnone i hi.1 ⟨hi.2.1, hi.2.2⟩
    · intro f hf
      rw [hev] at hf
      exact absurd hf (by simp)
    · intro _
      rw [hev]
  · have hcand : LRUK.isCand r f := ⟨hflt, hfc.1, hfc.2⟩
    have hev : LRUK.evict r =
        (some f, { r with accessHistory := r.accessHistory.set f [] }) := by
      unfold LRUK.evict LRUK.evictFold
      rw [heq]
      rfl
    refine ⟨?_, ?_, ?_⟩
    · rw [hev]
      constructor
      · intro h
        exact absurd h (by simp)
      · intro h
        exact absurd hcand (h f)
    · intro g hg
      rw [hev] at hg
      have hgf : g = f := by
        simpa using hg.symm
      subst hgf
      refine ⟨hcand, ?_, by rw [hev]⟩
      intro j hj hjf
      have := hbest j hj.1 ⟨hj.2.1, hj.2.2⟩ hjf
      exact (LRUK.codeBeats_iff_specPrefer hw hcand hj).mp this
    · intro h
      rw [hev] at h
      exact absurd h (by simp)

/-- Concrete state for the C1 witness: `k = 2`, two evictable frames with
histories `[1,3]` and `[2,4]`, current timestamp 5 (the spec's LRU-K
distance-tie seed scenario). -/
def lrukWitnessState : LRUK.Replacer :=
  ⟨2, 2, [[1, 3], [2, 4]], [true, true], 5⟩

theorem lrukWitnessWF : LRUK.WF lrukWitnessState := by
  constructor <;> decide

theorem C1_lruk_evict_witness :
    LRUK.isCand lrukWitnessState 0 ∧
      LRUK.specPrefer lrukWitnessState 0 1 := by
  have h := (C1_lruk_evict lrukWitnessState lrukWitnessWF).2.1 0 (by decide)
  exact ⟨h.1, h.2.1 1 (by decide) (by decide)⟩

namespace BPM

/-- `INVALID_PAGE_ID`. -/
def INVALID_PAGE_ID : Int := -1

/-- A `Page` of the buffer pool: id, pin count, dirty flag, and an
abstract token standing for the page's byte content (`ResetMemory`
zeroes it). -/
structure Page where
  pageId : Int
  pinCount : Int
  isDirty : Bool
  data : Nat
  deriving Repr, DecidableEq

/-- A freshly reset page: `ResetMemory`, `page_id_ = INVALID_PAGE_ID`,
`pin_count_ = 0`, `is_dirty_ = false`. -/
def emptyPage : Page := ⟨INVALID_PAGE_ID, 0, false, 0⟩

/-- The page table `ExtendibleHashTable<page_id_t, frame_id_t>` viewed
through its map interface (`Find` / `Insert` / `Remove`); its internal
bucket organisation is irrelevant to the buffer pool's contract. -/
def ptFind (t : List (Int × Nat)) (pid : Int) : Option Nat :=
  (t.find? (fun kv => kv.1 == pid)).map (fun kv => kv.2)

def ptRemove (t : List (Int × Nat)) (pid : Int) : List (Int × Nat) :=
  t.filter (fun kv => kv.1 != pid)

/-- State of `BufferPoolManagerInstance`: the page array, the page table,
the LRU-K replacer, the free list, the page-id allocator, and the list of
ids handed to `DiskManager::DeallocatePage` (the disk manager's
observable). -/
structure BufferPool where
  poolSize : Nat
  pages : List Page
  pageTable : List (Int × Nat)
  replacer : LRUK.Replacer
  freeList : List Nat
  nextPageId : Int
  deallocated : List Int
  deriving Repr, DecidableEq

/-- `BufferPoolManagerInstance::DeletePgImp`. -/
def deletePg (bp : BufferPool) (pid : Int) : Bool × BufferPool :=
  match ptFind bp.pageTable pid with
  | none => (true, { bp with deallocated := pid :: bp.deallocated })
  | some frameId =>
    let page := bp.pages.getD frameId emptyPage
    if page.pinCount > 0 then (false, bp)
    else
      (true, { bp with
        pages := bp.pages.set frameId emptyPage,
        deallocated := pid :: bp.deallocated,
        pageTable := ptRemove bp.pageTable pid,
        replacer := LRUK.removeFrame bp.replacer frameId,
        freeList := bp.freeList ++ [frameId] })

theorem ptFind_ptRemove (t : List (Int × Nat)) (pid : Int) :
    ptFind (ptRemove t pid) pid = none := by
  induction t with
  | nil => rfl
  | cons kv tl ih =>
    by_cases h : kv.1 = pid <;>
      simp only [ptRemove, ptFind, List.filter_cons, List.find?_cons, h,
        bne_self_eq_false, Bool.false_eq_true, if_false, bne_iff_ne, ne_eq,
        not_false_iff, if_true, beq_iff_eq, not_true_eq_false] at ih ⊢
    · exact ih
    · have hbe : (kv.1 == pid) = false := by simp [h]
      rw [hbe]
      exact ih

theorem deletePg_none {bp : BufferPool} {pid : Int}
    (h : ptFind bp.pageTable pid = none) :
    deletePg bp pid = (true, { bp with deallocated := pid :: bp.deallocated }) := by
  unfold deletePg
  rw [h]

end BPM

/-- C9: `DeletePage` on a non-resident page id deallocates the id and
returns `true` — so two successive calls on a non-resident id both return
`true`; on a resident page with positive pin count it returns `false` and
changes nothing; otherwise it removes the page from the page table and
the replacer, resets the page, deallocates the id, and returns the frame
to the free list. -/
theorem C9_bpm_delete_page (bp : BPM.BufferPool) (pid : Int) :
    (BPM.ptFind bp.pageTable pid = none →
      (BPM.deletePg bp pid).1 = true ∧
      pid ∈ (BPM.deletePg bp pid).2.deallocated ∧
      (BPM.deletePg (BPM.deletePg bp pid).2 pid).1 = true) ∧
    (∀ f, BPM.ptFind bp.pageTable pid = some f →
      (bp.pages.getD f BPM.emptyPage).pinCount > 0 →
      BPM.deletePg bp pid = (false, bp)) ∧
    (∀ f, BPM.ptFind bp.pageTable pid = some f →
      ¬ (bp.pages.getD f BPM.emptyPage).pinCount > 0 →
      (BPM.deletePg bp pid).1 = true ∧
      BPM.ptFind (BPM.deletePg bp pid).2.pageTable pid = none ∧
      (BPM.deletePg bp pid).2.replacer = LRUK.removeFrame bp.replacer f ∧
      (BPM.deletePg bp pid).2.pages = bp.pages.set f BPM.emptyPage ∧
      pid ∈ (BPM.deletePg bp pid).2.deallocated ∧
      f ∈ (BPM.deletePg bp pid).2.freeList) := by
  refine ⟨?_, ?_, ?_⟩
  · intro hnone
    rw [BPM.deletePg_none hnone]
    refine ⟨rfl, List.mem_cons_self _ _, ?_⟩
    have h2 := @BPM.deletePg_none
      { bp with deallocated := pid :: bp.deallocated } pid hnone
    rw [h2]
  · intro f hf hpin
    unfold BPM.deletePg
    rw [hf]
    simp only [if_pos hpin]
  · intro f hf hpin
    have h1 : BPM.deletePg bp pid =
        (true, { bp with
          pages := bp.pages.set f BPM.emptyPage,
          deallocated := pid :: bp.deallocated,
          pageTable := BPM.ptRemove bp.pageTable pid,
          replacer := LRUK.removeFrame bp.replacer f,
          freeList := bp.freeList ++ [f] }) := by
      unfold BPM.deletePg
      rw [hf]
      simp only [if_neg hpin]
    rw [h1]
    exact ⟨rfl, BPM.ptFind_ptRemove _ _, rfl, rfl, List.mem_cons_self _ _,
      List.mem_append_right _ (List.mem_singleton.mpr rfl)⟩

/-- Concrete buffer pool for the C9 witness: one frame holding page 5
with pin count 0. -/
def bpmWitnessState : BPM.BufferPool :=
  ⟨1, [⟨5, 0, false, 7⟩], [(5, 0)], ⟨2, 1, [[0]], [true], 1⟩, [], 6, []⟩

theorem C9_bpm_delete_page_witness :
    ((BPM.deletePg bpmWitnessState 9).1 = true ∧
      (BPM.deletePg (BPM.deletePg bpmWitnessState 9).2 9).1 = true) ∧
    (BPM.deletePg bpmWitnessState 5).1 = true := by
  have h1 := (C9_bpm_delete_page bpmWitnessState 9).1 (by decide)
  have h2 := (C9_bpm_delete_page bpmWitnessState 5).2.2 0 (by decide) (by decide)
  exact ⟨⟨h1.1, h1.2.2⟩, h2.1⟩

namespace LockMgr

/-- The five lock modes, in the order of the `LockMode` enum (`SHARED`
has code 0, `EXCLUSIVE` code 1, ...). -/
inductive LockMode where
  | SHARED
  | EXCLUSIVE
  | INTENTION_SHARED
  | INTENTION_EXCLUSIVE
  | SHARED_INTENTION_EXCLUSIVE
  deriving DecidableEq, Repr

def LockMode.code : LockMode → Int
  | .SHARED => 0
  | .EXCLUSIVE => 1
  | .INTENTION_SHARED => 2
  | .INTENTION_EXCLUSIVE => 3
  | .SHARED_INTENTION_EXCLUSIVE => 4

inductive IsolationLevel where
  | READ_UNCOMMITTED
  | READ_COMMITTED
  | REPEATABLE_READ
  deriving DecidableEq, Repr

inductive TransactionState where
  | GROWING
  | SHRINKING
  | COMMITTED
  | ABORTED
  deriving DecidableEq, Repr

inductive AbortReason where
  | LOCK_ON_SHRINKING
  | LOCK_SHARED_ON_READ_UNCOMMITTED
  | ATTEMPTED_INTENTION_LOCK_ON_ROW
  | TABLE_LOCK_NOT_PRESENT
  | ATTEMPTED_UNLOCK_BUT_NO_LOCK_HELD
  | TABLE_UNLOCKED_BEFORE_UNLOCKING_ROWS
  | INCOMPATIBLE_UPGRADE
  | UPGRADE_CONFLICT
  deriving DecidableEq, Repr

/-- Transaction context: id, state, isolation level, the five per-mode
table-lock sets and the two per-mode row-lock sets. -/
structure Txn where
  txnId : Int
  state : TransactionState
  isolation : IsolationLevel
  sTableLocks : List Nat
  xTableLocks : List Nat
  isTableLocks : List Nat
  ixTableLocks : List Nat
  sixTableLocks : List Nat
  sRowLocks : List (Nat × Nat)
  xRowLocks : List (Nat × Nat)
  deriving DecidableEq, Repr

/-- `LockManager::GetTableLockMode` (lock_manager.h), as an `Option`:
the source tests `IsTableSharedLocked`, `IsTableExclusiveLocked`,
`IsTableIntentionSharedLocked`, `IsTableIntentionExclusiveLocked`,
`IsTableSharedIntentionExclusiveLocked` in that order (each a membership
test of the transaction's per-mode lock set) and returns the first hit,
else `-1`. -/
def heldTableMode (txn : Txn) (oid : Nat) : Option LockMode :=
  if oid ∈ txn.sTableLocks then some .SHARED
  else if oid ∈ txn.xTableLocks then some .EXCLUSIVE
  else if oid ∈ txn.isTableLocks then some .INTENTION_SHARED
  else if oid ∈ txn.ixTableLocks then some .INTENTION_EXCLUSIVE
  else if oid ∈ txn.sixTableLocks then some .SHARED_INTENTION_EXCLUSIVE
  else none

/-- `LockManager::GetTableLockMode`: integer code of the held mode, `-1`
when no table lock of any mode is held. -/
def getTableLockMode (txn : Txn) (oid : Nat) : Int :=
  (heldTableMode txn oid).elim (-1) LockMode.code

/-- `LockManager::GetRowLockMode` (lock_manager.h): the source tests
`IsRowSharedLocked` then `IsRowExclusiveLocked` and returns the first
hit, else `-1`. -/
def heldRowMode (txn : Txn) (oid rid : Nat) : Option LockMode :=
  if (oid, rid) ∈ txn.sRowLocks then some .SHARED
  else if (oid, rid) ∈ txn.xRowLocks then some .EXCLUSIVE
  else none

/-- `LockManager::Upgradable(from, to)`: membership of `to` in
`upgrade_map_[from]`, the map built in the `LockManager` constructor as
IS→[S,X,IX,SIX], S→[X,SIX], IX→[X,SIX], SIX→[X]. -/
def upgradable : LockMode → LockMode → Bool
  | .INTENTION_SHARED, .SHARED => true
  | .INTENTION_SHARED, .EXCLUSIVE => true
  | .INTENTION_SHARED, .INTENTION_EXCLUSIVE => true
  | .INTENTION_SHARED, .SHARED_INTENTION_EXCLUSIVE => true
  | .SHARED, .EXCLUSIVE => true
  | .SHARED, .SHARED_INTENTION_EXCLUSIVE => true
  | .INTENTION_EXCLUSIVE, .EXCLUSIVE => true
  | .INTENTION_EXCLUSIVE, .SHARED_INTENTION_EXCLUSIVE => true
  | .SHARED_INTENTION_EXCLUSIVE, .EXCLUSIVE => true
  | _, _ => false

/-- `LockManager::LockPreCheck`, with its early returns in source order:
row-lock intention check, then the three isolation-level blocks, then the
multiple-level (row-needs-table-lock) check.  Returns the abort reason it
sets, or `none` when the check passes. -/
def lockPreCheck (txn : Txn) (mode : LockMode) (onTable : Bool)
    (tableId : Nat) : Option AbortReason :=
  if ¬ onTable ∧ mode ≠ .SHARED ∧ mode ≠ .EXCLUSIVE then
    some .ATTEMPTED_INTENTION_LOCK_ON_ROW
  else if txn.isolation = .READ_UNCOMMITTED ∧
      (mode = .SHARED ∨ mode = .INTENTION_SHARED ∨
        mode = .SHARED_INTENTION_EXCLUSIVE) then
    some .LOCK_SHARED_ON_READ_UNCOMMITTED
  else if txn.isolation = .READ_UNCOMMITTED ∧ txn.state = .SHRINKING then
    some .LOCK_ON_SHRINKING
  else if txn.isolation = .READ_COMMITTED ∧ txn.state = .SHRINKING ∧
      (mode = .EXCLUSIVE ∨ mode = .INTENTION_EXCLUSIVE ∨
        mode = .SHARED_INTENTION_EXCLUSIVE) then
    some .LOCK_ON_SHRINKING
  else if txn.isolation = .REPEATABLE_READ ∧ txn.state = .SHRINKING then
    some .LOCK_ON_SHRINKING
  else if ¬ onTable then
    if mode = .EXCLUSIVE then
      if getTableLockMode txn tableId ≠ 1 ∧ getTableLockMode txn tableId ≠ 3 ∧
          getTableLockMode txn tableId ≠ 4 then
        some .TABLE_LOCK_NOT_PRESENT
      else none
    else
      if getTableLockMode txn tableId = -1 then some .TABLE_LOCK_NOT_PRESENT
      else none
  else none

/-- One record of a `LockRequestQueue`. -/
structure LockRequest where
  txnId : Int
  mode : LockMode
  granted : Bool
  deriving DecidableEq, Repr

structure LockRequestQueue where
  requests : List LockRequest
  upgrading : Int
  deriving DecidableEq, Repr

/-- `LockRequestQueue::Insert` (lock_manager.h): with `insert_head` the
request is inserted before the first still-ungranted request (the
`std::find_if` position, i.e. after the granted run); otherwise it is
appended at the tail. -/
def queueInsert (q : LockRequestQueue) (req : LockRequest)
    (upgrade : Bool) : LockRequestQueue :=
  if upgrade then
    { q with requests := q.requests.takeWhile (fun r => r.granted) ++
        req :: q.requests.dropWhile (fun r => r.granted) }
  else { q with requests := q.requests ++ [req] }

/-- `GetTableLockSetByMode` + `erase` of `UnlockTableHelper` in the
upgrade path (`from_upgrade = true`): drop the table from the held set of
the given mode. -/
def eraseTableLock (txn : Txn) (held : LockMode) (oid : Nat) : Txn :=
  match held with
  | .SHARED => { txn with sTableLocks := txn.sTableLocks.filter (· ≠ oid) }
  | .EXCLUSIVE => { txn with xTableLocks := txn.xTableLocks.filter (· ≠ oid) }
  | .INTENTION_SHARED =>
    { txn with isTableLocks := txn.isTableLocks.filter (· ≠ oid) }
  | .INTENTION_EXCLUSIVE =>
    { txn with ixTableLocks := txn.ixTableLocks.filter (· ≠ oid) }
  | .SHARED_INTENTION_EXCLUSIVE =>
    { txn with sixTableLocks := txn.sixTableLocks.filter (· ≠ oid) }

/-- Ditto for a row lock in `UnlockRowHelper`'s upgrade path. -/
def eraseRowLock (txn : Txn) (held : LockMode) (oid rid : Nat) : Txn :=
  match held with
  | .EXCLUSIVE => { txn with xRowLocks := txn.xRowLocks.filter (· ≠ (oid, rid)) }
  | _ => { txn with sRowLocks := txn.sRowLocks.filter (· ≠ (oid, rid)) }

/-- Remove the transaction's request from a queue (the
`std::find_if` + `erase` of the unlock helpers). -/
def queueErase (q : LockRequestQueue) (tid : Int) : LockRequestQueue :=
  { q with requests := q.requests.filter (fun r => r.txnId ≠ tid) }

/-- Result of a lock call, up to the point where the caller either
returns, throws, or starts waiting on the queue's condition variable. -/
inductive LockOutcome where
  | aborted (reason : AbortReason)
  | grantedSameMode
  | enqueued (upgrade : Bool)
  deriving DecidableEq, Repr

/-- `LockManager::LockTable` as far as the sequential embedding reaches:
the pre-check with its abort, the same-mode fast path, the upgrade
checks, and the enqueue of the request (the subsequent wait on the
condition variable is inter-thread behaviour). -/
def lockTable (txn : Txn) (mode : LockMode) (oid : Nat)
    (q : LockRequestQueue) : LockOutcome × Txn × LockRequestQueue :=
  match lockPreCheck txn mode true oid with
  | some reason => (.aborted reason, { txn with state := .ABORTED }, q)
  | none =>
    match heldTableMode txn oid with
    | some held =>
      if held = mode then (.grantedSameMode, txn, q)
      else if ¬ upgradable held mode then
        (.aborted .INCOMPATIBLE_UPGRADE, { txn with state := .ABORTED }, q)
      else if q.upgrading ≠ -1 then
        (.aborted .UPGRADE_CONFLICT, { txn with state := .ABORTED }, q)
      else
        let txn' := eraseTableLock txn held oid
        let q' := queueErase { q with upgrading := txn.txnId } txn.txnId
        (.enqueued true, txn', queueInsert q' ⟨txn.txnId, mode, false⟩ true)
    | none =>
      (.enqueued false, txn, queueInsert q ⟨txn.txnId, mode, false⟩ false)

/-- `LockManager::LockRow`, embedded like `lockTable`. -/
def lockRow (txn : Txn) (mode : LockMode) (oid rid : Nat)
    (q : LockRequestQueue) : LockOutcome × Txn × LockRequestQueue :=
  match lockPreCheck txn mode false oid with
  | some reason => (.aborted reason, { txn with state := .ABORTED }, q)
  | none =>
    match heldRowMode txn oid rid with
    | some held =>
      if held = mode then (.grantedSameMode, txn, q)
      else if ¬ upgradable held mode then
        (.aborted .INCOMPATIBLE_UPGRADE, { txn with state := .ABORTED }, q)
      else if q.upgrading ≠ -1 then
        (.aborted .UPGRADE_CONFLICT, { txn with state := .ABORTED }, q)
      else
        let txn' := eraseRowLock txn held oid rid
        let q' := queueErase { q with upgrading := txn.txnId } txn.txnId
        (.enqueued true, txn', queueInsert q' ⟨txn.txnId, mode, false⟩ true)
    | none =>
      (.enqueued false, txn, queueInsert q ⟨txn.txnId, mode, false⟩ false)

theorem lockTable_abort_of_preCheck {txn : Txn} {mode : LockMode} {oid : Nat}
    {q : LockRequestQueue} {r : AbortReason}
    (h : lockPreCheck txn mode true oid = some r) :
    (lockTable txn mode oid q).1 = .aborted r := by
  unfold lockTable
  rw [h]

theorem lockRow_abort_of_preCheck {txn : Txn} {mode : LockMode}
    {oid rid : Nat} {q : LockRequestQueue} {r : AbortReason}
    (h : lockPreCheck txn mode false oid = some r) :
    (lockRow txn mode oid rid q).1 = .aborted r := by
  unfold lockRow
  rw [h]

theorem lockTable_no_shrink_abort {txn : Txn} {mode : LockMode} {oid : Nat}
    {q : LockRequestQueue}
    (h : lockPreCheck txn mode true oid = none) :
    (lockTable txn mode oid q).1 ≠ .aborted .LOCK_ON_SHRINKING ∧
      (lockTable txn mode oid q).1 ≠ .aborted .LOCK_SHARED_ON_READ_UNCOMMITTED := by
  unfold lockTable
  rw [h]
  cases hh : heldTableMode txn oid with
  | none => exact ⟨by simp, by simp⟩
  | some held =>
    by_cases h1 : held = mode
    · simp [h1]
    · by_cases h2 : upgradable held mode
      · by_cases h3 : q.upgrading ≠ -1 <;> simp [h1, h2, h3]
      · simp [h1, h2]

theorem lockRow_no_shrink_abort {txn : Txn} {mode : LockMode} {oid rid : Nat}
    {q : LockRequestQueue}
    (h : lockPreCheck txn mode false oid = none) :
    (lockRow txn mode oid rid q).1 ≠ .aborted .LOCK_ON_SHRINKING ∧
      (lockRow txn mode oid rid q).1 ≠ .aborted .LOCK_SHARED_ON_READ_UNCOMMITTED := by
  unfold lockRow
  rw [h]
  cases hh : heldRowMode txn oid rid with
  | none => exact ⟨by simp, by simp⟩
  | some held =>
    by_cases h1 : held = mode
    · simp [h1]
    · by_cases h2 : upgradable held mode
      · by_cases h3 : q.upgrading ≠ -1 <;> simp [h1, h2, h3]
      · simp [h1, h2]

end LockMgr

/-- C7 (amended): `LockPreCheck`'s early returns order the admission
rules.  For `LockRow`, an intention-mode request aborts with
`ATTEMPTED_INTENTION_LOCK_ON_ROW` before any isolation rule applies.
Under `READ_UNCOMMITTED`, an S, IS or SIX table request (and an S row
request) aborts with `LOCK_SHARED_ON_READ_UNCOMMITTED` regardless of the
transaction state, while an X or IX table request (or X row request)
during `SHRINKING` aborts with `LOCK_ON_SHRINKING`.  Under
`READ_COMMITTED`, an X, IX or SIX table request (or X row request) during
`SHRINKING` aborts with `LOCK_ON_SHRINKING`, while IS and S requests pass
the isolation admission.  Under `REPEATABLE_READ`, every table request and
every S/X row request during `SHRINKING` aborts with
`LOCK_ON_SHRINKING`. -/
theorem C7_isolation_admission (txn : LockMgr.Txn) (oid rid : Nat)
    (qt qr : LockMgr.LockRequestQueue) :
    (txn.isolation = .REPEATABLE_READ → txn.state = .SHRINKING →
      (∀ mode, (LockMgr.lockTable txn mode oid qt).1 =
        .aborted .LOCK_ON_SHRINKING) ∧
      (∀ mode, mode = .SHARED ∨ mode = .EXCLUSIVE →
        (LockMgr.lockRow txn mode oid rid qr).1 =
          .aborted .LOCK_ON_SHRINKING)) ∧
    (txn.isolation = .READ_UNCOMMITTED →
      (∀ mode, mode = .SHARED ∨ mode = .INTENTION_SHARED ∨
          mode = .SHARED_INTENTION_EXCLUSIVE →
        (LockMgr.lockTable txn mode oid qt).1 =
          .aborted .LOCK_SHARED_ON_READ_UNCOMMITTED) ∧
      (LockMgr.lockRow txn .SHARED oid rid qr).1 =
        .aborted .LOCK_SHARED_ON_READ_UNCOMMITTED) ∧
    (txn.isolation = .READ_UNCOMMITTED → txn.state = .SHRINKING →
      (∀ mode, mode = .EXCLUSIVE ∨ mode = .INTENTION_EXCLUSIVE →
        (LockMgr.lockTable txn mode oid qt).1 =
          .aborted .LOCK_ON_SHRINKING) ∧
      (LockMgr.lockRow txn .EXCLUSIVE oid rid qr).1 =
        .aborted .LOCK_ON_SHRINKING) ∧
    (txn.isolation = .READ_COMMITTED → txn.state = .SHRINKING →
      (∀ mode, mode = .EXCLUSIVE ∨ mode = .INTENTION_EXCLUSIVE ∨
          mode = .SHARED_INTENTION_EXCLUSIVE →
        (LockMgr.lockTable txn mode oid qt).1 =
          .aborted .LOCK_ON_SHRINKING) ∧
      (LockMgr.lockRow txn .EXCLUSIVE oid rid qr).1 =
        .aborted .LOCK_ON_SHRINKING) ∧
    (txn.isolation = .READ_COMMITTED → txn.state = .SHRINKING →
      (∀ mode, mode = .INTENTION_SHARED ∨ mode = .SHARED →
        (LockMgr.lockTable txn mode oid qt).1 ≠
          .aborted .LOCK_ON_SHRINKING ∧
        (LockMgr.lockTable txn mode oid qt).1 ≠
          .aborted .LOCK_SHARED_ON_READ_UNCOMMITTED) ∧
      ((LockMgr.lockRow txn .SHARED oid rid qr).1 ≠
          .aborted .LOCK_ON_SHRINKING ∧
        (LockMgr.lockRow txn .SHARED oid rid qr).1 ≠
          .aborted .LOCK_SHARED_ON_READ_UNCOMMITTED)) ∧
    (∀ mode, mode ≠ .SHARED → mode ≠ .EXCLUSIVE →
      (LockMgr.lockRow txn mode oid rid qr).1 =
        .aborted .ATTEMPTED_INTENTION_LOCK_ON_ROW) := by
  refine ⟨?_, ?_, ?_, ?_, ?_, ?_⟩
  · intro hIso hSt
    constructor
    · intro mode
      apply LockMgr.lockTable_abort_of_preCheck
      cases mode <;> simp [LockMgr.lockPreCheck, hIso, hSt]
    · intro mode hm
      apply LockMgr.lockRow_abort_of_preCheck
      rcases hm with hm | hm <;> subst hm <;>
        simp [LockMgr.lockPreCheck, hIso, hSt]
  · intro hIso
    constructor
    · intro mode hm
      apply LockMgr.lockTable_abort_of_preCheck
      rcases hm with hm | hm | hm <;> subst hm <;>
        simp [LockMgr.lockPreCheck, hIso]
    · apply LockMgr.lockRow_abort_of_preCheck
      simp [LockMgr.lockPreCheck, hIso]
  · intro hIso hSt
    constructor
    · intro mode hm
      apply LockMgr.lockTable_abort_of_preCheck
      rcases hm with hm | hm <;> subst hm <;>
        simp [LockMgr.lockPreCheck, hIso, hSt]
    · apply LockMgr.lockRow_abort_of_preCheck
      simp [LockMgr.lockPreCheck, hIso, hSt]
  · intro hIso hSt
    constructor
    · intro mode hm
      apply LockMgr.lockTable_abort_of_preCheck
      rcases hm with hm | hm | hm <;> subst hm <;>
        simp [LockMgr.lockPreCheck, hIso, hSt]
    · apply LockMgr.lockRow_abort_of_preCheck
      simp [LockMgr.lockPreCheck, hIso, hSt]
  · intro hIso hSt
    constructor
    · intro mode hm
      apply LockMgr.lockTable_no_shrink_abort
      rcases hm with hm | hm <;> subst hm <;>
        simp [LockMgr.lockPreCheck, hIso, hSt]
    · by_cases hg : LockMgr.getTableLockMode txn oid = -1
      · have habort : (LockMgr.lockRow txn .SHARED oid rid qr).1 =
            .aborted .TABLE_LOCK_NOT_PRESENT := by
          apply LockMgr.lockRow_abort_of_preCheck
          simp [LockMgr.lockPreCheck, hIso, hSt, hg]
        rw [habort]
        exact ⟨by simp, by simp⟩
      · apply LockMgr.lockRow_no_shrink_abort
        simp [LockMgr.lockPreCheck, hIso, hSt, hg]
  · intro mode hm1 hm2
    apply LockMgr.lockRow_abort_of_preCheck
    cases mode <;> simp_all [LockMgr.lockPreCheck]

/-- C7 counterexample to the claim as stated: under `READ_UNCOMMITTED`
with the transaction already `SHRINKING`, an S table request aborts with
`LOCK_SHARED_ON_READ_UNCOMMITTED` — not with `LOCK_ON_SHRINKING` as the
claim's "any request while SHRINKING" clause demands. -/
theorem C7_isolation_admission_counterexample :
    (LockMgr.lockTable
      ⟨0, .SHRINKING, .READ_UNCOMMITTED, [], [], [], [], [], [], []⟩
      .SHARED 1 ⟨[], -1⟩).1 =
        .aborted .LOCK_SHARED_ON_READ_UNCOMMITTED ∧
    (LockMgr.lockTable
      ⟨0, .SHRINKING, .READ_UNCOMMITTED, [], [], [], [], [], [], []⟩
      .SHARED 1 ⟨[], -1⟩).1 ≠ .aborted .LOCK_ON_SHRINKING := by
  decide

/-- Concrete transaction for the C7 witness: `REPEATABLE_READ`,
`SHRINKING`, no locks held. -/
def c7WitnessTxn : LockMgr.Txn :=
  ⟨0, .SHRINKING, .REPEATABLE_READ, [], [], [], [], [], [], []⟩

theorem C7_isolation_admission_witness :
    (LockMgr.lockTable c7WitnessTxn .EXCLUSIVE 1 ⟨[], -1⟩).1 =
      .aborted .LOCK_ON_SHRINKING :=
  ((C7_isolation_admission c7WitnessTxn 1 1 ⟨[], -1⟩ ⟨[], -1⟩).1
    rfl rfl).1 .EXCLUSIVE

/-- C10 (amended): when the admission pre-check passes, a transaction
that already holds a table (resp. row) lock of exactly the requested mode
gets `true` back immediately: no abort, no new queue entry, transaction
(lock sets included) and queue unchanged. -/
theorem C10_same_mode_fast_path (txn : LockMgr.Txn) (oid rid : Nat)
    (qt qr : LockMgr.LockRequestQueue) (mode : LockMgr.LockMode) :
    (LockMgr.lockPreCheck txn mode true oid = none →
      LockMgr.heldTableMode txn oid = some mode →
      LockMgr.lockTable txn mode oid qt = (.grantedSameMode, txn, qt)) ∧
    (LockMgr.lockPreCheck txn mode false oid = none →
      LockMgr.heldRowMode txn oid rid = some mode →
      LockMgr.lockRow txn mode oid rid qr = (.grantedSameMode, txn, qr)) := by
  constructor
  · intro hpc hheld
    unfold LockMgr.lockTable
    rw [hpc, hheld]
    simp
  · intro hpc hheld
    unfold LockMgr.lockRow
    rw [hpc, hheld]
    simp

/-- C10 counterexample to the claim as stated: a `REPEATABLE_READ`
transaction already `SHRINKING` that holds S on table 1 and calls
`LockTable(S, 1)` again does not get `true` back — the pre-check aborts
it with `LOCK_ON_SHRINKING` and marks it `ABORTED`. -/
theorem C10_same_mode_fast_path_counterexample :
    (LockMgr.lockTable
      ⟨0, .SHRINKING, .REPEATABLE_READ, [1], [], [], [], [], [], []⟩
      .SHARED 1 ⟨[⟨0, .SHARED, true⟩], -1⟩).1 =
        .aborted .LOCK_ON_SHRINKING ∧
    (LockMgr.lockTable
      ⟨0, .SHRINKING, .REPEATABLE_READ, [1], [], [], [], [], [], []⟩
      .SHARED 1 ⟨[⟨0, .SHARED, true⟩], -1⟩).2.1.state = .ABORTED := by
  decide

/-- Concrete transaction for the C10 witness: `GROWING`,
`REPEATABLE_READ`, holding S on table 1 and S on row (1,1). -/
def c10WitnessTxn : LockMgr.Txn :=
  ⟨0, .GROWING, .REPEATABLE_READ, [1], [], [], [], [], [(1, 1)], []⟩

theorem C10_same_mode_fast_path_witness :
    LockMgr.lockTable c10WitnessTxn .SHARED 1 ⟨[⟨0, .SHARED, true⟩], -1⟩ =
      (.grantedSameMode, c10WitnessTxn, ⟨[⟨0, .SHARED, true⟩], -1⟩) ∧
    LockMgr.lockRow c10WitnessTxn .SHARED 1 1 ⟨[⟨0, .SHARED, true⟩], -1⟩ =
      (.grantedSameMode, c10WitnessTxn, ⟨[⟨0, .SHARED, true⟩], -1⟩) :=
  ⟨(C10_same_mode_fast_path c10WitnessTxn 1 1 ⟨[⟨0, .SHARED, true⟩], -1⟩
      ⟨[⟨0, .SHARED, true⟩], -1⟩ .SHARED).1 (by decide) (by decide),
   (C10_same_mode_fast_path c10WitnessTxn 1 1 ⟨[⟨0, .SHARED, true⟩], -1⟩
      ⟨[⟨0, .SHARED, true⟩], -1⟩ .SHARED).2 (by decide) (by decide)⟩

namespace EHT

/-!
Shallow embedding of the page-based `ExtendibleHashTable` of
`src/container/hash/extendible_hash_table.cpp` (the variant whose
`SplitInsert` doubles the directory only when the probed bucket's local
depth equals the global depth) together with `HashTableBucketPage` of
`src/storage/page/hash_table_bucket_page.cpp`.

Bucket pages keep their `occupied_`/`readable_` bit pairs per slot.  The
directory page's accessors missing from the sources are modelled from
the spec and from the way the code uses them: `GetGlobalDepthMask` is
`2^global_depth - 1` (so `hash & mask` is `hash % 2^global_depth`),
`GetLocalDepthMask(i)` is `2^local_depth(i) - 1`, and
`GetLocalHighBit(i)` is `2^local_depth(i)` — the reading forced by the
loop asserts in `SplitInsert` (stepping by it must enumerate exactly the
slots sharing the bucket's low `local_depth` bits) and by `Merge`'s
`split_image_idx = bucket_idx + GetLocalHighBit/2`.  The fixed
`DIRECTORY_ARRAY_SIZE` bound is left out: the directory lists always
have length `2^global_depth`.
-/

/-- One slot of a bucket page: its `occupied_`/`readable_` bits and the
`array_` pair. -/
structure Slot where
  occupied : Bool
  readable : Bool
  key : Nat
  val : Nat
  deriving Repr, DecidableEq

/-- `NumReadable` (via `GetStatistics`): readable slots within the
occupied prefix — the scan breaks at the first non-occupied slot. -/
def bucketTaken : List Slot → Nat
  | [] => 0
  | s :: rest =>
    if !s.occupied then 0
    else (if s.readable then 1 else 0) + bucketTaken rest

/-- The duplicate scan of `HashTableBucketPage::Insert` (breaks at the
first non-occupied slot). -/
def bucketHasKV : List Slot → Nat → Nat → Bool
  | [], _, _ => false
  | s :: rest, k, v =>
    if !s.occupied then false
    else (s.readable && s.key == k && s.val == v) || bucketHasKV rest k v

/-- The placement scan of `HashTableBucketPage::Insert`: reuse the first
occupied-but-unreadable slot, else take the first non-occupied slot
(setting its occupied bit); `none` when every slot is occupied and
readable (the code's unreachable `assert`). -/
def bucketPlace : List Slot → Nat → Nat → Option (List Slot)
  | [], _, _ => none
  | s :: rest, k, v =>
    if !s.occupied then some ({ occupied := true, readable := true, key := k, val := v } :: rest)
    else if s.readable then (bucketPlace rest k v).map (s :: ·)
    else some ({ s with readable := true, key := k, val := v } :: rest)

/-- `HashTableBucketPage::Insert` (full or exact-duplicate insert leaves
the bucket unchanged and returns `false` in the source). -/
def bucketInsert (slots : List Slot) (k v : Nat) : List Slot :=
  if bucketTaken slots = slots.length then slots
  else if bucketHasKV slots k v then slots
  else (bucketPlace slots k v).getD slots

/-- `HashTableBucketPage::Remove`: clear the readable bit of the first
readable exact match within the occupied prefix. -/
def bucketRemove : List Slot → Nat → Nat → Option (List Slot)
  | [], _, _ => none
  | s :: rest, k, v =>
    if !s.occupied then none
    else if s.readable && s.key == k && s.val == v then
      some ({ s with readable := false } :: rest)
    else (bucketRemove rest k v).map (s :: ·)

/-- A zeroed bucket page fresh from `NewPage`. -/
def emptySlots (bsize : Nat) : List Slot :=
  List.replicate bsize ⟨false, false, 0, 0⟩

/-- The directory page: global depth plus the per-slot bucket page id and
local depth arrays (kept at length `2^global_depth`). -/
structure Dir where
  globalDepth : Nat
  bucketPageIds : List Nat
  localDepths : List Nat
  deriving Repr, DecidableEq

def pageIdAt (d : Dir) (i : Nat) : Nat := d.bucketPageIds.getD i 0

def ldAt (d : Dir) (i : Nat) : Nat := d.localDepths.getD i 0

def dirSize (d : Dir) : Nat := 2 ^ d.globalDepth

/-- `KeyToDirectoryIndex`: `Hash(key) & GetGlobalDepthMask()`. -/
def dirIndex (d : Dir) (h : Nat → Nat) (k : Nat) : Nat := h k % dirSize d

/-- The directory-doubling block of `SplitInsert`: copy every slot's page
id and local depth to `i + Size()`, then `IncrGlobalDepth`. -/
def doubleDir (d : Dir) : Dir :=
  ⟨d.globalDepth + 1, d.bucketPageIds ++ d.bucketPageIds,
    d.localDepths ++ d.localDepths⟩

/-- Index sequence of a `do { ...; idx = (idx + inc) % n; } while (idx !=
start)` loop, with fuel `n` (ample whenever `inc` divides `n`). -/
def ringAux (inc n start : Nat) : Nat → Nat → List Nat
  | 0, _ => []
  | fuel + 1, idx =>
    idx :: (if (idx + inc) % n = start then [] else ringAux inc n start fuel ((idx + inc) % n))

def ringIdx (start inc n : Nat) : List Nat := ringAux inc n start n start

/-- Whole-table state: directory, the bucket-page store, the page-id
allocator, and the bucket capacity `BUCKET_ARRAY_SIZE`. -/
structure HState where
  dir : Dir
  buckets : Nat → List Slot
  nextPageId : Nat
  bucketSize : Nat

/-- Update of the bucket store. -/
def setBucket (f : Nat → List Slot) (p : Nat) (b : List Slot) : Nat → List Slot :=
  fun q => if q = p then b else f q

/-- The redistribution loop of `SplitInsert`: for each slot index of the
old bucket (in order), if the slot's key now hashes to the bucket's own
low-`local_depth`-bits class, insert it into the split image and
`RemoveAt` it from the old bucket. -/
def redist (h : Nat → Nat) (m target : Nat) :
    List Slot → List Slot → List Slot × List Slot
  | [], si => ([], si)
  | s :: rest, si =>
    if h s.key % m = target then
      let si' := bucketInsert si s.key s.val
      let (b', si'') := redist h m target rest si'
      ({ s with readable := false } :: b', si'')
    else
      let (b', si') := redist h m target rest si
      (s :: b', si')

/-- The two do-while rings of `SplitInsert` over the (possibly already
doubled) directory: first increment the local depth of every slot of the
probed bucket's class (step = `GetLocalHighBit` before the increments),
then repoint the now finer class of the probed index to the fresh
sibling page (step = `GetLocalHighBit` after the increments). -/
def splitDirPhase (d1 : Dir) (idx newPid : Nat) : Dir :=
  let inc1 := 2 ^ ldAt d1 idx
  let d2 := (ringIdx idx inc1 (dirSize d1)).foldl
    (fun d i => { d with localDepths := d.localDepths.set i (ldAt d i + 1) }) d1
  let inc2 := 2 ^ ldAt d2 idx
  (ringIdx idx inc2 (dirSize d2)).foldl
    (fun d i => { d with bucketPageIds := d.bucketPageIds.set i newPid }) d2

/-- The non-recursive body of `ExtendibleHashTable::SplitInsert` on a
full bucket: conditional directory doubling, the two directory rings,
and item redistribution into the fresh sibling page. -/
def splitInsertStep (h : Nat → Nat) (s : HState) (k : Nat) : HState :=
  let idx := dirIndex s.dir h k
  let pid := pageIdAt s.dir idx
  -- double the directory first when the bucket's local depth has
  -- reached the global depth
  let d1 := if s.dir.globalDepth = ldAt s.dir idx then doubleDir s.dir else s.dir
  let newPid := s.nextPageId
  let d3 := splitDirPhase d1 idx newPid
  -- move the key/value pairs whose hash lands in the probed class
  let m := 2 ^ ldAt d3 idx
  let target := idx % m
  let moved := redist h m target (s.buckets pid) (emptySlots s.bucketSize)
  { dir := d3,
    buckets := setBucket (setBucket s.buckets pid moved.1) newPid moved.2,
    nextPageId := newPid + 1,
    bucketSize := s.bucketSize }

/-- `ExtendibleHashTable::SplitInsert`, with fuel bounding its retry
recursion. -/
def splitInsert (h : Nat → Nat) : Nat → HState → Nat → Nat → HState
  | 0, s, _, _ => s
  | fuel + 1, s, k, v =>
    let idx := dirIndex s.dir h k
    let pid := pageIdAt s.dir idx
    let b := s.buckets pid
    if bucketTaken b ≠ b.length then
      -- bucket no longer full: insert directly
      { s with buckets := setBucket s.buckets pid (bucketInsert b k v) }
    else
      splitInsert h fuel (splitInsertStep h s k) k v

/-- `ExtendibleHashTable::Insert`. -/
def insert (h : Nat → Nat) (fuel : Nat) (s : HState) (k v : Nat) : HState :=
  let pid := pageIdAt s.dir (dirIndex s.dir h k)
  let b := s.buckets pid
  if bucketTaken b = b.length then splitInsert h fuel s k v
  else { s with buckets := setBucket s.buckets pid (bucketInsert b k v) }

/-- `ExtendibleHashTable::Merge` (the page freed by `DeletePage` stays in
the store; no directory slot references it afterwards and page ids are
never reused by the allocator). -/
def merge (h : Nat → Nat) (s : HState) (k : Nat) : HState :=
  let idx := dirIndex s.dir h k
  let pid := pageIdAt s.dir idx
  let b := s.buckets pid
  let ld := ldAt s.dir idx
  let splitIdx := (idx + 2 ^ ld / 2) % dirSize s.dir
  let sld := ldAt s.dir splitIdx
  if bucketTaken b = 0 ∧ ld ≠ 0 ∧ sld = ld then
    let inc := 2 ^ ld / 2
    let d' := (ringIdx idx inc (dirSize s.dir)).foldl
      (fun d i =>
        { d with bucketPageIds := d.bucketPageIds.set i (pageIdAt d splitIdx),
                 localDepths := d.localDepths.set i (ldAt d i - 1) }) s.dir
    { s with dir := d' }
  else s

/-- `ExtendibleHashTable::Remove` (on success of the bucket-level remove,
an emptied bucket triggers `Merge`). -/
def remove (h : Nat → Nat) (s : HState) (k v : Nat) : HState :=
  let pid := pageIdAt s.dir (dirIndex s.dir h k)
  let b := s.buckets pid
  match bucketRemove b k v with
  | none => s
  | some b' =>
    let s' := { s with buckets := setBucket s.buckets pid b' }
    if bucketTaken b' = 0 then merge h s' k else s'

/-- The table right after the constructor: a one-slot directory of
global depth 0 whose slot references the first bucket page, every local
depth 0. -/
def initState (bsize : Nat) : HState :=
  { dir := ⟨0, [1], [0]⟩,
    buckets := fun _ => emptySlots bsize,
    nextPageId := 2,
    bucketSize := bsize }

/-- States reachable through the table's mutating interface. -/
inductive Reachable (h : Nat → Nat) (bsize : Nat) : HState → Prop where
  | init : Reachable h bsize (initState bsize)
  | insert {s : HState} (fuel k v : Nat) :
      Reachable h bsize s → Reachable h bsize (insert h fuel s k v)
  | remove {s : HState} (k v : Nat) :
      Reachable h bsize s → Reachable h bsize (remove h s k v)

/-- The inductive directory invariant: the two directory arrays have
length `2^global_depth`, local depths are bounded by the global depth,
and the slots agreeing with slot `i` on the low `local_depth(i)` bits
form a class with the same bucket page and the same local depth. -/
structure DirInv (d : Dir) : Prop where
  lenIds : d.bucketPageIds.length = 2 ^ d.globalDepth
  lenLds : d.localDepths.length = 2 ^ d.globalDepth
  ldLe : ∀ i < 2 ^ d.globalDepth, ldAt d i ≤ d.globalDepth
  classEq : ∀ i < 2 ^ d.globalDepth, ∀ j < 2 ^ d.globalDepth,
    i % 2 ^ ldAt d i = j % 2 ^ ldAt d i →
    pageIdAt d j = pageIdAt d i ∧ ldAt d j = ldAt d i

theorem getD_set_eq (l : List Nat) (i j v : Nat) (h : i < l.length) :
    (l.set i v).getD j 0 = if i = j then v else l.getD j 0 := by
  rcases Decidable.em (i = j) with he | he
  · subst he
    rw [if_pos rfl, List.getD_eq_getElem _ _ (by simpa using h)]
    simp [List.getElem_set, h]
  · rw [if_neg he]
    by_cases hj : j < l.length
    · rw [List.getD_eq_getElem _ _ (by simpa using hj), List.getD_eq_getElem _ _ hj]
      simp [List.getElem_set, he]
    · rw [List.getD_eq_default _ _ (by simpa using Nat.le_of_not_lt hj),
        List.getD_eq_default _ _ (Nat.le_of_not_lt hj)]

/-- One unfolding of the do-while enumeration. -/
theorem ringAux_eq (inc n start : Nat) (hpos : 0 < inc) (hdvd : inc ∣ n)
    (hstart : start < n) :
    ∀ cnt j fuel, j + cnt = n / inc → 0 < cnt → cnt ≤ fuel →
      ringAux inc n start fuel ((start + j * inc) % n) =
        (List.range' j cnt).map (fun t => (start + t * inc) % n) := by
  intro cnt
  induction cnt with
  | zero => intro j fuel _ h0 _; exact absurd h0 (lt_irrefl 0)
  | succ cnt ih =>
    intro j fuel hsum h0 hfuel
    obtain ⟨fuel', rfl⟩ : ∃ f, fuel = f + 1 := ⟨fuel - 1, by omega⟩
    have hn0 : 0 < n := lt_of_le_of_lt (Nat.zero_le _) hstart
    have hnext : ((start + j * inc) % n + inc) % n = (start + (j + 1) * inc) % n := by
      rw [Nat.mod_add_mod]
      congr 1
      ring
    rcases Nat.eq_zero_or_pos cnt with hc0 | hcpos
    · subst hc0
      have hmul : (j + 1) * inc = n := by
        rw [show j + 1 = n / inc from by omega, Nat.div_mul_cancel hdvd]
      have hdiv : (start + (j + 1) * inc) % n = start := by
        rw [hmul, Nat.add_mod_right, Nat.mod_eq_of_lt hstart]
      simp only [ringAux, hnext, hdiv, if_pos rfl]
      simp [List.range']
    · have hlt : (j + 1) * inc < n := by
        have hj1 : j + 1 < n / inc := by omega
        have h2 := (Nat.lt_div_iff_mul_lt hdvd (j + 1)).mp hj1
        rw [Nat.mul_comm] at h2
        exact h2
      have hne : (start + (j + 1) * inc) % n ≠ start := by
        intro he
        have h1 : start ≡ start + (j + 1) * inc [MOD n] := by
          unfold Nat.ModEq
          rw [he, Nat.mod_eq_of_lt hstart]
        have h2 : n ∣ (j + 1) * inc := by
          have := (Nat.modEq_iff_dvd' (Nat.le_add_right start ((j + 1) * inc))).mp h1
          simpa using this
        have h3 : 0 < (j + 1) * inc := Nat.mul_pos (Nat.succ_pos j) hpos
        exact absurd (Nat.le_of_dvd h3 h2) (Nat.not_le_of_lt hlt)
      simp only [ringAux, hnext, if_neg hne]
      rw [ih (j + 1) fuel' (by omega) hcpos (by omega), List.range'_succ]
      rfl

/-- The do-while over a ring of step `inc` through a directory of size
`n` enumerates `(start + t·inc) % n` for `t < n / inc`. -/
theorem ringIdx_eq (start inc n : Nat) (hpos : 0 < inc) (hdvd : inc ∣ n)
    (hstart : start < n) :
    ringIdx start inc n =
      (List.range (n / inc)).map (fun t => (start + t * inc) % n) := by
  have hn0 : 0 < n := lt_of_le_of_lt (Nat.zero_le _) hstart
  have hq : 0 < n / inc := Nat.div_pos (Nat.le_of_dvd hn0 hdvd) hpos
  have h := ringAux_eq inc n start hpos hdvd hstart (n / inc) 0 n (by omega) hq
    (Nat.div_le_self n inc)
  unfold ringIdx
  rw [show (start + 0 * inc) % n = start from by
    simp [Nat.mod_eq_of_lt hstart]] at h
  rw [h, List.range_eq_range']

/-- Membership in the ring: exactly the indices below `n` that agree with
`start` modulo the step. -/
theorem mem_ringIdx {start inc n : Nat} (hpos : 0 < inc) (hdvd : inc ∣ n)
    (hstart : start < n) (i : Nat) :
    i ∈ ringIdx start inc n ↔ i < n ∧ i % inc = start % inc := by
  have hn0 : 0 < n := lt_of_le_of_lt (Nat.zero_le _) hstart
  rw [ringIdx_eq start inc n hpos hdvd hstart]
  constructor
  · intro hi
    obtain ⟨t, _, rfl⟩ := List.mem_map.mp hi
    refine ⟨Nat.mod_lt _ hn0, ?_⟩
    rw [Nat.mod_mod_of_dvd _ hdvd, Nat.add_mul_mod_self_right]
  · rintro ⟨hin, hmod⟩
    apply List.mem_map.mpr
    rcases le_or_lt start i with hge | hlt
    · have h1 : start ≡ i [MOD inc] := by
        unfold Nat.ModEq
        omega
      obtain ⟨t, ht⟩ := (Nat.modEq_iff_dvd' hge).mp h1
      refine ⟨t, ?_, ?_⟩
      · apply List.mem_range.mpr
        exact (Nat.lt_div_iff_mul_lt hdvd t).mpr (by omega)
      · have heq : start + t * inc = i := by
          rw [Nat.mul_comm]
          omega
        rw [heq, Nat.mod_eq_of_lt hin]
    · have hz : n % inc = 0 := by
        obtain ⟨c, rfl⟩ := hdvd
        exact Nat.mul_mod_right inc c
      have hin_mod : (i + n) % inc = i % inc := by
        rw [Nat.add_mod, hz]
        simp
      have h1 : start ≡ i + n [MOD inc] := by
        unfold Nat.ModEq
        omega
      have hge' : start ≤ i + n := le_trans (Nat.le_of_lt hstart) (Nat.le_add_left n i)
      obtain ⟨t, ht⟩ := (Nat.modEq_iff_dvd' hge').mp h1
      refine ⟨t, ?_, ?_⟩
      · apply List.mem_range.mpr
        rw [Nat.lt_div_iff_mul_lt hdvd]
        omega
      · have heq : start + t * inc = i + n := by
          rw [Nat.mul_comm]
          omega
        rw [heq, Nat.add_mod_right, Nat.mod_eq_of_lt hin]

theorem nodup_ringIdx {start inc n : Nat} (hpos : 0 < inc) (hdvd : inc ∣ n)
    (hstart : start < n) : (ringIdx start inc n).Nodup := by
  rw [ringIdx_eq start inc n hpos hdvd hstart]
  apply List.Nodup.map_on ?_ (List.nodup_range _)
  intro x hx y hy hf
  have key : ∀ a b : Nat, a ∈ List.range (n / inc) → b ∈ List.range (n / inc) →
      a < b → (start + a * inc) % n = (start + b * inc) % n → False := by
    intro a b _ hbm hab he
    have h1 : start + a * inc ≡ start + b * inc [MOD n] := he
    have h2 := (Nat.modEq_iff_dvd' (by
      have : a * inc ≤ b * inc := Nat.mul_le_mul_right inc (Nat.le_of_lt hab)
      omega)).mp h1
    have h3 : start + b * inc - (start + a * inc) = (b - a) * inc := by
      rw [Nat.sub_mul]
      omega
    rw [h3] at h2
    have h4 : 0 < (b - a) * inc := Nat.mul_pos (by omega) hpos
    have h5 : (b - a) * inc < n := by
      have hbn : b < n / inc := List.mem_range.mp hbm
      have h6 := (Nat.lt_div_iff_mul_lt hdvd b).mp hbn
      have h7 : (b - a) * inc ≤ b * inc := Nat.mul_le_mul_right inc (by omega)
      rw [Nat.mul_comm] at h6
      omega
    exact absurd (Nat.le_of_dvd h4 h2) (Nat.not_le_of_lt h5)
  rcases Nat.lt_trichotomy x y with hxy | hxy | hxy
  · exact absurd hf (fun he => key x y hx hy hxy he)
  · exact hxy
  · exact absurd hf (fun he => key y x hy hx hxy he.symm)

/-- Effect of the first `SplitInsert` ring (local-depth increments),
pointwise. -/
theorem foldIncr_spec (L : List Nat) :
    ∀ d : Dir, L.Nodup → (∀ i ∈ L, i < d.localDepths.length) →
    (L.foldl
      (fun d i => { d with localDepths := d.localDepths.set i (ldAt d i + 1) })
        d).globalDepth = d.globalDepth ∧
    (L.foldl
      (fun d i => { d with localDepths := d.localDepths.set i (ldAt d i + 1) })
        d).bucketPageIds = d.bucketPageIds ∧
    (L.foldl
      (fun d i => { d with localDepths := d.localDepths.set i (ldAt d i + 1) })
        d).localDepths.length = d.localDepths.length ∧
    ∀ i, ldAt (L.foldl
      (fun d i => { d with localDepths := d.localDepths.set i (ldAt d i + 1) })
        d) i = if i ∈ L then ldAt d i + 1 else ldAt d i := by
  induction L with
  | nil => exact fun d _ _ => ⟨rfl, rfl, rfl, fun i => by simp⟩
  | cons a L ih =>
    intro d hnd hb
    have ha : a < d.localDepths.length := hb a (List.mem_cons_self a L)
    have hlen1 : ({ d with localDepths := d.localDepths.set a (ldAt d a + 1) } :
        Dir).localDepths.length = d.localDepths.length := by
      simp
    have hld1 : ∀ i, ldAt { d with localDepths := d.localDepths.set a (ldAt d a + 1) } i =
        if a = i then ldAt d a + 1 else ldAt d i := by
      intro i
      exact getD_set_eq d.localDepths a i _ ha
    obtain ⟨hg, hp, hl, hv⟩ := ih { d with localDepths := d.localDepths.set a (ldAt d a + 1) }
      (List.Nodup.of_cons hnd)
      (fun i hi => by rw [hlen1]; exact hb i (List.mem_cons_of_mem a hi))
    rw [List.foldl_cons]
    refine ⟨hg, hp, by rw [hl, hlen1], ?_⟩
    intro i
    rw [hv i, hld1 i]
    have hna : a ∉ L := (List.nodup_cons.mp hnd).1
    by_cases hia : i = a
    · subst hia
      simp [hna]
    · by_cases hiL : i ∈ L <;> simp [hia, hiL, Ne.symm hia]

/-- Effect of the second `SplitInsert` ring (repointing to the fresh
page), pointwise. -/
theorem foldRepoint_spec (newPid : Nat) (L : List Nat) :
    ∀ d : Dir, L.Nodup → (∀ i ∈ L, i < d.bucketPageIds.length) →
    (L.foldl
      (fun d i => { d with bucketPageIds := d.bucketPageIds.set i newPid })
        d).globalDepth = d.globalDepth ∧
    (L.foldl
      (fun d i => { d with bucketPageIds := d.bucketPageIds.set i newPid })
        d).localDepths = d.localDepths ∧
    (L.foldl
      (fun d i => { d with bucketPageIds := d.bucketPageIds.set i newPid })
        d).bucketPageIds.length = d.bucketPageIds.length ∧
    ∀ i, pageIdAt (L.foldl
      (fun d i => { d with bucketPageIds := d.bucketPageIds.set i newPid })
        d) i = if i ∈ L then newPid else pageIdAt d i := by
  induction L with
  | nil => exact fun d _ _ => ⟨rfl, rfl, rfl, fun i => by simp⟩
  | cons a L ih =>
    intro d hnd hb
    have ha : a < d.bucketPageIds.length := hb a (List.mem_cons_self a L)
    have hlen1 : ({ d with bucketPageIds := d.bucketPageIds.set a newPid } :
        Dir).bucketPageIds.length = d.bucketPageIds.length := by
      simp
    have hpg1 : ∀ i, pageIdAt { d with bucketPageIds := d.bucketPageIds.set a newPid } i =
        if a = i then newPid else pageIdAt d i := by
      intro i
      exact getD_set_eq d.bucketPageIds a i _ ha
    obtain ⟨hg, hp, hl, hv⟩ := ih { d with bucketPageIds := d.bucketPageIds.set a newPid }
      (List.Nodup.of_cons hnd)
      (fun i hi => by rw [hlen1]; exact hb i (List.mem_cons_of_mem a hi))
    rw [List.foldl_cons]
    refine ⟨hg, hp, by rw [hl, hlen1], ?_⟩
    intro i
    rw [hv i, hpg1 i]
    have hna : a ∉ L := (List.nodup_cons.mp hnd).1
    by_cases hia : i = a
    · subst hia
      simp [hna]
    · by_cases hiL : i ∈ L <;> simp [hia, hiL, Ne.symm hia]

/-- Effect of the `Merge` ring: every visited slot is repointed to the
(unchanging) page of the split image and its local depth decremented. -/
theorem foldMerge_spec (splitIdx : Nat) (L : List Nat) :
    ∀ (d : Dir) (P : Nat), L.Nodup →
    (∀ i ∈ L, i < d.bucketPageIds.length ∧ i < d.localDepths.length) →
    pageIdAt d splitIdx = P →
    (L.foldl
      (fun d i =>
        { d with bucketPageIds := d.bucketPageIds.set i (pageIdAt d splitIdx),
                 localDepths := d.localDepths.set i (ldAt d i - 1) })
        d).globalDepth = d.globalDepth ∧
    (L.foldl
      (fun d i =>
        { d with bucketPageIds := d.bucketPageIds.set i (pageIdAt d splitIdx),
                 localDepths := d.localDepths.set i (ldAt d i - 1) })
        d).bucketPageIds.length = d.bucketPageIds.length ∧
    (L.foldl
      (fun d i =>
        { d with bucketPageIds := d.bucketPageIds.set i (pageIdAt d splitIdx),
                 localDepths := d.localDepths.set i (ldAt d i - 1) })
        d).localDepths.length = d.localDepths.length ∧
    (∀ i, pageIdAt (L.foldl
      (fun d i =>
        { d with bucketPageIds := d.bucketPageIds.set i (pageIdAt d splitIdx),
                 localDepths := d.localDepths.set i (ldAt d i - 1) })
        d) i = if i ∈ L then P else pageIdAt d i) ∧
    (∀ i, ldAt (L.foldl
      (fun d i =>
        { d with bucketPageIds := d.bucketPageIds.set i (pageIdAt d splitIdx),
                 localDepths := d.localDepths.set i (ldAt d i - 1) })
        d) i = if i ∈ L then ldAt d i - 1 else ldAt d i) := by
  induction L with
  | nil =>
    exact fun d P _ _ _ => ⟨rfl, rfl, rfl, fun i => by simp, fun i => by simp⟩
  | cons a L ih =>
    intro d P hnd hb hP
    have ha := hb a (List.mem_cons_self a L)
    have hlen1p : ({ d with
        bucketPageIds := d.bucketPageIds.set a (pageIdAt d splitIdx),
        localDepths := d.localDepths.set a (ldAt d a - 1) } :
          Dir).bucketPageIds.length = d.bucketPageIds.length := by
      simp
    have hlen1l : ({ d with
        bucketPageIds := d.bucketPageIds.set a (pageIdAt d splitIdx),
        localDepths := d.localDepths.set a (ldAt d a - 1) } :
          Dir).localDepths.length = d.localDepths.length := by
      simp
    have hpg1 : ∀ i, pageIdAt { d with
        bucketPageIds := d.bucketPageIds.set a (pageIdAt d splitIdx),
        localDepths := d.localDepths.set a (ldAt d a - 1) } i =
        if a = i then P else pageIdAt d i := by
      intro i
      show (d.bucketPageIds.set a (pageIdAt d splitIdx)).getD i 0 = _
      rw [getD_set_eq d.bucketPageIds a i _ ha.1, hP]
      rfl
    have hld1 : ∀ i, ldAt { d with
        bucketPageIds := d.bucketPageIds.set a (pageIdAt d splitIdx),
        localDepths := d.localDepths.set a (ldAt d a - 1) } i =
        if a = i then ldAt d a - 1 else ldAt d i := by
      intro i
      exact getD_set_eq d.localDepths a i _ ha.2
    have hP1 : pageIdAt { d with
        bucketPageIds := d.bucketPageIds.set a (pageIdAt d splitIdx),
        localDepths := d.localDepths.set a (ldAt d a - 1) } splitIdx = P := by
      rw [hpg1 splitIdx]
      by_cases hsa : a = splitIdx <;> simp [hsa, hP]
    obtain ⟨hg, hp, hl, hv, hw⟩ := ih { d with
        bucketPageIds := d.bucketPageIds.set a (pageIdAt d splitIdx),
        localDepths := d.localDepths.set a (ldAt d a - 1) } P
      (List.Nodup.of_cons hnd)
      (fun i hi => by
        rw [hlen1p, hlen1l]
        exact hb i (List.mem_cons_of_mem a hi)) hP1
    have hna : a ∉ L := (List.nodup_cons.mp hnd).1
    rw [List.foldl_cons]
    refine ⟨hg, by rw [hp, hlen1p], by rw [hl, hlen1l], ?_, ?_⟩
    · intro i
      rw [hv i, hpg1 i]
      by_cases hia : i = a
      · subst hia
        simp [hna]
      · by_cases hiL : i ∈ L <;> simp [hia, hiL, Ne.symm hia]
    · intro i
      rw [hw i, hld1 i]
      by_cases hia : i = a
      · subst hia
        simp [hna]
      · by_cases hiL : i ∈ L <;> simp [hia, hiL, Ne.symm hia]

theorem mod_coarser {i j a b : Nat} (h : i % 2 ^ a = j % 2 ^ a) (hba : b ≤ a) :
    i % 2 ^ b = j % 2 ^ b := by
  have hd : 2 ^ b ∣ 2 ^ a := pow_dvd_pow 2 hba
  rw [← Nat.mod_mod_of_dvd i hd, ← Nat.mod_mod_of_dvd j hd, h]

theorem mod_two_cases {x m : Nat} (hm : 0 < m) (hx : x < 2 * m) :
    x = x % m ∨ x = m + x % m := by
  have hd := Nat.div_add_mod x m
  have hmm : x % m < m := Nat.mod_lt x hm
  have hq : x / m < 2 := by
    by_contra hq
    have h2 : 2 ≤ x / m := Nat.le_of_not_lt hq
    have h3 : m * 2 ≤ m * (x / m) := Nat.mul_le_mul_left m h2
    omega
  have hq2 : x / m = 0 ∨ x / m = 1 := by
    rcases Nat.eq_zero_or_pos (x / m) with h0 | hpos
    · exact Or.inl h0
    · exact Or.inr (Nat.le_antisymm (Nat.lt_succ_iff.mp hq) hpos)
  rcases hq2 with h0 | h1
  · rw [h0, Nat.mul_zero] at hd
    omega
  · rw [h1, Nat.mul_one] at hd
    omega

theorem mod_half_cases {j idx m : Nat} (hm : 0 < m) (h : j % m = idx % m) :
    j % (2 * m) = idx % (2 * m) ∨ j % (2 * m) = (idx + m) % (2 * m) := by
  have h2m : 0 < 2 * m := by omega
  have hjm : j % (2 * m) % m = j % m := Nat.mod_mod_of_dvd j ⟨2, by ring⟩
  have him : idx % (2 * m) % m = idx % m := Nat.mod_mod_of_dvd idx ⟨2, by ring⟩
  have hr : idx % m < m := Nat.mod_lt idx hm
  have hx := mod_two_cases hm (Nat.mod_lt j h2m)
  have hy := mod_two_cases hm (Nat.mod_lt idx h2m)
  rw [hjm, h] at hx
  rw [him] at hy
  have hz : (idx + m) % (2 * m) = (idx % (2 * m) + m) % (2 * m) := by
    rw [Nat.mod_add_mod]
  rcases hy with hy | hy
  · have hval : (idx + m) % (2 * m) = idx % m + m := by
      rw [hz, hy, Nat.mod_eq_of_lt (by omega)]
    rcases hx with hx | hx
    · left
      omega
    · right
      rw [hval]
      omega
  · have hval : (idx + m) % (2 * m) = idx % m := by
      rw [hz, hy]
      have he : m + idx % m + m = 2 * m + idx % m := by omega
      rw [he, Nat.add_mod_left, Nat.mod_eq_of_lt (by omega)]
    rcases hx with hx | hx
    · right
      rw [hval]
      omega
    · left
      omega

theorem getD_append_double {l : List Nat} {g i : Nat} (hl : l.length = 2 ^ g)
    (hi : i < 2 ^ (g + 1)) : (l ++ l).getD i 0 = l.getD (i % 2 ^ g) 0 := by
  have hpow : 2 ^ (g + 1) = 2 ^ g * 2 := Nat.pow_succ ..
  by_cases h : i < 2 ^ g
  · rw [List.getD_append _ _ _ _ (by rw [hl]; exact h), Nat.mod_eq_of_lt h]
  · rw [List.getD_append_right _ _ _ _ (by rw [hl]; omega)]
    congr 1
    rw [hl]
    have h1 : 2 ^ g ≤ i := Nat.le_of_not_lt h
    rw [Nat.mod_eq_sub_mod h1, Nat.mod_eq_of_lt (by omega)]

theorem doubleDir_pageIdAt {d : Dir} (hinv : DirInv d) {i : Nat}
    (hi : i < 2 ^ (d.globalDepth + 1)) :
    pageIdAt (doubleDir d) i = pageIdAt d (i % 2 ^ d.globalDepth) :=
  getD_append_double hinv.lenIds hi

theorem doubleDir_ldAt {d : Dir} (hinv : DirInv d) {i : Nat}
    (hi : i < 2 ^ (d.globalDepth + 1)) :
    ldAt (doubleDir d) i = ldAt d (i % 2 ^ d.globalDepth) :=
  getD_append_double hinv.lenLds hi

theorem doubleDir_dirInv {d : Dir} (hinv : DirInv d) : DirInv (doubleDir d) := by
  have hpow : 2 ^ (d.globalDepth + 1) = 2 ^ d.globalDepth * 2 :=
    Nat.pow_succ ..
  have hlt : ∀ i < 2 ^ (d.globalDepth + 1), i % 2 ^ d.globalDepth < 2 ^ d.globalDepth :=
    fun i _ => Nat.mod_lt i (Nat.pos_pow_of_pos _ (by omega))
  refine ⟨?_, ?_, ?_, ?_⟩
  · show (d.bucketPageIds ++ d.bucketPageIds).length = 2 ^ (d.globalDepth + 1)
    rw [List.length_append, hinv.lenIds, hpow]
    omega
  · show (d.localDepths ++ d.localDepths).length = 2 ^ (d.globalDepth + 1)
    rw [List.length_append, hinv.lenLds, hpow]
    omega
  · intro i hi
    show ldAt (doubleDir d) i ≤ d.globalDepth + 1
    rw [doubleDir_ldAt hinv hi]
    exact le_trans (hinv.ldLe _ (hlt i hi)) (Nat.le_succ _)
  · intro i hi j hj hmod
    show pageIdAt (doubleDir d) j = pageIdAt (doubleDir d) i ∧
      ldAt (doubleDir d) j = ldAt (doubleDir d) i
    rw [doubleDir_pageIdAt hinv hi, doubleDir_pageIdAt hinv hj,
      doubleDir_ldAt hinv hi, doubleDir_ldAt hinv hj]
    rw [doubleDir_ldAt hinv hi] at hmod
    have ha : ldAt d (i % 2 ^ d.globalDepth) ≤ d.globalDepth :=
      hinv.ldLe _ (hlt i hi)
    have hmod' : (i % 2 ^ d.globalDepth) % 2 ^ ldAt d (i % 2 ^ d.globalDepth) =
        (j % 2 ^ d.globalDepth) % 2 ^ ldAt d (i % 2 ^ d.globalDepth) := by
      have hdvd : 2 ^ ldAt d (i % 2 ^ d.globalDepth) ∣ 2 ^ d.globalDepth :=
        pow_dvd_pow 2 ha
      rw [Nat.mod_mod_of_dvd i hdvd, Nat.mod_mod_of_dvd j hdvd]
      exact hmod
    exact hinv.classEq _ (hlt i hi) _ (hlt j hj) hmod'

/-- Characterization of the second `SplitInsert` ring and the resulting
directory invariant, stated over any directory `d2` that agrees with `d`
except that the local depths of the probed class were incremented. -/
theorem splitRing2_dirInv (d d2 : Dir) (idx newPid : Nat) (hinv : DirInv d)
    (hidx : idx < 2 ^ d.globalDepth) (hlt : ldAt d idx < d.globalDepth)
    (hg2 : d2.globalDepth = d.globalDepth)
    (hids2 : d2.bucketPageIds = d.bucketPageIds)
    (hlen2 : d2.localDepths.length = 2 ^ d.globalDepth)
    (hld2 : ∀ i, ldAt d2 i =
      if i < dirSize d ∧ i % 2 ^ ldAt d idx = idx % 2 ^ ldAt d idx
      then ldAt d idx + 1 else ldAt d i) :
    ((ringIdx idx (2 ^ ldAt d2 idx) (dirSize d2)).foldl
      (fun d i => { d with bucketPageIds := d.bucketPageIds.set i newPid })
        d2).globalDepth = d.globalDepth ∧
    ((ringIdx idx (2 ^ ldAt d2 idx) (dirSize d2)).foldl
      (fun d i => { d with bucketPageIds := d.bucketPageIds.set i newPid })
        d2).bucketPageIds.length = 2 ^ d.globalDepth ∧
    ((ringIdx idx (2 ^ ldAt d2 idx) (dirSize d2)).foldl
      (fun d i => { d with bucketPageIds := d.bucketPageIds.set i newPid })
        d2).localDepths.length = 2 ^ d.globalDepth ∧
    (∀ i, ldAt ((ringIdx idx (2 ^ ldAt d2 idx) (dirSize d2)).foldl
      (fun d i => { d with bucketPageIds := d.bucketPageIds.set i newPid })
        d2) i =
      if i < dirSize d ∧ i % 2 ^ ldAt d idx = idx % 2 ^ ldAt d idx
      then ldAt d idx + 1 else ldAt d i) ∧
    (∀ i, pageIdAt ((ringIdx idx (2 ^ ldAt d2 idx) (dirSize d2)).foldl
      (fun d i => { d with bucketPageIds := d.bucketPageIds.set i newPid })
        d2) i =
      if i < dirSize d ∧ i % 2 ^ (ldAt d idx + 1) = idx % 2 ^ (ldAt d idx + 1)
      then newPid else pageIdAt d i) ∧
    DirInv ((ringIdx idx (2 ^ ldAt d2 idx) (dirSize d2)).foldl
      (fun d i => { d with bucketPageIds := d.bucketPageIds.set i newPid })
        d2) := by
  have hidx' : idx < dirSize d := hidx
  have hld2idx : ldAt d2 idx = ldAt d idx + 1 := by
    have hcond : idx < dirSize d ∧ idx % 2 ^ ldAt d idx = idx % 2 ^ ldAt d idx :=
      ⟨hidx', rfl⟩
    rw [hld2 idx, if_pos hcond]
  have hsz2 : dirSize d2 = dirSize d := by
    simp only [dirSize, hg2]
  have hR2 : ringIdx idx (2 ^ ldAt d2 idx) (dirSize d2) =
      ringIdx idx (2 ^ (ldAt d idx + 1)) (dirSize d) := by
    rw [hld2idx, hsz2]
  have hpos2 : 0 < 2 ^ (ldAt d idx + 1) := Nat.pos_pow_of_pos _ (by omega)
  have hdvd2 : 2 ^ (ldAt d idx + 1) ∣ dirSize d := pow_dvd_pow 2 hlt
  have hmem2 := mem_ringIdx hpos2 hdvd2 hidx'
  have hnd2' : (ringIdx idx (2 ^ ldAt d2 idx) (dirSize d2)).Nodup := by
    rw [hR2]
    exact nodup_ringIdx hpos2 hdvd2 hidx'
  have hbd2' : ∀ i ∈ ringIdx idx (2 ^ ldAt d2 idx) (dirSize d2),
      i < d2.bucketPageIds.length := by
    intro i hi
    rw [hR2] at hi
    rw [hids2, hinv.lenIds]
    exact ((hmem2 i).mp hi).1
  have hmem2' : ∀ i, i ∈ ringIdx idx (2 ^ ldAt d2 idx) (dirSize d2) ↔
      i < dirSize d ∧ i % 2 ^ (ldAt d idx + 1) = idx % 2 ^ (ldAt d idx + 1) := by
    intro i
    rw [hR2]
    exact mem_ringIdx hpos2 hdvd2 hidx' i
  obtain ⟨hg3, hlds3, hlen3, hpg3⟩ := foldRepoint_spec newPid
    (ringIdx idx (2 ^ ldAt d2 idx) (dirSize d2)) d2 hnd2' hbd2'
  have hgT := hg3.trans hg2
  have hlenIdsT : ((ringIdx idx (2 ^ ldAt d2 idx) (dirSize d2)).foldl
      (fun d i => { d with bucketPageIds := d.bucketPageIds.set i newPid })
        d2).bucketPageIds.length = 2 ^ d.globalDepth := by
    rw [hlen3, hids2, hinv.lenIds]
  have hlenLdsT : ((ringIdx idx (2 ^ ldAt d2 idx) (dirSize d2)).foldl
      (fun d i => { d with bucketPageIds := d.bucketPageIds.set i newPid })
        d2).localDepths.length = 2 ^ d.globalDepth := by
    rw [hlds3, hlen2]
  have hldchar : ∀ i, ldAt ((ringIdx idx (2 ^ ldAt d2 idx) (dirSize d2)).foldl
      (fun d i => { d with bucketPageIds := d.bucketPageIds.set i newPid })
        d2) i =
      if i < dirSize d ∧ i % 2 ^ ldAt d idx = idx % 2 ^ ldAt d idx
      then ldAt d idx + 1 else ldAt d i := by
    intro i
    have h1 : ldAt ((ringIdx idx (2 ^ ldAt d2 idx) (dirSize d2)).foldl
        (fun d i => { d with bucketPageIds := d.bucketPageIds.set i newPid })
          d2) i = ldAt d2 i :=
      congrArg (fun l : List Nat => l.getD i 0) hlds3
    rw [h1]
    exact hld2 i
  have hpgchar : ∀ i, pageIdAt ((ringIdx idx (2 ^ ldAt d2 idx) (dirSize d2)).foldl
      (fun d i => { d with bucketPageIds := d.bucketPageIds.set i newPid })
        d2) i =
      if i < dirSize d ∧ i % 2 ^ (ldAt d idx + 1) = idx % 2 ^ (ldAt d idx + 1)
      then newPid else pageIdAt d i := by
    intro i
    rw [hpg3 i]
    by_cases hC : i < dirSize d ∧
        i % 2 ^ (ldAt d idx + 1) = idx % 2 ^ (ldAt d idx + 1)
    · rw [if_pos ((hmem2' i).mpr hC), if_pos hC]
    · rw [if_neg (fun hm => hC ((hmem2' i).mp hm)), if_neg hC]
      simp only [pageIdAt]
      rw [hids2]
  refine ⟨hgT, hlenIdsT, hlenLdsT, hldchar, hpgchar, ?_, ?_, ?_, ?_⟩
  · rw [hgT]
    exact hlenIdsT
  · rw [hgT]
    exact hlenLdsT
  · intro i hi
    rw [hgT] at hi
    rw [hldchar i, hgT]
    by_cases hc : i < dirSize d ∧ i % 2 ^ ldAt d idx = idx % 2 ^ ldAt d idx
    · rw [if_pos hc]
      exact hlt
    · rw [if_neg hc]
      exact hinv.ldLe i hi
  · intro i hi j hj hmod
    rw [hgT] at hi hj
    by_cases hPi : i % 2 ^ ldAt d idx = idx % 2 ^ ldAt d idx
    · have hci : i < dirSize d ∧ i % 2 ^ ldAt d idx = idx % 2 ^ ldAt d idx :=
        ⟨hi, hPi⟩
      have hldi := hldchar i
      rw [if_pos hci] at hldi
      rw [hldi] at hmod
      have hPj : j % 2 ^ ldAt d idx = idx % 2 ^ ldAt d idx :=
        (mod_coarser hmod.symm (Nat.le_succ _)).trans hPi
      have hcj : j < dirSize d ∧ j % 2 ^ ldAt d idx = idx % 2 ^ ldAt d idx :=
        ⟨hj, hPj⟩
      have hldj := hldchar j
      rw [if_pos hcj] at hldj
      refine ⟨?_, by rw [hldi, hldj]⟩
      by_cases hQi : i % 2 ^ (ldAt d idx + 1) = idx % 2 ^ (ldAt d idx + 1)
      · have hQj : j % 2 ^ (ldAt d idx + 1) = idx % 2 ^ (ldAt d idx + 1) :=
          hmod.symm.trans hQi
        have hdi : i < dirSize d ∧
            i % 2 ^ (ldAt d idx + 1) = idx % 2 ^ (ldAt d idx + 1) := ⟨hi, hQi⟩
        have hdj : j < dirSize d ∧
            j % 2 ^ (ldAt d idx + 1) = idx % 2 ^ (ldAt d idx + 1) := ⟨hj, hQj⟩
        rw [hpgchar i, hpgchar j, if_pos hdi, if_pos hdj]
      · have hQj : ¬ j % 2 ^ (ldAt d idx + 1) = idx % 2 ^ (ldAt d idx + 1) :=
          fun h => hQi (hmod.trans h)
        have hdi : ¬ (i < dirSize d ∧
            i % 2 ^ (ldAt d idx + 1) = idx % 2 ^ (ldAt d idx + 1)) :=
          fun hc => hQi hc.2
        have hdj : ¬ (j < dirSize d ∧
            j % 2 ^ (ldAt d idx + 1) = idx % 2 ^ (ldAt d idx + 1)) :=
          fun hc => hQj hc.2
        rw [hpgchar i, hpgchar j, if_neg hdi, if_neg hdj]
        have h1 := hinv.classEq idx hidx i hi hPi.symm
        have h2 := hinv.classEq idx hidx j hj hPj.symm
        rw [h2.1, h1.1]
    · have hci : ¬ (i < dirSize d ∧
          i % 2 ^ ldAt d idx = idx % 2 ^ ldAt d idx) := fun hc => hPi hc.2
      have hldi := hldchar i
      rw [if_neg hci] at hldi
      rw [hldi] at hmod
      have base := hinv.classEq i hi j hj hmod
      have hPj : ¬ j % 2 ^ ldAt d idx = idx % 2 ^ ldAt d idx := by
        intro hPj
        have h2 := hinv.classEq idx hidx j hj hPj.symm
        have hdi : ldAt d i = ldAt d idx := by rw [← base.2, h2.2]
        rw [hdi] at hmod
        exact hPi (hmod.trans hPj)
      have hcj : ¬ (j < dirSize d ∧
          j % 2 ^ ldAt d idx = idx % 2 ^ ldAt d idx) := fun hc => hPj hc.2
      have hldj := hldchar j
      rw [if_neg hcj] at hldj
      have hQi : ¬ i % 2 ^ (ldAt d idx + 1) = idx % 2 ^ (ldAt d idx + 1) :=
        fun h => hPi (mod_coarser h (Nat.le_succ _))
      have hQj : ¬ j % 2 ^ (ldAt d idx + 1) = idx % 2 ^ (ldAt d idx + 1) :=
        fun h => hPj (mod_coarser h (Nat.le_succ _))
      have hdi : ¬ (i < dirSize d ∧
          i % 2 ^ (ldAt d idx + 1) = idx % 2 ^ (ldAt d idx + 1)) :=
        fun hc => hQi hc.2
      have hdj : ¬ (j < dirSize d ∧
          j % 2 ^ (ldAt d idx + 1) = idx % 2 ^ (ldAt d idx + 1)) :=
        fun hc => hQj hc.2
      refine ⟨?_, by rw [hldi, hldj, base.2]⟩
      rw [hpgchar i, hpgchar j, if_neg hdi, if_neg hdj]
      exact base.1

/-- Full characterization of the two `SplitInsert` directory rings: on a
directory satisfying the invariant, with the probed slot's local depth
strictly below the global depth, the phase increments the local depth of
the probed coarse class, repoints the probed fine class to the fresh
page, and preserves the invariant. -/
theorem splitDirPhase_spec (d : Dir) (idx newPid : Nat) (hinv : DirInv d)
    (hidx : idx < 2 ^ d.globalDepth) (hlt : ldAt d idx < d.globalDepth) :
    (splitDirPhase d idx newPid).globalDepth = d.globalDepth ∧
    (splitDirPhase d idx newPid).bucketPageIds.length = 2 ^ d.globalDepth ∧
    (splitDirPhase d idx newPid).localDepths.length = 2 ^ d.globalDepth ∧
    (∀ i, ldAt (splitDirPhase d idx newPid) i =
      if i < dirSize d ∧ i % 2 ^ ldAt d idx = idx % 2 ^ ldAt d idx
      then ldAt d idx + 1 else ldAt d i) ∧
    (∀ i, pageIdAt (splitDirPhase d idx newPid) i =
      if i < dirSize d ∧ i % 2 ^ (ldAt d idx + 1) = idx % 2 ^ (ldAt d idx + 1)
      then newPid else pageIdAt d i) ∧
    DirInv (splitDirPhase d idx newPid) := by
  have hidx' : idx < dirSize d := hidx
  have hpos1 : 0 < 2 ^ ldAt d idx := Nat.pos_pow_of_pos _ (by omega)
  have hdvd1 : 2 ^ ldAt d idx ∣ dirSize d := pow_dvd_pow 2 (le_of_lt hlt)
  have hmem1 := mem_ringIdx hpos1 hdvd1 hidx'
  have hnd1 := nodup_ringIdx hpos1 hdvd1 hidx'
  obtain ⟨hg2, hids2, hlen2, hld2⟩ := foldIncr_spec
    (ringIdx idx (2 ^ ldAt d idx) (dirSize d)) d hnd1
    (fun i hi => by rw [hinv.lenLds]; exact ((hmem1 i).mp hi).1)
  have hlen2' : ((ringIdx idx (2 ^ ldAt d idx) (dirSize d)).foldl
      (fun d i => { d with localDepths := d.localDepths.set i (ldAt d i + 1) })
        d).localDepths.length = 2 ^ d.globalDepth := by
    rw [hlen2, hinv.lenLds]
  have hld2' : ∀ i, ldAt ((ringIdx idx (2 ^ ldAt d idx) (dirSize d)).foldl
      (fun d i => { d with localDepths := d.localDepths.set i (ldAt d i + 1) })
        d) i =
      if i < dirSize d ∧ i % 2 ^ ldAt d idx = idx % 2 ^ ldAt d idx
      then ldAt d idx + 1 else ldAt d i := by
    intro i
    rw [hld2 i]
    by_cases hm : i ∈ ringIdx idx (2 ^ ldAt d idx) (dirSize d)
    · obtain ⟨h1, h2⟩ := (hmem1 i).mp hm
      have hcls := hinv.classEq idx hidx i h1 h2.symm
      have hc : i < dirSize d ∧ i % 2 ^ ldAt d idx = idx % 2 ^ ldAt d idx :=
        ⟨h1, h2⟩
      rw [if_pos hm, if_pos hc, hcls.2]
    · have hc : ¬ (i < dirSize d ∧ i % 2 ^ ldAt d idx = idx % 2 ^ ldAt d idx) :=
        fun hc => hm ((hmem1 i).mpr hc)
      rw [if_neg hm, if_neg hc]
  exact splitRing2_dirInv d _ idx newPid hinv hidx hlt hg2 hids2 hlen2' hld2'

/-- A full-bucket split step preserves the directory invariant: when the
probed local depth has reached the global depth the directory is doubled
first, so the phase always runs with local depth strictly below the
(possibly incremented) global depth. -/
theorem splitInsertStep_dirInv (h : Nat → Nat) (s : HState) (k : Nat)
    (hinv : DirInv s.dir) : DirInv (splitInsertStep h s k).dir := by
  have hidx : dirIndex s.dir h k < 2 ^ s.dir.globalDepth :=
    Nat.mod_lt _ (Nat.pos_pow_of_pos _ (by omega))
  have e1 : (splitInsertStep h s k).dir =
      splitDirPhase
        (if s.dir.globalDepth = ldAt s.dir (dirIndex s.dir h k)
         then doubleDir s.dir else s.dir)
        (dirIndex s.dir h k) s.nextPageId := rfl
  by_cases hc : s.dir.globalDepth = ldAt s.dir (dirIndex s.dir h k)
  · rw [e1, if_pos hc]
    have hinv1 := doubleDir_dirInv hinv
    have hidx1 : dirIndex s.dir h k < 2 ^ (doubleDir s.dir).globalDepth :=
      lt_of_lt_of_le hidx (Nat.pow_le_pow_right (by omega) (Nat.le_succ _))
    have hld1 : ldAt (doubleDir s.dir) (dirIndex s.dir h k) <
        (doubleDir s.dir).globalDepth := by
      show ldAt (doubleDir s.dir) (dirIndex s.dir h k) < s.dir.globalDepth + 1
      rw [doubleDir_ldAt hinv hidx1, Nat.mod_eq_of_lt hidx, ← hc]
      exact Nat.lt_succ_self _
    exact (splitDirPhase_spec _ _ _ hinv1 hidx1 hld1).2.2.2.2.2
  · rw [e1, if_neg hc]
    have hld : ldAt s.dir (dirIndex s.dir h k) < s.dir.globalDepth :=
      lt_of_le_of_ne (hinv.ldLe _ hidx) (fun he => hc he.symm)
    exact (splitDirPhase_spec _ _ _ hinv hidx hld).2.2.2.2.2

/-- The `Merge` directory ring preserves the invariant: the two sibling
classes (both at the same local depth, by the guard) are fused into one
class at depth one less, all pointing at the split image's page. -/
theorem mergeRing_dirInv (d : Dir) (idx splitIdx : Nat) (hinv : DirInv d)
    (hidx : idx < 2 ^ d.globalDepth) (hld0 : ldAt d idx ≠ 0)
    (hsplit : splitIdx = (idx + 2 ^ ldAt d idx / 2) % dirSize d)
    (hsld : ldAt d splitIdx = ldAt d idx) :
    DirInv ((ringIdx idx (2 ^ ldAt d idx / 2) (dirSize d)).foldl
      (fun d i =>
        { d with bucketPageIds := d.bucketPageIds.set i (pageIdAt d splitIdx),
                 localDepths := d.localDepths.set i (ldAt d i - 1) }) d) := by
  have hm : 2 ^ ldAt d idx / 2 = 2 ^ (ldAt d idx - 1) := by
    obtain ⟨e, he⟩ : ∃ e, ldAt d idx = e + 1 :=
      ⟨ldAt d idx - 1, by omega⟩
    rw [he]
    simp only [Nat.add_sub_cancel]
    rw [Nat.pow_succ]
    omega
  have hmpos : 0 < 2 ^ (ldAt d idx - 1) := Nat.pos_pow_of_pos _ (by omega)
  have h2m : 2 * 2 ^ (ldAt d idx - 1) = 2 ^ ldAt d idx := by
    conv_rhs => rw [show ldAt d idx = (ldAt d idx - 1) + 1 from by omega]
    rw [Nat.pow_succ]
    ring
  have hddle : ldAt d idx ≤ d.globalDepth := hinv.ldLe idx hidx
  have hidx' : idx < dirSize d := hidx
  have hdvd : 2 ^ (ldAt d idx - 1) ∣ dirSize d := pow_dvd_pow 2 (by omega)
  have hdvd2 : 2 ^ ldAt d idx ∣ dirSize d := pow_dvd_pow 2 hddle
  have hsplitlt : splitIdx < 2 ^ d.globalDepth := by
    rw [hsplit]
    exact Nat.mod_lt _ (Nat.pos_pow_of_pos _ (by omega))
  have hsplitmod : splitIdx % 2 ^ ldAt d idx =
      (idx + 2 ^ (ldAt d idx - 1)) % 2 ^ ldAt d idx := by
    rw [hsplit, hm, Nat.mod_mod_of_dvd _ hdvd2]
  rw [hm]
  have hmem := mem_ringIdx hmpos hdvd hidx'
  have hnd := nodup_ringIdx hmpos hdvd hidx'
  have hclassld : ∀ i < dirSize d,
      i % 2 ^ (ldAt d idx - 1) = idx % 2 ^ (ldAt d idx - 1) →
      ldAt d i = ldAt d idx := by
    intro i hi hmod
    rcases mod_half_cases hmpos hmod with hcase | hcase
    · rw [h2m] at hcase
      exact (hinv.classEq idx hidx i hi hcase.symm).2
    · rw [h2m, ← hsplitmod] at hcase
      have h2 := hinv.classEq splitIdx hsplitlt i hi
        (by rw [hsld]; exact hcase.symm)
      rw [h2.2, hsld]
  obtain ⟨hgE, hlenIds, hlenLds, hpg, hld⟩ := foldMerge_spec splitIdx
    (ringIdx idx (2 ^ (ldAt d idx - 1)) (dirSize d)) d (pageIdAt d splitIdx)
    hnd
    (fun i hi => by
      constructor
      · rw [hinv.lenIds]
        exact ((hmem i).mp hi).1
      · rw [hinv.lenLds]
        exact ((hmem i).mp hi).1)
    rfl
  refine ⟨?_, ?_, ?_, ?_⟩
  · rw [hgE, hlenIds]
    exact hinv.lenIds
  · rw [hgE, hlenLds]
    exact hinv.lenLds
  · intro i hi
    rw [hgE] at hi ⊢
    rw [hld i]
    by_cases hiR : i ∈ ringIdx idx (2 ^ (ldAt d idx - 1)) (dirSize d)
    · rw [if_pos hiR]
      exact le_trans (Nat.sub_le _ _) (hinv.ldLe i hi)
    · rw [if_neg hiR]
      exact hinv.ldLe i hi
  · intro i hi j hj hmod
    rw [hgE] at hi hj
    by_cases hiR : i ∈ ringIdx idx (2 ^ (ldAt d idx - 1)) (dirSize d)
    · obtain ⟨hilt, himod⟩ := (hmem i).mp hiR
      have hldi : ldAt d i = ldAt d idx := hclassld i hilt himod
      have hldi' := hld i
      rw [if_pos hiR] at hldi'
      rw [hldi', hldi] at hmod
      have hjmod : j % 2 ^ (ldAt d idx - 1) = idx % 2 ^ (ldAt d idx - 1) :=
        hmod.symm.trans himod
      have hjR : j ∈ ringIdx idx (2 ^ (ldAt d idx - 1)) (dirSize d) :=
        (hmem j).mpr ⟨hj, hjmod⟩
      have hldj : ldAt d j = ldAt d idx := hclassld j hj hjmod
      have hpgi := hpg i
      rw [if_pos hiR] at hpgi
      have hpgj := hpg j
      rw [if_pos hjR] at hpgj
      have hldj' := hld j
      rw [if_pos hjR] at hldj'
      exact ⟨by rw [hpgi, hpgj], by rw [hldi', hldj', hldi, hldj]⟩
    · have hldi' := hld i
      rw [if_neg hiR] at hldi'
      rw [hldi'] at hmod
      have base := hinv.classEq i hi j hj hmod
      have hjR : j ∉ ringIdx idx (2 ^ (ldAt d idx - 1)) (dirSize d) := by
        intro hjR
        obtain ⟨hjlt, hjmod⟩ := (hmem j).mp hjR
        have hldj : ldAt d j = ldAt d idx := hclassld j hjlt hjmod
        have hldieq : ldAt d i = ldAt d idx := by rw [← base.2, hldj]
        rw [hldieq] at hmod
        have himod : i % 2 ^ (ldAt d idx - 1) = j % 2 ^ (ldAt d idx - 1) :=
          mod_coarser hmod (by omega)
        exact hiR ((hmem i).mpr ⟨hi, himod.trans hjmod⟩)
      have hpgi := hpg i
      rw [if_neg hiR] at hpgi
      have hpgj := hpg j
      rw [if_neg hjR] at hpgj
      have hldj' := hld j
      rw [if_neg hjR] at hldj'
      exact ⟨by rw [hpgi, hpgj]; exact base.1,
        by rw [hldi', hldj']; exact base.2⟩

/-- `Merge` preserves the directory invariant. -/
theorem merge_dirInv (h : Nat → Nat) (s : HState) (k : Nat)
    (hinv : DirInv s.dir) : DirInv (merge h s k).dir := by
  have e1 : merge h s k =
      if bucketTaken (s.buckets (pageIdAt s.dir (dirIndex s.dir h k))) = 0 ∧
          ldAt s.dir (dirIndex s.dir h k) ≠ 0 ∧
          ldAt s.dir ((dirIndex s.dir h k +
              2 ^ ldAt s.dir (dirIndex s.dir h k) / 2) % dirSize s.dir) =
            ldAt s.dir (dirIndex s.dir h k) then
        { s with
            dir :=
              (ringIdx (dirIndex s.dir h k)
                (2 ^ ldAt s.dir (dirIndex s.dir h k) / 2)
                (dirSize s.dir)).foldl
                (fun d i =>
                  { d with
                      bucketPageIds :=
                        d.bucketPageIds.set i
                          (pageIdAt d ((dirIndex s.dir h k +
                            2 ^ ldAt s.dir (dirIndex s.dir h k) / 2) %
                              dirSize s.dir)),
                      localDepths :=
                        d.localDepths.set i (ldAt d i - 1) }) s.dir }
      else s := rfl
  by_cases hg : bucketTaken (s.buckets (pageIdAt s.dir (dirIndex s.dir h k))) = 0 ∧
      ldAt s.dir (dirIndex s.dir h k) ≠ 0 ∧
      ldAt s.dir ((dirIndex s.dir h k +
          2 ^ ldAt s.dir (dirIndex s.dir h k) / 2) % dirSize s.dir) =
        ldAt s.dir (dirIndex s.dir h k)
  · rw [e1, if_pos hg]
    have hidx : dirIndex s.dir h k < 2 ^ s.dir.globalDepth :=
      Nat.mod_lt _ (Nat.pos_pow_of_pos _ (by omega))
    exact mergeRing_dirInv s.dir (dirIndex s.dir h k)
      ((dirIndex s.dir h k + 2 ^ ldAt s.dir (dirIndex s.dir h k) / 2) %
        dirSize s.dir) hinv hidx hg.2.1 rfl hg.2.2
  · rw [e1, if_neg hg]
    exact hinv

/-- `SplitInsert` preserves the directory invariant, for any retry fuel. -/
theorem splitInsert_dirInv (h : Nat → Nat) (fuel : Nat) :
    ∀ (s : HState) (k v : Nat), DirInv s.dir →
      DirInv (splitInsert h fuel s k v).dir := by
  induction fuel with
  | zero => exact fun s k v hinv => hinv
  | succ fuel ih =>
    intro s k v hinv
    have e1 : splitInsert h (fuel + 1) s k v =
        if bucketTaken (s.buckets (pageIdAt s.dir (dirIndex s.dir h k))) ≠
            (s.buckets (pageIdAt s.dir (dirIndex s.dir h k))).length then
          { s with
              buckets :=
                setBucket s.buckets
                  (pageIdAt s.dir (dirIndex s.dir h k))
                  (bucketInsert
                    (s.buckets (pageIdAt s.dir (dirIndex s.dir h k))) k v) }
        else splitInsert h fuel (splitInsertStep h s k) k v := rfl
    by_cases hb : bucketTaken (s.buckets (pageIdAt s.dir (dirIndex s.dir h k))) ≠
        (s.buckets (pageIdAt s.dir (dirIndex s.dir h k))).length
    · rw [e1, if_pos hb]
      exact hinv
    · rw [e1, if_neg hb]
      exact ih (splitInsertStep h s k) k v (splitInsertStep_dirInv h s k hinv)

/-- `Insert` preserves the directory invariant. -/
theorem insert_dirInv (h : Nat → Nat) (fuel : Nat) (s : HState) (k v : Nat)
    (hinv : DirInv s.dir) : DirInv (insert h fuel s k v).dir := by
  have e1 : insert h fuel s k v =
      if bucketTaken (s.buckets (pageIdAt s.dir (dirIndex s.dir h k))) =
          (s.buckets (pageIdAt s.dir (dirIndex s.dir h k))).length then
        splitInsert h fuel s k v
      else
        { s with
            buckets :=
              setBucket s.buckets
                (pageIdAt s.dir (dirIndex s.dir h k))
                (bucketInsert
                  (s.buckets (pageIdAt s.dir (dirIndex s.dir h k))) k v) } := rfl
  by_cases hb : bucketTaken (s.buckets (pageIdAt s.dir (dirIndex s.dir h k))) =
      (s.buckets (pageIdAt s.dir (dirIndex s.dir h k))).length
  · rw [e1, if_pos hb]
    exact splitInsert_dirInv h fuel s k v hinv
  · rw [e1, if_neg hb]
    exact hinv

/-- `Remove` preserves the directory invariant. -/
theorem remove_dirInv (h : Nat → Nat) (s : HState) (k v : Nat)
    (hinv : DirInv s.dir) : DirInv (remove h s k v).dir := by
  have e1 : remove h s k v =
      match bucketRemove (s.buckets (pageIdAt s.dir (dirIndex s.dir h k))) k v with
      | none => s
      | some b' =>
        if bucketTaken b' = 0 then
          merge h
            { s with
                buckets :=
                  setBucket s.buckets
                    (pageIdAt s.dir (dirIndex s.dir h k)) b' } k
        else
          { s with
              buckets :=
                setBucket s.buckets
                  (pageIdAt s.dir (dirIndex s.dir h k)) b' } := rfl
  rw [e1]
  cases hbr : bucketRemove (s.buckets (pageIdAt s.dir (dirIndex s.dir h k))) k v with
  | none => exact hinv
  | some bb =>
    show DirInv (if bucketTaken bb = 0 then
        merge h
          { s with
              buckets :=
                setBucket s.buckets
                  (pageIdAt s.dir (dirIndex s.dir h k)) bb } k
      else
        { s with
            buckets :=
              setBucket s.buckets
                (pageIdAt s.dir (dirIndex s.dir h k)) bb }).dir
    by_cases hb0 : bucketTaken bb = 0
    · rw [if_pos hb0]
      exact merge_dirInv h _ k hinv
    · rw [if_neg hb0]
      exact hinv

/-- Every reachable table state satisfies the directory invariant. -/
theorem reachable_dirInv (h : Nat → Nat) (bsize : Nat) (s : HState)
    (hr : Reachable h bsize s) : DirInv s.dir := by
  induction hr with
  | init =>
    have hd : DirInv (Dir.mk 0 [1] [0]) :=
      ⟨by decide, by decide, by decide, by decide⟩
    exact hd
  | insert fuel k v _ ih => exact insert_dirInv h fuel _ k v ih
  | remove k v _ ih => exact remove_dirInv h _ k v ih

end EHT

/-- C8: after every extendible-hash-table operation (any sequence of
`Insert` and `Remove` calls from the initial table, each running
`SplitInsert` and `Merge` internally as needed), the directory satisfies
the invariant: both directory arrays have size `2^global_depth`, every
slot's local depth is at most the global depth, and any two directory
slots whose indices agree on the low `local_depth` bits reference the
same bucket page. -/
theorem C8_directory_invariant (h : Nat → Nat) (bsize : Nat) (s : EHT.HState)
    (hr : EHT.Reachable h bsize s) :
    s.dir.bucketPageIds.length = 2 ^ s.dir.globalDepth ∧
    s.dir.localDepths.length = 2 ^ s.dir.globalDepth ∧
    (∀ i < 2 ^ s.dir.globalDepth, EHT.ldAt s.dir i ≤ s.dir.globalDepth) ∧
    (∀ i < 2 ^ s.dir.globalDepth, ∀ j < 2 ^ s.dir.globalDepth,
      i % 2 ^ EHT.ldAt s.dir i = j % 2 ^ EHT.ldAt s.dir i →
      EHT.pageIdAt s.dir j = EHT.pageIdAt s.dir i) := by
  obtain ⟨h1, h2, h3, h4⟩ := EHT.reachable_dirInv h bsize s hr
  exact ⟨h1, h2, h3, fun i hi j hj hm => (h4 i hi j hj hm).1⟩

theorem C8_directory_invariant_witness :
    EHT.Reachable (fun n => n) 1
      (EHT.insert (fun n => n) 4 (EHT.initState 1) 0 5) ∧
    ((EHT.insert (fun n => n) 4 (EHT.initState 1) 0 5).dir.bucketPageIds.length =
        2 ^ (EHT.insert (fun n => n) 4 (EHT.initState 1) 0 5).dir.globalDepth ∧
      (EHT.insert (fun n => n) 4 (EHT.initState 1) 0 5).dir.localDepths.length =
        2 ^ (EHT.insert (fun n => n) 4 (EHT.initState 1) 0 5).dir.globalDepth ∧
      (∀ i < 2 ^ (EHT.insert (fun n => n) 4 (EHT.initState 1) 0 5).dir.globalDepth,
        EHT.ldAt (EHT.insert (fun n => n) 4 (EHT.initState 1) 0 5).dir i ≤
          (EHT.insert (fun n => n) 4 (EHT.initState 1) 0 5).dir.globalDepth) ∧
      (∀ i < 2 ^ (EHT.insert (fun n => n) 4 (EHT.initState 1) 0 5).dir.globalDepth,
        ∀ j < 2 ^ (EHT.insert (fun n => n) 4 (EHT.initState 1) 0 5).dir.globalDepth,
        i % 2 ^ EHT.ldAt (EHT.insert (fun n => n) 4 (EHT.initState 1) 0 5).dir i =
          j % 2 ^ EHT.ldAt (EHT.insert (fun n => n) 4 (EHT.initState 1) 0 5).dir i →
        EHT.pageIdAt (EHT.insert (fun n => n) 4 (EHT.initState 1) 0 5).dir j =
          EHT.pageIdAt (EHT.insert (fun n => n) 4 (EHT.initState 1) 0 5).dir i)) :=
  ⟨EHT.Reachable.insert 4 0 5 EHT.Reachable.init,
   C8_directory_invariant (fun n => n) 1 _
     (EHT.Reachable.insert 4 0 5 EHT.Reachable.init)⟩

/-- C4 (amended): for an insert hitting a full bucket at probed directory
index `idx` (page `pid`, local depth `dd`), the directory is doubled only
when `dd` equals the global depth; the probed class's local depth becomes
`dd+1`; exactly the directory slots that previously referenced the old
bucket and agree with the probed index on the low `dd+1` bits — i.e.
whose bit `dd` equals the probed index's bit `dd`, which need not be set
— are repointed to the fresh sibling page; the bucket's items are
redistributed between old bucket and sibling by the class of their hash
modulo `2^(dd+1)`; and the insert is retried on the split state. -/
theorem C4_split_insert (h : Nat → Nat) (s : EHT.HState) (k v fuel idx pid dd : Nat)
    (hinv : EHT.DirInv s.dir)
    (hidxe : idx = EHT.dirIndex s.dir h k)
    (hpide : pid = EHT.pageIdAt s.dir idx)
    (hdde : dd = EHT.ldAt s.dir idx)
    (hfull : EHT.bucketTaken (s.buckets pid) = (s.buckets pid).length) :
    (EHT.splitInsertStep h s k).dir.globalDepth =
      (if s.dir.globalDepth = dd then s.dir.globalDepth + 1
       else s.dir.globalDepth) ∧
    EHT.ldAt (EHT.splitInsertStep h s k).dir idx = dd + 1 ∧
    (∀ i < 2 ^ (EHT.splitInsertStep h s k).dir.globalDepth,
      (i % 2 ^ (dd + 1) = idx % 2 ^ (dd + 1) →
        EHT.pageIdAt (EHT.splitInsertStep h s k).dir i = s.nextPageId ∧
        EHT.ldAt (EHT.splitInsertStep h s k).dir i = dd + 1 ∧
        EHT.pageIdAt s.dir (i % 2 ^ s.dir.globalDepth) = pid) ∧
      (i % 2 ^ (dd + 1) ≠ idx % 2 ^ (dd + 1) →
        EHT.pageIdAt (EHT.splitInsertStep h s k).dir i =
          EHT.pageIdAt s.dir (i % 2 ^ s.dir.globalDepth))) ∧
    (EHT.splitInsertStep h s k).buckets =
      EHT.setBucket
        (EHT.setBucket s.buckets pid
          (EHT.redist h (2 ^ (dd + 1)) (idx % 2 ^ (dd + 1)) (s.buckets pid)
            (EHT.emptySlots s.bucketSize)).1)
        s.nextPageId
        (EHT.redist h (2 ^ (dd + 1)) (idx % 2 ^ (dd + 1)) (s.buckets pid)
          (EHT.emptySlots s.bucketSize)).2 ∧
    EHT.splitInsert h (fuel + 1) s k v =
      EHT.splitInsert h fuel (EHT.splitInsertStep h s k) k v := by
  subst hidxe
  subst hpide
  subst hdde
  have hidx : EHT.dirIndex s.dir h k < 2 ^ s.dir.globalDepth :=
    Nat.mod_lt _ (Nat.pos_pow_of_pos _ (by omega))
  have e1 : (EHT.splitInsertStep h s k).dir =
      EHT.splitDirPhase
        (if s.dir.globalDepth = EHT.ldAt s.dir (EHT.dirIndex s.dir h k)
         then EHT.doubleDir s.dir else s.dir)
        (EHT.dirIndex s.dir h k) s.nextPageId := rfl
  have hE : EHT.splitInsert h (fuel + 1) s k v =
      EHT.splitInsert h fuel (EHT.splitInsertStep h s k) k v := by
    have e5 : EHT.splitInsert h (fuel + 1) s k v =
        if EHT.bucketTaken
            (s.buckets (EHT.pageIdAt s.dir (EHT.dirIndex s.dir h k))) ≠
            (s.buckets (EHT.pageIdAt s.dir (EHT.dirIndex s.dir h k))).length then
          { s with
              buckets :=
                EHT.setBucket s.buckets
                  (EHT.pageIdAt s.dir (EHT.dirIndex s.dir h k))
                  (EHT.bucketInsert
                    (s.buckets (EHT.pageIdAt s.dir (EHT.dirIndex s.dir h k)))
                    k v) }
        else EHT.splitInsert h fuel (EHT.splitInsertStep h s k) k v := rfl
    rw [e5, if_neg (fun hn => hn hfull)]
  have hB : EHT.ldAt (EHT.splitInsertStep h s k).dir (EHT.dirIndex s.dir h k) =
      EHT.ldAt s.dir (EHT.dirIndex s.dir h k) + 1 := by
    by_cases hc : s.dir.globalDepth = EHT.ldAt s.dir (EHT.dirIndex s.dir h k)
    · rw [e1, if_pos hc]
      have hidx1 : EHT.dirIndex s.dir h k < 2 ^ (EHT.doubleDir s.dir).globalDepth :=
        lt_of_lt_of_le hidx (Nat.pow_le_pow_right (by omega) (Nat.le_succ _))
      have hld1eq : EHT.ldAt (EHT.doubleDir s.dir) (EHT.dirIndex s.dir h k) =
          EHT.ldAt s.dir (EHT.dirIndex s.dir h k) := by
        rw [EHT.doubleDir_ldAt hinv hidx1, Nat.mod_eq_of_lt hidx]
      have hld1 : EHT.ldAt (EHT.doubleDir s.dir) (EHT.dirIndex s.dir h k) <
          (EHT.doubleDir s.dir).globalDepth := by
        show _ < s.dir.globalDepth + 1
        rw [hld1eq, ← hc]
        exact Nat.lt_succ_self _
      have spec := EHT.splitDirPhase_spec (EHT.doubleDir s.dir)
        (EHT.dirIndex s.dir h k) s.nextPageId (EHT.doubleDir_dirInv hinv)
        hidx1 hld1
      have h4 := spec.2.2.2.1 (EHT.dirIndex s.dir h k)
      rw [hld1eq] at h4
      have hcc : EHT.dirIndex s.dir h k < EHT.dirSize (EHT.doubleDir s.dir) ∧
          EHT.dirIndex s.dir h k % 2 ^ EHT.ldAt s.dir (EHT.dirIndex s.dir h k) =
            EHT.dirIndex s.dir h k % 2 ^ EHT.ldAt s.dir (EHT.dirIndex s.dir h k) :=
        ⟨hidx1, rfl⟩
      rw [h4, if_pos hcc]
    · rw [e1, if_neg hc]
      have hld : EHT.ldAt s.dir (EHT.dirIndex s.dir h k) < s.dir.globalDepth :=
        lt_of_le_of_ne (hinv.ldLe _ hidx) (fun he => hc he.symm)
      have spec := EHT.splitDirPhase_spec s.dir (EHT.dirIndex s.dir h k)
        s.nextPageId hinv hidx hld
      have h4 := spec.2.2.2.1 (EHT.dirIndex s.dir h k)
      have hcc : EHT.dirIndex s.dir h k < EHT.dirSize s.dir ∧
          EHT.dirIndex s.dir h k % 2 ^ EHT.ldAt s.dir (EHT.dirIndex s.dir h k) =
            EHT.dirIndex s.dir h k % 2 ^ EHT.ldAt s.dir (EHT.dirIndex s.dir h k) :=
        ⟨hidx, rfl⟩
      rw [h4, if_pos hcc]
  have hD : (EHT.splitInsertStep h s k).buckets =
      EHT.setBucket
        (EHT.setBucket s.buckets (EHT.pageIdAt s.dir (EHT.dirIndex s.dir h k))
          (EHT.redist h (2 ^ (EHT.ldAt s.dir (EHT.dirIndex s.dir h k) + 1))
            (EHT.dirIndex s.dir h k %
              2 ^ (EHT.ldAt s.dir (EHT.dirIndex s.dir h k) + 1))
            (s.buckets (EHT.pageIdAt s.dir (EHT.dirIndex s.dir h k)))
            (EHT.emptySlots s.bucketSize)).1)
        s.nextPageId
        (EHT.redist h (2 ^ (EHT.ldAt s.dir (EHT.dirIndex s.dir h k) + 1))
          (EHT.dirIndex s.dir h k %
            2 ^ (EHT.ldAt s.dir (EHT.dirIndex s.dir h k) + 1))
          (s.buckets (EHT.pageIdAt s.dir (EHT.dirIndex s.dir h k)))
          (EHT.emptySlots s.bucketSize)).2 := by
    have e4 : (EHT.splitInsertStep h s k).buckets =
        EHT.setBucket
          (EHT.setBucket s.buckets (EHT.pageIdAt s.dir (EHT.dirIndex s.dir h k))
            (EHT.redist h
              (2 ^ EHT.ldAt (EHT.splitInsertStep h s k).dir
                (EHT.dirIndex s.dir h k))
              (EHT.dirIndex s.dir h k %
                2 ^ EHT.ldAt (EHT.splitInsertStep h s k).dir
                  (EHT.dirIndex s.dir h k))
              (s.buckets (EHT.pageIdAt s.dir (EHT.dirIndex s.dir h k)))
              (EHT.emptySlots s.bucketSize)).1)
          s.nextPageId
          (EHT.redist h
            (2 ^ EHT.ldAt (EHT.splitInsertStep h s k).dir
              (EHT.dirIndex s.dir h k))
            (EHT.dirIndex s.dir h k %
              2 ^ EHT.ldAt (EHT.splitInsertStep h s k).dir
                (EHT.dirIndex s.dir h k))
            (s.buckets (EHT.pageIdAt s.dir (EHT.dirIndex s.dir h k)))
            (EHT.emptySlots s.bucketSize)).2 := rfl
    rw [hB] at e4
    exact e4
  refine ⟨?_, hB, ?_, hD, hE⟩
  · by_cases hc : s.dir.globalDepth = EHT.ldAt s.dir (EHT.dirIndex s.dir h k)
    · rw [e1, if_pos hc, if_pos hc]
      have hidx1 : EHT.dirIndex s.dir h k < 2 ^ (EHT.doubleDir s.dir).globalDepth :=
        lt_of_lt_of_le hidx (Nat.pow_le_pow_right (by omega) (Nat.le_succ _))
      have hld1eq : EHT.ldAt (EHT.doubleDir s.dir) (EHT.dirIndex s.dir h k) =
          EHT.ldAt s.dir (EHT.dirIndex s.dir h k) := by
        rw [EHT.doubleDir_ldAt hinv hidx1, Nat.mod_eq_of_lt hidx]
      have hld1 : EHT.ldAt (EHT.doubleDir s.dir) (EHT.dirIndex s.dir h k) <
          (EHT.doubleDir s.dir).globalDepth := by
        show _ < s.dir.globalDepth + 1
        rw [hld1eq, ← hc]
        exact Nat.lt_succ_self _
      exact (EHT.splitDirPhase_spec (EHT.doubleDir s.dir)
        (EHT.dirIndex s.dir h k) s.nextPageId (EHT.doubleDir_dirInv hinv)
        hidx1 hld1).1
    · rw [e1, if_neg hc, if_neg hc]
      have hld : EHT.ldAt s.dir (EHT.dirIndex s.dir h k) < s.dir.globalDepth :=
        lt_of_le_of_ne (hinv.ldLe _ hidx) (fun he => hc he.symm)
      exact (EHT.splitDirPhase_spec s.dir (EHT.dirIndex s.dir h k)
        s.nextPageId hinv hidx hld).1
  · intro i hi
    by_cases hc : s.dir.globalDepth = EHT.ldAt s.dir (EHT.dirIndex s.dir h k)
    · have hidx1 : EHT.dirIndex s.dir h k < 2 ^ (EHT.doubleDir s.dir).globalDepth :=
        lt_of_lt_of_le hidx (Nat.pow_le_pow_right (by omega) (Nat.le_succ _))
      have hld1eq : EHT.ldAt (EHT.doubleDir s.dir) (EHT.dirIndex s.dir h k) =
          EHT.ldAt s.dir (EHT.dirIndex s.dir h k) := by
        rw [EHT.doubleDir_ldAt hinv hidx1, Nat.mod_eq_of_lt hidx]
      have hld1 : EHT.ldAt (EHT.doubleDir s.dir) (EHT.dirIndex s.dir h k) <
          (EHT.doubleDir s.dir).globalDepth := by
        show _ < s.dir.globalDepth + 1
        rw [hld1eq, ← hc]
        exact Nat.lt_succ_self _
      have spec := EHT.splitDirPhase_spec (EHT.doubleDir s.dir)
        (EHT.dirIndex s.dir h k) s.nextPageId (EHT.doubleDir_dirInv hinv)
        hidx1 hld1
      rw [e1, if_pos hc, spec.1] at hi
      have h5 := spec.2.2.2.2.1 i
      rw [hld1eq] at h5
      have h4i := spec.2.2.2.1 i
      rw [hld1eq] at h4i
      constructor
      · intro hm
        have hcc2 : i < EHT.dirSize (EHT.doubleDir s.dir) ∧
            i % 2 ^ (EHT.ldAt s.dir (EHT.dirIndex s.dir h k) + 1) =
              EHT.dirIndex s.dir h k %
                2 ^ (EHT.ldAt s.dir (EHT.dirIndex s.dir h k) + 1) := ⟨hi, hm⟩
        refine ⟨?_, ?_, ?_⟩
        · rw [e1, if_pos hc, h5, if_pos hcc2]
        · have hmc : i % 2 ^ EHT.ldAt s.dir (EHT.dirIndex s.dir h k) =
              EHT.dirIndex s.dir h k %
                2 ^ EHT.ldAt s.dir (EHT.dirIndex s.dir h k) :=
            EHT.mod_coarser hm (Nat.le_succ _)
          have hcc3 : i < EHT.dirSize (EHT.doubleDir s.dir) ∧
              i % 2 ^ EHT.ldAt s.dir (EHT.dirIndex s.dir h k) =
                EHT.dirIndex s.dir h k %
                  2 ^ EHT.ldAt s.dir (EHT.dirIndex s.dir h k) := ⟨hi, hmc⟩
          rw [e1, if_pos hc, h4i, if_pos hcc3]
        · have hmc : i % 2 ^ EHT.ldAt s.dir (EHT.dirIndex s.dir h k) =
              EHT.dirIndex s.dir h k %
                2 ^ EHT.ldAt s.dir (EHT.dirIndex s.dir h k) :=
            EHT.mod_coarser hm (Nat.le_succ _)
          have hgd : i % 2 ^ s.dir.globalDepth =
              EHT.dirIndex s.dir h k % 2 ^ s.dir.globalDepth := by
            rw [hc]
            exact hmc
          rw [hgd, Nat.mod_eq_of_lt hidx]
      · intro hm
        have hcc2 : ¬ (i < EHT.dirSize (EHT.doubleDir s.dir) ∧
            i % 2 ^ (EHT.ldAt s.dir (EHT.dirIndex s.dir h k) + 1) =
              EHT.dirIndex s.dir h k %
                2 ^ (EHT.ldAt s.dir (EHT.dirIndex s.dir h k) + 1)) :=
          fun hcx => hm hcx.2
        rw [e1, if_pos hc, h5, if_neg hcc2]
        exact EHT.doubleDir_pageIdAt hinv hi
    · have hld : EHT.ldAt s.dir (EHT.dirIndex s.dir h k) < s.dir.globalDepth :=
        lt_of_le_of_ne (hinv.ldLe _ hidx) (fun he => hc he.symm)
      have spec := EHT.splitDirPhase_spec s.dir (EHT.dirIndex s.dir h k)
        s.nextPageId hinv hidx hld
      rw [e1, if_neg hc, spec.1] at hi
      have h5 := spec.2.2.2.2.1 i
      have h4i := spec.2.2.2.1 i
      constructor
      · intro hm
        have hcc2 : i < EHT.dirSize s.dir ∧
            i % 2 ^ (EHT.ldAt s.dir (EHT.dirIndex s.dir h k) + 1) =
              EHT.dirIndex s.dir h k %
                2 ^ (EHT.ldAt s.dir (EHT.dirIndex s.dir h k) + 1) := ⟨hi, hm⟩
        refine ⟨?_, ?_, ?_⟩
        · rw [e1, if_neg hc, h5, if_pos hcc2]
        · have hmc : i % 2 ^ EHT.ldAt s.dir (EHT.dirIndex s.dir h k) =
              EHT.dirIndex s.dir h k %
                2 ^ EHT.ldAt s.dir (EHT.dirIndex s.dir h k) :=
            EHT.mod_coarser hm (Nat.le_succ _)
          have hcc3 : i < EHT.dirSize s.dir ∧
              i % 2 ^ EHT.ldAt s.dir (EHT.dirIndex s.dir h k) =
                EHT.dirIndex s.dir h k %
                  2 ^ EHT.ldAt s.dir (EHT.dirIndex s.dir h k) := ⟨hi, hmc⟩
          rw [e1, if_neg hc, h4i, if_pos hcc3]
        · have hmc : i % 2 ^ EHT.ldAt s.dir (EHT.dirIndex s.dir h k) =
              EHT.dirIndex s.dir h k %
                2 ^ EHT.ldAt s.dir (EHT.dirIndex s.dir h k) :=
            EHT.mod_coarser hm (Nat.le_succ _)
          have hcls := hinv.classEq (EHT.dirIndex s.dir h k) hidx i hi hmc.symm
          rw [Nat.mod_eq_of_lt hi]
          exact hcls.1
      · intro hm
        have hcc2 : ¬ (i < EHT.dirSize s.dir ∧
            i % 2 ^ (EHT.ldAt s.dir (EHT.dirIndex s.dir h k) + 1) =
              EHT.dirIndex s.dir h k %
                2 ^ (EHT.ldAt s.dir (EHT.dirIndex s.dir h k) + 1)) :=
          fun hcx => hm hcx.2
        rw [e1, if_neg hc, h5, if_neg hcc2, Nat.mod_eq_of_lt hi]


/-- A table with bucket size 1 whose single bucket (page 1, probed by
every key at global depth 0) is full. -/
def c4State : EHT.HState := EHT.insert (fun n => n) 1 (EHT.initState 1) 0 7

theorem C4_split_insert_counterexample :
    EHT.bucketTaken (c4State.buckets 1) = (c4State.buckets 1).length ∧
    EHT.dirIndex c4State.dir (fun n => n) 1 = 0 ∧
    (EHT.splitInsertStep (fun n => n) c4State 1).dir.globalDepth = 1 ∧
    EHT.pageIdAt (EHT.splitInsertStep (fun n => n) c4State 1).dir 1 =
      EHT.pageIdAt c4State.dir 0 ∧
    EHT.pageIdAt (EHT.splitInsertStep (fun n => n) c4State 1).dir 0 =
      c4State.nextPageId ∧
    c4State.nextPageId ≠ EHT.pageIdAt c4State.dir 0 := by
  exact ⟨by decide, by decide, by decide, by decide, by decide, by decide⟩

theorem C4_split_insert_witness :
    (EHT.DirInv c4State.dir ∧
      (0 : Nat) = EHT.dirIndex c4State.dir (fun n => n) 1 ∧
      (1 : Nat) = EHT.pageIdAt c4State.dir 0 ∧
      (0 : Nat) = EHT.ldAt c4State.dir 0 ∧
      EHT.bucketTaken (c4State.buckets 1) = (c4State.buckets 1).length) ∧
    ((EHT.splitInsertStep (fun n => n) c4State 1).dir.globalDepth =
      (if c4State.dir.globalDepth = 0 then c4State.dir.globalDepth + 1
       else c4State.dir.globalDepth) ∧
    EHT.ldAt (EHT.splitInsertStep (fun n => n) c4State 1).dir 0 = 0 + 1 ∧
    (∀ i < 2 ^ (EHT.splitInsertStep (fun n => n) c4State 1).dir.globalDepth,
      (i % 2 ^ (0 + 1) = 0 % 2 ^ (0 + 1) →
        EHT.pageIdAt (EHT.splitInsertStep (fun n => n) c4State 1).dir i =
          c4State.nextPageId ∧
        EHT.ldAt (EHT.splitInsertStep (fun n => n) c4State 1).dir i = 0 + 1 ∧
        EHT.pageIdAt c4State.dir (i % 2 ^ c4State.dir.globalDepth) = 1) ∧
      (i % 2 ^ (0 + 1) ≠ 0 % 2 ^ (0 + 1) →
        EHT.pageIdAt (EHT.splitInsertStep (fun n => n) c4State 1).dir i =
          EHT.pageIdAt c4State.dir (i % 2 ^ c4State.dir.globalDepth))) ∧
    (EHT.splitInsertStep (fun n => n) c4State 1).buckets =
      EHT.setBucket
        (EHT.setBucket c4State.buckets 1
          (EHT.redist (fun n => n) (2 ^ (0 + 1)) (0 % 2 ^ (0 + 1))
            (c4State.buckets 1) (EHT.emptySlots c4State.bucketSize)).1)
        c4State.nextPageId
        (EHT.redist (fun n => n) (2 ^ (0 + 1)) (0 % 2 ^ (0 + 1))
          (c4State.buckets 1) (EHT.emptySlots c4State.bucketSize)).2 ∧
    EHT.splitInsert (fun n => n) (3 + 1) c4State 1 8 =
      EHT.splitInsert (fun n => n) 3
        (EHT.splitInsertStep (fun n => n) c4State 1) 1 8) :=
  ⟨⟨⟨by decide, by decide, by decide, by decide⟩, by decide, by decide,
    by decide, by decide⟩,
   C4_split_insert (fun n => n) c4State 1 8 3 0 1 0
     ⟨by decide, by decide, by decide, by decide⟩ (by decide) (by decide)
     (by decide) (by decide)⟩

/-!
B+-tree (`BPlusTree`, second version in the source file, with the
`src/src` variant of `InternalSplit` embedded alongside). Pages live in
a store indexed by page id; in-place C++ mutation becomes
update-then-write-back, and a loop that interleaves writes to a fresh
page with `UpdateParentPageId` store calls is rendered as the page copy
followed by a store fold over the same range (the targets are disjoint).
Latching, unpinning and the buffer pool are dropped (single-threaded
model); `AddIntoDeletedPageSet` appends to a `deleted` list. Modelled
from the spec (the leaf page class and `GetMinSize` are not in the
source tree): `LowerBound` returns the first index whose key is ≥ the
search key; a fresh leaf is initialised with size 0 (a fresh internal
with size 1, as in the source); `min_size` is carried as a per-page
field set from the tree's configuration.
-/

namespace BPT

def INVALID_PAGE_ID : Int := -1

/-- One B+-tree page: header fields plus the key/value array (values are
record ids for leaves and child page ids for internal pages). -/
structure BTPage where
  isLeaf : Bool
  parentPageId : Int
  size : Nat
  maxSize : Nat
  minSize : Nat
  keyAt : Nat → Nat
  valAt : Nat → Nat
  nextPageId : Int

def fupd (f : Nat → Nat) (i v : Nat) : Nat → Nat :=
  fun j => if j = i then v else f j

def BTPage.getKV (p : BTPage) (i : Nat) : Nat × Nat := (p.keyAt i, p.valAt i)

def BTPage.setKV (p : BTPage) (i : Nat) (kv : Nat × Nat) : BTPage :=
  { p with keyAt := fupd p.keyAt i kv.1, valAt := fupd p.valAt i kv.2 }

def BTPage.setKeyAt (p : BTPage) (i k : Nat) : BTPage :=
  { p with keyAt := fupd p.keyAt i k }

def BTPage.setValueAt (p : BTPage) (i v : Nat) : BTPage :=
  { p with valAt := fupd p.valAt i v }

def BTPage.isRootPage (p : BTPage) : Bool := p.parentPageId == INVALID_PAGE_ID

/-- `NeedSplit`: `GetSize() >= GetMaxSize()`. -/
def BTPage.needSplit (p : BTPage) : Bool := decide (p.maxSize ≤ p.size)

/-- `NeedMerge`: `GetSize() < GetMinSize()`. -/
def BTPage.needMerge (p : BTPage) : Bool := decide (p.size < p.minSize)

/-- The internal page's `UpperBound` binary search (`l + 1 < r` loop,
keeping the answer in `r`), with fuel for the shrinking interval. -/
def upperBoundAux (p : BTPage) (k : Nat) : Nat → Nat → Nat → Nat
  | 0, _, r => r
  | fuel + 1, l, r =>
    if l + 1 < r then
      let m := (l + r) / 2
      if k < p.keyAt m then upperBoundAux p k fuel l m
      else upperBoundAux p k fuel m r
    else r

def upperBound (p : BTPage) (k : Nat) : Nat := upperBoundAux p k p.size 0 p.size

/-- Modelled from the spec: the leaf page's `LowerBound` returns the
first index whose key is at least the search key, or the size. -/
def lowerBound (p : BTPage) (k : Nat) : Nat :=
  ((List.range p.size).find? (fun i => decide (k ≤ p.keyAt i))).getD p.size

/-- `for (i = size; i > idx; --i) SetKV(i, GetKV(i-1))`. -/
def shiftUpLoop (p : BTPage) (idx : Nat) : BTPage :=
  ((List.range (p.size - idx)).map (fun t => p.size - t)).foldl
    (fun q i => q.setKV i (q.getKV (i - 1))) p

/-- `for (i = start; i < stop; ++i) SetKV(i-1, GetKV(i))`. -/
def shiftDownLoop (p : BTPage) (start stop : Nat) : BTPage :=
  (List.range' start (stop - start)).foldl
    (fun q i => q.setKV (i - 1) (q.getKV i)) p

/-- `for (i = 0; i < n; ++i) dst.SetKV(dstOff + i, src.GetKV(srcOff + i))`. -/
def copyLoop (dst : BTPage) (dstOff : Nat) (src : BTPage) (srcOff n : Nat) :
    BTPage :=
  (List.range n).foldl
    (fun q i => q.setKV (dstOff + i) (src.getKV (srcOff + i))) dst

/-- The internal page's `InsertKV`. -/
def insertKV (p : BTPage) (key val : Nat) : BTPage :=
  let index := upperBound p key
  let p1 := shiftUpLoop p index
  let p2 := p1.setKV index (key, val)
  { p2 with size := p2.size + 1 }

/-- The whole tree: page store, root id, allocator, deleted-page set and
the tree's size configuration. -/
structure BTState where
  pages : Nat → BTPage
  rootPageId : Int
  nextPageId : Nat
  deleted : List Nat
  leafMaxSize : Nat
  internalMaxSize : Nat
  leafMinSize : Nat
  internalMinSize : Nat

def setPage (s : BTState) (pid : Nat) (p : BTPage) : BTState :=
  { s with pages := fun q => if q = pid then p else s.pages q }

def updateParentPageId (s : BTState) (childPid : Nat) (parentPid : Int) :
    BTState :=
  setPage s childPid { s.pages childPid with parentPageId := parentPid }

def BTState.isEmpty (s : BTState) : Bool := s.rootPageId == INVALID_PAGE_ID

/-- The descent of `FindLeafPageForRead`: child = `ValueAt(UpperBound(key)−1)`. -/
def findLeaf : Nat → BTState → Nat → Nat → Nat
  | 0, _, _, pid => pid
  | fuel + 1, s, k, pid =>
    let p := s.pages pid
    if p.isLeaf then pid
    else findLeaf fuel s k (p.valAt (upperBound p k - 1))

/-- `GetParent`: for a root page, allocate a fresh internal root whose
slot 0 points at the child and reparent the child; otherwise fetch the
parent. Returns the (possibly changed) state and the parent's id. -/
def getParentCreate (s : BTState) (childPid : Nat) : BTState × Nat :=
  let child := s.pages childPid
  if child.isRootPage then
    let rootPid := s.nextPageId
    let parent0 : BTPage :=
      { isLeaf := false, parentPageId := INVALID_PAGE_ID, size := 1,
        maxSize := s.internalMaxSize, minSize := s.internalMinSize,
        keyAt := fun _ => 0, valAt := fun _ => 0,
        nextPageId := INVALID_PAGE_ID }
    let parent1 := parent0.setValueAt 0 childPid
    let s1 := setPage { s with nextPageId := s.nextPageId + 1 } rootPid parent1
    let s2 := updateParentPageId s1 childPid (Int.ofNat rootPid)
    ({ s2 with rootPageId := Int.ofNat rootPid }, rootPid)
  else (s, child.parentPageId.toNat)

end BPT

namespace BPT

/-- The two result halves of an internal split, the half chosen for the
pending pair, and the chosen middle. -/
structure SplitResult where
  left : BTPage
  right : BTPage
  insertLeft : Bool
  middle : Nat

/-- The page-level core of `InternalSplit`, shared by the two source
variants: `middle = max_size / 2`, bumped by one when
`UpperBound(key) >= middle` in the variant where the bump is present
(`bump = true`, the `src` tree's version; the other variant carries the
bump commented out). Data `[middle, max_size)` moves to the fresh right
page and the pending pair goes to the half owning it. -/
def internalSplitCore (bump : Bool) (internal : BTPage)
    (key val cfgMax cfgMin : Nat) : SplitResult :=
  let maxSize := internal.maxSize
  -- sizeof(right) == sizeof(left) or sizeof(left) + 1
  let middle0 := maxSize / 2
  let middle := if bump && decide (middle0 ≤ upperBound internal key) then
      middle0 + 1
    else middle0
  let newInt0 : BTPage :=
    { isLeaf := false, parentPageId := internal.parentPageId, size := 1,
      maxSize := cfgMax, minSize := cfgMin,
      keyAt := fun _ => 0, valAt := fun _ => 0,
      nextPageId := INVALID_PAGE_ID }
  let newInt1 := copyLoop newInt0 0 internal middle (maxSize - middle)
  let newInt2 := { newInt1 with size := maxSize - middle }
  let internal1 := { internal with size := middle }
  let insertLeft := decide (key < newInt2.keyAt 0)
  let internal2 := if insertLeft then insertKV internal1 key val else internal1
  let newInt3 := if insertLeft then newInt2 else insertKV newInt2 key val
  { left := internal2, right := newInt3, insertLeft := insertLeft,
    middle := middle }

/-- `InternalSplit` (the second source version, whose middle bump is
commented out), with fuel bounding the parent-split recursion; the
trailing `InternalInsert(parent, …)` is inlined as its two-line body so
the recursion stays structural. A fuel-exhausted call leaves the state
unchanged. -/
def internalSplit : Nat → BTState → Nat → Nat → Nat → BTState
  | 0, s, _, _, _ => s
  | fuel + 1, s, pid, key, val =>
    let internal := s.pages pid
    let newPid := s.nextPageId
    let s0 := { s with nextPageId := s.nextPageId + 1 }
    let maxSize := internal.maxSize
    let core := internalSplitCore false internal key val s.internalMaxSize
      s.internalMinSize
    -- reparent the moved children
    let s1 := (List.range' core.middle (maxSize - core.middle)).foldl
      (fun t i => updateParentPageId t (internal.valAt i) (Int.ofNat newPid)) s0
    let s2 := setPage (setPage s1 pid core.left) newPid core.right
    let s3 := updateParentPageId s2 val
      (Int.ofNat (if core.insertLeft then pid else newPid))
    -- parent level
    let gp := getParentCreate s3 pid
    let s4 := gp.1
    let parentPid := gp.2
    let s5 := updateParentPageId
      (updateParentPageId s4 pid (Int.ofNat parentPid)) newPid
      (Int.ofNat parentPid)
    let newKey := (s5.pages newPid).keyAt 0
    if (s5.pages parentPid).needSplit then
      internalSplit fuel s5 parentPid newKey newPid
    else
      setPage s5 parentPid (insertKV (s5.pages parentPid) newKey newPid)

/-- `InternalInsert`: split a full page, otherwise `InsertKV`. -/
def internalInsert (fuel : Nat) (s : BTState) (pid key val : Nat) : BTState :=
  if (s.pages pid).needSplit then internalSplit fuel s pid key val
  else setPage s pid (insertKV (s.pages pid) key val)

/-- The page-level core of `LeafSplit`: `middle = max_size / 2`, data
`[middle, max_size)` moves to the fresh right leaf, and the forward
links are rewired through the new page. -/
def leafSplitCore (leaf : BTPage) (newPid cfgMax cfgMin : Nat) :
    BTPage × BTPage :=
  let maxSize := leaf.maxSize
  let middle := maxSize / 2
  let newLeaf0 : BTPage :=
    { isLeaf := true, parentPageId := leaf.parentPageId, size := 0,
      maxSize := cfgMax, minSize := cfgMin,
      keyAt := fun _ => 0, valAt := fun _ => 0,
      nextPageId := INVALID_PAGE_ID }
  let newLeaf1 := copyLoop newLeaf0 0 leaf middle (maxSize - middle)
  let newLeaf2 :=
    { newLeaf1 with
        size := maxSize - middle,
        nextPageId := leaf.nextPageId }
  let leaf1 := { leaf with size := middle, nextPageId := Int.ofNat newPid }
  (leaf1, newLeaf2)

/-- `LeafSplit`: move `[middle, max_size)` with `middle = max_size / 2`
to a fresh leaf, link the leaves, and insert the separator into the
parent (created first when the leaf was the root). -/
def leafSplit (fuel : Nat) (s : BTState) (leafPid : Nat) : BTState :=
  let leaf := s.pages leafPid
  let newPid := s.nextPageId
  let s0 := { s with nextPageId := s.nextPageId + 1 }
  let core := leafSplitCore leaf newPid s.leafMaxSize s.leafMinSize
  let s1 := setPage (setPage s0 leafPid core.1) newPid core.2
  let gp := getParentCreate s1 leafPid
  let s2 := gp.1
  let parentPid := gp.2
  let s3 := updateParentPageId
    (updateParentPageId s2 leafPid (Int.ofNat parentPid)) newPid
    (Int.ofNat parentPid)
  let newLeafFirstKey := (s3.pages newPid).keyAt 0
  internalInsert fuel s3 parentPid newLeafFirstKey newPid

/-- `LeafInsert`: reject a duplicate key, otherwise shift, place the
pair, and split when the leaf reaches `max_size`. -/
def leafInsert (fuel : Nat) (s : BTState) (leafPid k v : Nat) :
    BTState × Bool :=
  let leaf := s.pages leafPid
  let index := lowerBound leaf k
  if index < leaf.size ∧ leaf.keyAt index = k then (s, false)
  else
    let leaf1 := shiftUpLoop leaf index
    let leaf2 := leaf1.setKV index (k, v)
    let leaf3 := { leaf2 with size := leaf2.size + 1 }
    let s1 := setPage s leafPid leaf3
    if leaf3.needSplit then (leafSplit fuel s1 leafPid, true)
    else (s1, true)

/-- `Insert`: start a new one-leaf tree when empty, then descend and
insert at the leaf. -/
def insert (fuel : Nat) (s : BTState) (k v : Nat) : BTState × Bool :=
  let s0 :=
    if s.isEmpty then
      let pid := s.nextPageId
      let leaf : BTPage :=
        { isLeaf := true, parentPageId := INVALID_PAGE_ID, size := 0,
          maxSize := s.leafMaxSize, minSize := s.leafMinSize,
          keyAt := fun _ => 0, valAt := fun _ => 0,
          nextPageId := INVALID_PAGE_ID }
      { setPage { s with nextPageId := s.nextPageId + 1 } pid leaf with
          rootPageId := Int.ofNat pid }
    else s
  let leafPid := findLeaf fuel s0 k s0.rootPageId.toNat
  leafInsert fuel s0 leafPid k v

end BPT

namespace BPT

/-- `BorrowLeftLeaf`: refuse when the left sibling is at its minimum;
otherwise shift the leaf up, pull in the left sibling's rightmost pair,
and write the leaf's new first key into the parent at `leaf_index`. -/
def borrowLeftLeaf (s : BTState) (leafPid leftPid parentPid leafIndex : Nat) :
    BTState × Bool :=
  let left := s.pages leftPid
  if decide (left.size ≤ left.minSize) then (s, false)
  else
    let leaf := s.pages leafPid
    let leaf1 := shiftUpLoop leaf 0
    let leaf2 := leaf1.setKV 0 (left.getKV (left.size - 1))
    let leaf3 := { leaf2 with size := leaf2.size + 1 }
    let left1 := { left with size := left.size - 1 }
    let s1 := setPage (setPage s leafPid leaf3) leftPid left1
    let parent := s1.pages parentPid
    (setPage s1 parentPid (parent.setKeyAt leafIndex (leaf3.keyAt 0)), true)

/-- `BorrowRightLeaf`: refuse when the right sibling is at its minimum;
otherwise append the right sibling's first pair to the leaf, shift the
sibling down, and write its new first key into the parent at
`leaf_index + 1`. -/
def borrowRightLeaf (s : BTState) (leafPid rightPid parentPid leafIndex : Nat) :
    BTState × Bool :=
  let right := s.pages rightPid
  if decide (right.size ≤ right.minSize) then (s, false)
  else
    let leaf := s.pages leafPid
    let leaf1 := leaf.setKV leaf.size (right.getKV 0)
    let right1 := shiftDownLoop right 1 right.size
    let leaf2 := { leaf1 with size := leaf1.size + 1 }
    let right2 := { right1 with size := right1.size - 1 }
    let s1 := setPage (setPage s leafPid leaf2) rightPid right2
    let parent := s1.pages parentPid
    (setPage s1 parentPid (parent.setKeyAt (leafIndex + 1) (right2.keyAt 0)),
     true)

/-- `LeafMergeRightToLeft`: move the right leaf's pairs onto the left
leaf's tail, relink `next_page_id`, mark the right page deleted, remove
the right page's entry from the parent, and hand an underflowing parent
to the recursion argument (`InternalMerge`). -/
def leafMergeRightToLeftFn (recurse : BTState → Nat → Nat → BTState)
    (s : BTState) (leftPid rightPid parentPid rightIndex : Nat) :
    BTState × Bool :=
  let left := s.pages leftPid
  let right := s.pages rightPid
  let left1 := copyLoop left left.size right 0 right.size
  let left2 := { left1 with size := left1.size + right.size }
  let left3 := { left2 with nextPageId := right.nextPageId }
  let s1 := setPage s leftPid left3
  let s2 := { s1 with deleted := s1.deleted ++ [rightPid] }
  let parent := s2.pages parentPid
  let minKey := parent.keyAt 1
  let parent1 := shiftDownLoop parent (rightIndex + 1) parent.size
  let parent2 := { parent1 with size := parent1.size - 1 }
  let s3 := setPage s2 parentPid parent2
  if parent2.needMerge then (recurse s3 parentPid minKey, true) else (s3, true)

/-- `BorrowLeftInternal`. -/
def borrowLeftInternal (s : BTState) (pid leftPid parentPid internalIndex : Nat) :
    BTState × Bool :=
  let left := s.pages leftPid
  if decide (left.size ≤ left.minSize) then (s, false)
  else
    let internal := s.pages pid
    let parent := s.pages parentPid
    let internal1 := shiftUpLoop internal 0
    let internal2 := internal1.setKeyAt 1 (parent.keyAt internalIndex)
    let parent1 := parent.setKeyAt internalIndex (left.keyAt (left.size - 1))
    let internal3 := internal2.setValueAt 0 (left.valAt (left.size - 1))
    let s1 := updateParentPageId s (internal3.valAt 0) (Int.ofNat pid)
    let internal4 := { internal3 with size := internal3.size + 1 }
    let left1 := { left with size := left.size - 1 }
    (setPage (setPage (setPage s1 pid internal4) leftPid left1) parentPid
      parent1, true)

/-- `BorrowRightInternal` (the parent key rewritten at `internal_index`,
as in the source). -/
def borrowRightInternal (s : BTState) (pid rightPid parentPid internalIndex : Nat) :
    BTState × Bool :=
  let right := s.pages rightPid
  if decide (right.size ≤ right.minSize) then (s, false)
  else
    let internal := s.pages pid
    let parent := s.pages parentPid
    let internal1 := internal.setKeyAt internal.size
      (parent.keyAt (internalIndex + 1))
    let internal2 := internal1.setValueAt internal.size (right.valAt 0)
    let s1 := updateParentPageId s (right.valAt 0) (Int.ofNat pid)
    let parent1 := parent.setKeyAt internalIndex (right.keyAt 1)
    let right1 := shiftDownLoop right 1 right.size
    let internal3 := { internal2 with size := internal2.size + 1 }
    let right2 := { right1 with size := right1.size - 1 }
    (setPage (setPage (setPage s1 pid internal3) rightPid right2) parentPid
      parent1, true)

/-- `InternalMergeRightToLeft`: move the right page's pairs (reparenting
each moved child), pull the separator key from the parent into the
junction slot, mark the right page deleted, remove its parent entry,
and hand an underflowing parent to the recursion argument. -/
def internalMergeRightToLeftFn (recurse : BTState → Nat → Nat → BTState)
    (s : BTState) (leftPid rightPid parentPid rightIndex : Nat) :
    BTState × Bool :=
  let left := s.pages leftPid
  let right := s.pages rightPid
  let left1 := copyLoop left left.size right 0 right.size
  let s1 := (List.range right.size).foldl
    (fun t i => updateParentPageId t (right.valAt i) (Int.ofNat leftPid)) s
  let parent := s1.pages parentPid
  let left2 := left1.setKeyAt left.size (parent.keyAt rightIndex)
  let left3 := { left2 with size := left2.size + right.size }
  let s2 := setPage s1 leftPid left3
  let s3 := { s2 with deleted := s2.deleted ++ [rightPid] }
  let minKey := parent.keyAt 1
  let parent1 := shiftDownLoop parent (rightIndex + 1) parent.size
  let parent2 := { parent1 with size := parent1.size - 1 }
  let s4 := setPage s3 parentPid parent2
  if parent2.needMerge then (recurse s4 parentPid minKey, true) else (s4, true)

/-- `InternalMerge`: a root shrunk to one child is deleted with its
child promoted to root; otherwise attempt, in this order, borrow from
the left sibling, borrow from the right sibling, merge into the left
sibling, merge the right sibling into this page. Fuel bounds the parent
recursion. -/
def internalMergeFn : Nat → BTState → Nat → Nat → BTState
  | 0, s, _, _ => s
  | fuel + 1, s, pid, minKey =>
    let internal := s.pages pid
    if internal.isRootPage then
      if internal.size = 1 then
        let s1 := updateParentPageId s (internal.valAt 0) INVALID_PAGE_ID
        let s2 := { s1 with rootPageId := Int.ofNat (internal.valAt 0) }
        { s2 with deleted := s2.deleted ++ [pid] }
      else s
    else
      let parentPid := internal.parentPageId.toNat
      let parent := s.pages parentPid
      let index := upperBound parent minKey - 1
      let hasLeft := decide (1 ≤ index)
      let hasRight := decide (index + 1 < parent.size)
      let leftPid := parent.valAt (index - 1)
      let rightPid := parent.valAt (index + 1)
      let r1 := if hasLeft then borrowLeftInternal s pid leftPid parentPid index
                else (s, false)
      let r2 := if !r1.2 && hasRight then
          borrowRightInternal r1.1 pid rightPid parentPid index
        else r1
      let r3 := if !r2.2 && hasLeft then
          internalMergeRightToLeftFn (internalMergeFn fuel) r2.1 leftPid pid
            parentPid index
        else r2
      let r4 := if !r3.2 && hasRight then
          internalMergeRightToLeftFn (internalMergeFn fuel) r3.1 pid rightPid
            parentPid (index + 1)
        else r3
      r4.1

/-- `LeafMerge`: nothing happens for the root leaf; otherwise attempt,
in this order, borrow from the left sibling, borrow from the right
sibling, merge into the left sibling, merge the right sibling into this
leaf. -/
def leafMergeFn (fuel : Nat) (s : BTState) (leafPid minKey : Nat) : BTState :=
  let leaf := s.pages leafPid
  if leaf.isRootPage then s
  else
    let parentPid := leaf.parentPageId.toNat
    let parent := s.pages parentPid
    let index := upperBound parent minKey - 1
    let hasLeft := decide (1 ≤ index)
    let hasRight := decide (index + 1 < parent.size)
    let leftPid := parent.valAt (index - 1)
    let rightPid := parent.valAt (index + 1)
    let r1 := if hasLeft then borrowLeftLeaf s leafPid leftPid parentPid index
              else (s, false)
    let r2 := if !r1.2 && hasRight then
        borrowRightLeaf r1.1 leafPid rightPid parentPid index
      else r1
    let r3 := if !r2.2 && hasLeft then
        leafMergeRightToLeftFn (internalMergeFn fuel) r2.1 leftPid leafPid
          parentPid index
      else r2
    let r4 := if !r3.2 && hasRight then
        leafMergeRightToLeftFn (internalMergeFn fuel) r3.1 leafPid rightPid
          parentPid (index + 1)
      else r3
    r4.1

/-- `LeafRemove`: absent key returns false; otherwise save the leaf's
first key, shift the tail down, shrink, and rebalance on underflow. -/
def leafRemove (fuel : Nat) (s : BTState) (leafPid k : Nat) : BTState × Bool :=
  let leaf := s.pages leafPid
  let index := lowerBound leaf k
  if index ≥ leaf.size ∨ leaf.keyAt index ≠ k then (s, false)
  else
    let minKey := leaf.keyAt 0
    let leaf1 := shiftDownLoop leaf (index + 1) leaf.size
    let leaf2 := { leaf1 with size := leaf1.size - 1 }
    let s1 := setPage s leafPid leaf2
    if leaf2.needMerge then (leafMergeFn fuel s1 leafPid minKey, true)
    else (s1, true)

/-- `Remove`: no-op on the empty tree, else descend and remove at the
leaf. -/
def remove (fuel : Nat) (s : BTState) (k : Nat) : BTState :=
  if s.isEmpty then s
  else (leafRemove fuel s (findLeaf fuel s k s.rootPageId.toNat) k).1

end BPT

/-- A freshly constructed tree: empty store, no root, leaf/internal
max size 4 and min size 2. -/
def c6Empty : BPT.BTState :=
  { pages := fun _ =>
      { isLeaf := true, parentPageId := BPT.INVALID_PAGE_ID, size := 0,
        maxSize := 0, minSize := 0, keyAt := fun _ => 0, valAt := fun _ => 0,
        nextPageId := BPT.INVALID_PAGE_ID },
    rootPageId := BPT.INVALID_PAGE_ID, nextPageId := 1, deleted := [],
    leafMaxSize := 4, internalMaxSize := 4,
    leafMinSize := 2, internalMinSize := 2 }

/-- C6: the claim that inserting and then removing every key leaves
`IsEmpty()` true fails in the code: after inserting key 1 into the
empty tree and then removing it, the tree holds no keys (the root leaf
has size 0), yet the root page id is not `INVALID_PAGE_ID` and
`IsEmpty()` returns false, because `LeafMerge` returns immediately for
the root page and nothing ever resets `root_page_id_`. -/
theorem C6_empty_after_insert_remove :
    (BPT.insert 5 c6Empty 1 10).2 = true ∧
    (BPT.remove 5 (BPT.insert 5 c6Empty 1 10).1 1).rootPageId ≠
      BPT.INVALID_PAGE_ID ∧
    BPT.BTState.isEmpty (BPT.remove 5 (BPT.insert 5 c6Empty 1 10).1 1) =
      false ∧
    ((BPT.remove 5 (BPT.insert 5 c6Empty 1 10).1 1).pages
      ((BPT.remove 5 (BPT.insert 5 c6Empty 1 10).1 1).rootPageId.toNat)).size =
      0 :=
  ⟨by decide, by decide, by decide, by decide⟩

namespace BPT

theorem setKV_keyAt (p : BTPage) (i : Nat) (kv : Nat × Nat) (j : Nat) :
    (p.setKV i kv).keyAt j = if j = i then kv.1 else p.keyAt j := rfl

theorem foldl_setKV_shift_size (l : List Nat) :
    ∀ p : BTPage,
      (l.foldl (fun q i => q.setKV i (q.getKV (i - 1))) p).size = p.size := by
  induction l with
  | nil => intro p; rfl
  | cons a l ih => intro p; exact ih _

theorem shiftUpLoop_size (p : BTPage) (idx : Nat) :
    (shiftUpLoop p idx).size = p.size :=
  foldl_setKV_shift_size _ p

theorem insertKV_size (p : BTPage) (key val : Nat) :
    (insertKV p key val).size = p.size + 1 := by
  show (shiftUpLoop p (upperBound p key)).size + 1 = p.size + 1
  rw [shiftUpLoop_size]

/-- The binary search keeps `l < r ≤ size` and the invariant that the
key at `r` (when `r < size`) is greater than the search key. -/
theorem upperBoundAux_spec (p : BTPage) (k : Nat) :
    ∀ (fuel l r : Nat), l < r → r ≤ p.size → r - l ≤ fuel →
      (r = p.size ∨ k < p.keyAt r) →
      l < upperBoundAux p k fuel l r ∧ upperBoundAux p k fuel l r ≤ r ∧
        (upperBoundAux p k fuel l r = p.size ∨
          k < p.keyAt (upperBoundAux p k fuel l r)) := by
  intro fuel
  induction fuel with
  | zero =>
    intro l r hlr _ hfuel _
    exfalso
    omega
  | succ fuel ih =>
    intro l r hlr hrs hfuel hinv
    by_cases hc : l + 1 < r
    · have hm1 : l < (l + r) / 2 := by omega
      have hm2 : (l + r) / 2 < r := by omega
      by_cases hk : k < p.keyAt ((l + r) / 2)
      · have h := ih l ((l + r) / 2) hm1
          (le_of_lt (lt_of_lt_of_le hm2 hrs)) (by omega) (Or.inr hk)
        simp only [upperBoundAux]
        rw [if_pos hc, if_pos hk]
        exact ⟨h.1, le_trans h.2.1 (le_of_lt hm2), h.2.2⟩
      · have h := ih ((l + r) / 2) r hm2 hrs (by omega) hinv
        simp only [upperBoundAux]
        rw [if_pos hc, if_neg hk]
        exact ⟨lt_trans hm1 h.1, h.2.1, h.2.2⟩
    · simp only [upperBoundAux]
      rw [if_neg hc]
      exact ⟨hlr, le_refl r, hinv⟩

theorem upperBound_spec (p : BTPage) (k : Nat) (hs : 1 ≤ p.size) :
    1 ≤ upperBound p k ∧ upperBound p k ≤ p.size ∧
      (upperBound p k = p.size ∨ k < p.keyAt (upperBound p k)) := by
  have h := upperBoundAux_spec p k p.size 0 p.size (by omega) (le_refl _)
    (by omega) (Or.inl rfl)
  exact ⟨h.1, h.2.1, h.2.2⟩

/-- Pointwise effect of the copy loop on keys. -/
theorem copyLoop_keyAt (src : BTPage) (srcOff : Nat) :
    ∀ (n : Nat) (dst : BTPage) (dstOff j : Nat),
      (copyLoop dst dstOff src srcOff n).keyAt j =
        if dstOff ≤ j ∧ j < dstOff + n then src.keyAt (srcOff + (j - dstOff))
        else dst.keyAt j := by
  intro n
  induction n with
  | zero =>
    intro dst dstOff j
    have hc : ¬ (dstOff ≤ j ∧ j < dstOff + 0) := by omega
    rw [if_neg hc]
    rfl
  | succ n ih =>
    intro dst dstOff j
    have he : copyLoop dst dstOff src srcOff (n + 1) =
        (copyLoop dst dstOff src srcOff n).setKV (dstOff + n)
          (src.getKV (srcOff + n)) := by
      simp only [copyLoop, List.range_succ, List.foldl_append, List.foldl_cons,
        List.foldl_nil]
    rw [he, setKV_keyAt]
    by_cases hj : j = dstOff + n
    · rw [if_pos hj]
      have hc : dstOff ≤ j ∧ j < dstOff + (n + 1) := by omega
      rw [if_pos hc]
      show src.keyAt (srcOff + n) = src.keyAt (srcOff + (j - dstOff))
      congr 1
      omega
    · rw [if_neg hj, ih dst dstOff j]
      by_cases hc : dstOff ≤ j ∧ j < dstOff + n
      · rw [if_pos hc, if_pos (show dstOff ≤ j ∧ j < dstOff + (n + 1) from by omega)]
      · rw [if_neg hc, if_neg (show ¬ (dstOff ≤ j ∧ j < dstOff + (n + 1)) from by omega)]

end BPT

/-- C5 (amended): every split chooses `middle = max_size / 2` — leaf
splits unconditionally, so the right half is at most the left half plus
one; in the `src` variant of `InternalSplit` the middle is bumped by one
when the insertion key lands in the right half (`UpperBound(key) >=
middle`), and the two halves (counting the pending pair) always satisfy
`right ≤ left + 1`; in the other variant the bump is commented out and
the bound fails (see the counterexample). -/
theorem C5_split_middle (leaf internal : BPT.BTPage)
    (key val newPid cfgMax cfgMin : Nat)
    (hfull : internal.size = internal.maxSize)
    (hmax : 2 ≤ internal.maxSize)
    (hsorted : ∀ i < internal.size, ∀ j < internal.size,
      1 ≤ i → i < j → internal.keyAt i < internal.keyAt j) :
    (BPT.leafSplitCore leaf newPid cfgMax cfgMin).1.size = leaf.maxSize / 2 ∧
    (BPT.leafSplitCore leaf newPid cfgMax cfgMin).2.size =
      leaf.maxSize - leaf.maxSize / 2 ∧
    (BPT.leafSplitCore leaf newPid cfgMax cfgMin).2.size ≤
      (BPT.leafSplitCore leaf newPid cfgMax cfgMin).1.size + 1 ∧
    (BPT.internalSplitCore true internal key val cfgMax cfgMin).middle =
      (if internal.maxSize / 2 ≤ BPT.upperBound internal key
       then internal.maxSize / 2 + 1 else internal.maxSize / 2) ∧
    (BPT.internalSplitCore true internal key val cfgMax cfgMin).left.size +
      (BPT.internalSplitCore true internal key val cfgMax cfgMin).right.size =
      internal.maxSize + 1 ∧
    (BPT.internalSplitCore true internal key val cfgMax cfgMin).right.size ≤
      (BPT.internalSplitCore true internal key val cfgMax cfgMin).left.size +
        1 := by
  have hmid : (BPT.internalSplitCore true internal key val cfgMax cfgMin).middle =
      (if internal.maxSize / 2 ≤ BPT.upperBound internal key
       then internal.maxSize / 2 + 1 else internal.maxSize / 2) := by
    by_cases hb : internal.maxSize / 2 ≤ BPT.upperBound internal key
    · simp [BPT.internalSplitCore, hb]
    · simp [BPT.internalSplitCore, hb]
  have main :
      (BPT.internalSplitCore true internal key val cfgMax cfgMin).left.size +
        (BPT.internalSplitCore true internal key val cfgMax cfgMin).right.size =
        internal.maxSize + 1 ∧
      (BPT.internalSplitCore true internal key val cfgMax cfgMin).right.size ≤
        (BPT.internalSplitCore true internal key val cfgMax cfgMin).left.size +
          1 := by
    by_cases hb : internal.maxSize / 2 ≤ BPT.upperBound internal key
    · simp only [BPT.internalSplitCore]
      simp [hb, BPT.insertKV_size]
      split
      · simp [BPT.insertKV_size]
        constructor <;> omega
      · simp [BPT.insertKV_size]
        constructor <;> omega
    · have hub := BPT.upperBound_spec internal key (by omega)
      have hublt : BPT.upperBound internal key < internal.maxSize / 2 := by
        omega
      have hubsz : BPT.upperBound internal key < internal.size := by omega
      have hklt : key < internal.keyAt (BPT.upperBound internal key) := by
        rcases hub.2.2 with h | h
        · exact absurd h (by omega)
        · exact h
      have hkey : key < internal.keyAt (internal.maxSize / 2) :=
        lt_trans hklt (hsorted _ hubsz _ (by omega) hub.1 hublt)
      simp only [BPT.internalSplitCore]
      simp [hb, BPT.insertKV_size]
      rw [BPT.copyLoop_keyAt]
      rw [if_pos (show (0:Nat) ≤ 0 ∧
        0 < 0 + (internal.maxSize - internal.maxSize / 2) from by omega)]
      simp only [Nat.sub_zero, Nat.add_zero]
      simp [hkey, BPT.insertKV_size]
      omega
  exact ⟨rfl, rfl,
    show leaf.maxSize - leaf.maxSize / 2 ≤ leaf.maxSize / 2 + 1 from by omega,
    hmid, main.1, main.2⟩

/-- A full internal page of max size 5 with strictly ascending keys
10, 20, 30, 40 at positions 1..4 (position 0 unused). -/
def c5Page : BPT.BTPage :=
  { isLeaf := false, parentPageId := 7, size := 5, maxSize := 5, minSize := 2,
    keyAt := fun i => 10 * i, valAt := fun i => 100 + i,
    nextPageId := BPT.INVALID_PAGE_ID }

theorem C5_split_middle_counterexample :
    c5Page.size = c5Page.maxSize ∧
    (∀ i < c5Page.size, ∀ j < c5Page.size,
      1 ≤ i → i < j → c5Page.keyAt i < c5Page.keyAt j) ∧
    (BPT.internalSplitCore false c5Page 50 200 5 2).right.size =
      (BPT.internalSplitCore false c5Page 50 200 5 2).left.size + 2 :=
  ⟨by decide, by decide, by decide⟩

theorem C5_split_middle_witness :
    (c5Page.size = c5Page.maxSize ∧ 2 ≤ c5Page.maxSize ∧
      (∀ i < c5Page.size, ∀ j < c5Page.size,
        1 ≤ i → i < j → c5Page.keyAt i < c5Page.keyAt j)) ∧
    ((BPT.leafSplitCore c5Page 9 5 2).1.size = c5Page.maxSize / 2 ∧
    (BPT.leafSplitCore c5Page 9 5 2).2.size =
      c5Page.maxSize - c5Page.maxSize / 2 ∧
    (BPT.leafSplitCore c5Page 9 5 2).2.size ≤
      (BPT.leafSplitCore c5Page 9 5 2).1.size + 1 ∧
    (BPT.internalSplitCore true c5Page 50 200 5 2).middle =
      (if c5Page.maxSize / 2 ≤ BPT.upperBound c5Page 50
       then c5Page.maxSize / 2 + 1 else c5Page.maxSize / 2) ∧
    (BPT.internalSplitCore true c5Page 50 200 5 2).left.size +
      (BPT.internalSplitCore true c5Page 50 200 5 2).right.size =
      c5Page.maxSize + 1 ∧
    (BPT.internalSplitCore true c5Page 50 200 5 2).right.size ≤
      (BPT.internalSplitCore true c5Page 50 200 5 2).left.size + 1) :=
  ⟨⟨by decide, by decide, by decide⟩,
   C5_split_middle c5Page c5Page 50 200 9 5 2 (by decide) (by decide)
     (by decide)⟩

namespace BPT

theorem setPage_pages (s : BTState) (pid : Nat) (p : BTPage) (q : Nat) :
    (setPage s pid p).pages q = if q = pid then p else s.pages q := rfl

theorem setKV_getKV (p : BTPage) (i : Nat) (kv : Nat × Nat) (j : Nat) :
    (p.setKV i kv).getKV j = if j = i then kv else p.getKV j := by
  by_cases h : j = i <;> simp [BTPage.getKV, BTPage.setKV, fupd, h]

theorem foldl_setKV_down_size (l : List Nat) :
    ∀ p : BTPage,
      (l.foldl (fun q i => q.setKV (i - 1) (q.getKV i)) p).size = p.size := by
  induction l with
  | nil => intro p; rfl
  | cons a l ih => intro p; exact ih _

theorem shiftDownLoop_size (p : BTPage) (start stop : Nat) :
    (shiftDownLoop p start stop).size = p.size :=
  foldl_setKV_down_size _ p

/-- Pointwise effect of the down-shift loop: the slots from `start - 1`
on take the following slot's pair; everything else is untouched. -/
theorem shiftDown_getKV :
    ∀ (n start : Nat), 1 ≤ start → ∀ (p : BTPage) (j : Nat),
      ((List.range' start n).foldl (fun q i => q.setKV (i - 1) (q.getKV i))
        p).getKV j =
      if start ≤ j + 1 ∧ j + 1 < start + n then p.getKV (j + 1) else p.getKV j := by
  intro n
  induction n with
  | zero =>
    intro start _ p j
    rw [if_neg (by omega)]
    rfl
  | succ n ih =>
    intro start hstart p j
    rw [List.range'_succ, List.foldl_cons,
      ih (start + 1) (by omega) (p.setKV (start - 1) (p.getKV start)) j]
    by_cases h1 : start + 1 ≤ j + 1 ∧ j + 1 < start + 1 + n
    · rw [if_pos h1, setKV_getKV,
        if_neg (show ¬ (j + 1 = start - 1) from by omega),
        if_pos (show start ≤ j + 1 ∧ j + 1 < start + (n + 1) from by omega)]
    · rw [if_neg h1, setKV_getKV]
      by_cases h2 : j = start - 1
      · rw [if_pos h2,
          if_pos (show start ≤ j + 1 ∧ j + 1 < start + (n + 1) from by omega)]
        congr 1
        omega
      · rw [if_neg h2,
          if_neg (show ¬ (start ≤ j + 1 ∧ j + 1 < start + (n + 1)) from by
            omega)]

theorem shiftDownLoop_getKV (p : BTPage) (start stop : Nat) (hstart : 1 ≤ start)
    (j : Nat) :
    (shiftDownLoop p start stop).getKV j =
      if start ≤ j + 1 ∧ j + 1 < start + (stop - start) then p.getKV (j + 1)
      else p.getKV j :=
  shiftDown_getKV (stop - start) start hstart p j

theorem ite_snd_true (c : Prop) [Decidable c] (x y : BTState) :
    (if c then (x, true) else (y, true)).2 = true := by
  by_cases h : c
  · rw [if_pos h]
  · rw [if_neg h]

end BPT

namespace BPT

theorem borrowLeftLeaf_fail (s : BTState) (a b c d : Nat)
    (h : ¬ (s.pages b).minSize < (s.pages b).size) :
    borrowLeftLeaf s a b c d = (s, false) := by
  simp only [borrowLeftLeaf]
  rw [if_pos (decide_eq_true
    (show (s.pages b).size ≤ (s.pages b).minSize from by omega))]

theorem borrowLeftLeaf_snd (s : BTState) (a b c d : Nat)
    (h : (s.pages b).minSize < (s.pages b).size) :
    (borrowLeftLeaf s a b c d).2 = true := by
  simp only [borrowLeftLeaf]
  rw [if_neg (show ¬ (decide ((s.pages b).size ≤ (s.pages b).minSize) = true)
    from by simp; omega)]

theorem borrowRightLeaf_fail (s : BTState) (a b c d : Nat)
    (h : ¬ (s.pages b).minSize < (s.pages b).size) :
    borrowRightLeaf s a b c d = (s, false) := by
  simp only [borrowRightLeaf]
  rw [if_pos (decide_eq_true
    (show (s.pages b).size ≤ (s.pages b).minSize from by omega))]

theorem borrowRightLeaf_snd (s : BTState) (a b c d : Nat)
    (h : (s.pages b).minSize < (s.pages b).size) :
    (borrowRightLeaf s a b c d).2 = true := by
  simp only [borrowRightLeaf]
  rw [if_neg (show ¬ (decide ((s.pages b).size ≤ (s.pages b).minSize) = true)
    from by simp; omega)]

theorem borrowLeftInternal_fail (s : BTState) (a b c d : Nat)
    (h : ¬ (s.pages b).minSize < (s.pages b).size) :
    borrowLeftInternal s a b c d = (s, false) := by
  simp only [borrowLeftInternal]
  rw [if_pos (decide_eq_true
    (show (s.pages b).size ≤ (s.pages b).minSize from by omega))]

theorem borrowLeftInternal_snd (s : BTState) (a b c d : Nat)
    (h : (s.pages b).minSize < (s.pages b).size) :
    (borrowLeftInternal s a b c d).2 = true := by
  simp only [borrowLeftInternal]
  rw [if_neg (show ¬ (decide ((s.pages b).size ≤ (s.pages b).minSize) = true)
    from by simp; omega)]

theorem borrowRightInternal_fail (s : BTState) (a b c d : Nat)
    (h : ¬ (s.pages b).minSize < (s.pages b).size) :
    borrowRightInternal s a b c d = (s, false) := by
  simp only [borrowRightInternal]
  rw [if_pos (decide_eq_true
    (show (s.pages b).size ≤ (s.pages b).minSize from by omega))]

theorem borrowRightInternal_snd (s : BTState) (a b c d : Nat)
    (h : (s.pages b).minSize < (s.pages b).size) :
    (borrowRightInternal s a b c d).2 = true := by
  simp only [borrowRightInternal]
  rw [if_neg (show ¬ (decide ((s.pages b).size ≤ (s.pages b).minSize) = true)
    from by simp; omega)]

theorem leafMergeRTL_snd (recurse : BTState → Nat → Nat → BTState)
    (s : BTState) (a b c d : Nat) :
    (leafMergeRightToLeftFn recurse s a b c d).2 = true := by
  exact ite_snd_true _ _ _

theorem internalMergeRTL_snd (recurse : BTState → Nat → Nat → BTState)
    (s : BTState) (a b c d : Nat) :
    (internalMergeRightToLeftFn recurse s a b c d).2 = true := by
  exact ite_snd_true _ _ _

end BPT

namespace BPT

/-- The rebalance cascade of `LeafMerge`, with the status plumbing
resolved: the four attempts run in the source order, a failed borrow
leaves the state untouched, and a merge attempt always succeeds. -/
theorem leafMergeFn_cascade (fuel : Nat) (s : BTState)
    (leafPid minKey parentPid index leftPid rightPid : Nat)
    (hpp : parentPid = (s.pages leafPid).parentPageId.toNat)
    (hidx : index = upperBound (s.pages parentPid) minKey - 1)
    (hlp : leftPid = (s.pages parentPid).valAt (index - 1))
    (hrp : rightPid = (s.pages parentPid).valAt (index + 1))
    (hroot : (s.pages leafPid).isRootPage = false) :
    leafMergeFn fuel s leafPid minKey =
      if 1 ≤ index ∧ (s.pages leftPid).minSize < (s.pages leftPid).size then
        (borrowLeftLeaf s leafPid leftPid parentPid index).1
      else if index + 1 < (s.pages parentPid).size ∧
          (s.pages rightPid).minSize < (s.pages rightPid).size then
        (borrowRightLeaf s leafPid rightPid parentPid index).1
      else if 1 ≤ index then
        (leafMergeRightToLeftFn (internalMergeFn fuel) s leftPid leafPid
          parentPid index).1
      else if index + 1 < (s.pages parentPid).size then
        (leafMergeRightToLeftFn (internalMergeFn fuel) s leafPid rightPid
          parentPid (index + 1)).1
      else s := by
  simp only [leafMergeFn]
  rw [if_neg (by simp [hroot])]
  rw [← hpp, ← hidx, ← hlp, ← hrp]
  by_cases hL : 1 ≤ index
  · by_cases hLs : (s.pages leftPid).minSize < (s.pages leftPid).size
    · have h2 := borrowLeftLeaf_snd s leafPid leftPid parentPid index hLs
      simp [hL, hLs, h2]
    · have hf := borrowLeftLeaf_fail s leafPid leftPid parentPid index hLs
      by_cases hR : index + 1 < (s.pages parentPid).size
      · by_cases hRs : (s.pages rightPid).minSize < (s.pages rightPid).size
        · have h2 := borrowRightLeaf_snd s leafPid rightPid parentPid index hRs
          simp [hL, hLs, hR, hRs, hf, h2]
        · have hf2 := borrowRightLeaf_fail s leafPid rightPid parentPid index
            hRs
          have h3 := leafMergeRTL_snd (internalMergeFn fuel) s leftPid leafPid
            parentPid index
          simp [hL, hLs, hR, hRs, hf, hf2, h3]
      · have h3 := leafMergeRTL_snd (internalMergeFn fuel) s leftPid leafPid
          parentPid index
        simp [hL, hLs, hR, hf, h3]
  · by_cases hR : index + 1 < (s.pages parentPid).size
    · by_cases hRs : (s.pages rightPid).minSize < (s.pages rightPid).size
      · have h2 := borrowRightLeaf_snd s leafPid rightPid parentPid index hRs
        simp [hL, hR, hRs, h2]
      · have hf2 := borrowRightLeaf_fail s leafPid rightPid parentPid index hRs
        have h3 := leafMergeRTL_snd (internalMergeFn fuel) s leafPid rightPid
          parentPid (index + 1)
        simp [hL, hR, hRs, hf2, h3]
    · simp [hL, hR]

end BPT

namespace BPT

/-- The rebalance cascade of `InternalMerge` for a non-root page, with
the status plumbing resolved, in the source order. -/
theorem internalMergeFn_cascade (fuel : Nat) (s : BTState)
    (pid minKey parentPid index leftPid rightPid : Nat)
    (hpp : parentPid = (s.pages pid).parentPageId.toNat)
    (hidx : index = upperBound (s.pages parentPid) minKey - 1)
    (hlp : leftPid = (s.pages parentPid).valAt (index - 1))
    (hrp : rightPid = (s.pages parentPid).valAt (index + 1))
    (hroot : (s.pages pid).isRootPage = false) :
    internalMergeFn (fuel + 1) s pid minKey =
      if 1 ≤ index ∧ (s.pages leftPid).minSize < (s.pages leftPid).size then
        (borrowLeftInternal s pid leftPid parentPid index).1
      else if index + 1 < (s.pages parentPid).size ∧
          (s.pages rightPid).minSize < (s.pages rightPid).size then
        (borrowRightInternal s pid rightPid parentPid index).1
      else if 1 ≤ index then
        (internalMergeRightToLeftFn (internalMergeFn fuel) s leftPid pid
          parentPid index).1
      else if index + 1 < (s.pages parentPid).size then
        (internalMergeRightToLeftFn (internalMergeFn fuel) s pid rightPid
          parentPid (index + 1)).1
      else s := by
  simp only [internalMergeFn]
  rw [if_neg (by simp [hroot])]
  rw [← hpp, ← hidx, ← hlp, ← hrp]
  by_cases hL : 1 ≤ index
  · by_cases hLs : (s.pages leftPid).minSize < (s.pages leftPid).size
    · have h2 := borrowLeftInternal_snd s pid leftPid parentPid index hLs
      simp [hL, hLs, h2]
    · have hf := borrowLeftInternal_fail s pid leftPid parentPid index hLs
      by_cases hR : index + 1 < (s.pages parentPid).size
      · by_cases hRs : (s.pages rightPid).minSize < (s.pages rightPid).size
        · have h2 := borrowRightInternal_snd s pid rightPid parentPid index hRs
          simp [hL, hLs, hR, hRs, hf, h2]
        · have hf2 := borrowRightInternal_fail s pid rightPid parentPid index
            hRs
          have h3 := internalMergeRTL_snd (internalMergeFn fuel) s leftPid pid
            parentPid index
          simp [hL, hLs, hR, hRs, hf, hf2, h3]
      · have h3 := internalMergeRTL_snd (internalMergeFn fuel) s leftPid pid
          parentPid index
        simp [hL, hLs, hR, hf, h3]
  · by_cases hR : index + 1 < (s.pages parentPid).size
    · by_cases hRs : (s.pages rightPid).minSize < (s.pages rightPid).size
      · have h2 := borrowRightInternal_snd s pid rightPid parentPid index hRs
        simp [hL, hR, hRs, h2]
      · have hf2 := borrowRightInternal_fail s pid rightPid parentPid index hRs
        have h3 := internalMergeRTL_snd (internalMergeFn fuel) s pid rightPid
          parentPid (index + 1)
        simp [hL, hR, hRs, hf2, h3]
    · simp [hL, hR]

end BPT

namespace BPT

theorem setPage_pages_ne (s : BTState) (pid : Nat) (p : BTPage) (q : Nat)
    (h : q ≠ pid) : (setPage s pid p).pages q = s.pages q := by
  rw [setPage_pages, if_neg h]

theorem setPage_pages_eq (s : BTState) (pid : Nat) (p : BTPage) :
    (setPage s pid p).pages pid = p := by
  rw [setPage_pages, if_pos rfl]

theorem foldl_setKV_down_minSize (l : List Nat) :
    ∀ p : BTPage,
      (l.foldl (fun q i => q.setKV (i - 1) (q.getKV i)) p).minSize =
        p.minSize := by
  induction l with
  | nil => intro p; rfl
  | cons a l ih => intro p; exact ih _

theorem shiftDownLoop_minSize (p : BTPage) (start stop : Nat) :
    (shiftDownLoop p start stop).minSize = p.minSize :=
  foldl_setKV_down_minSize _ p

/-- Effect of a successful left borrow at the leaf level: the leaf gains
the left sibling's rightmost pair at slot 0, the sibling shrinks by one,
and the parent's separating key at `index` becomes the borrowed key. -/
theorem borrowLeftLeaf_effect (s : BTState) (leafPid leftPid parentPid index : Nat)
    (hd1 : leafPid ≠ leftPid) (hd3 : parentPid ≠ leafPid)
    (hd4 : parentPid ≠ leftPid)
    (hs : (s.pages leftPid).minSize < (s.pages leftPid).size) :
    ((borrowLeftLeaf s leafPid leftPid parentPid index).1.pages leafPid).size =
      (s.pages leafPid).size + 1 ∧
    ((borrowLeftLeaf s leafPid leftPid parentPid index).1.pages leafPid).getKV 0 =
      (s.pages leftPid).getKV ((s.pages leftPid).size - 1) ∧
    (borrowLeftLeaf s leafPid leftPid parentPid index).1.pages leftPid =
      { s.pages leftPid with size := (s.pages leftPid).size - 1 } ∧
    (borrowLeftLeaf s leafPid leftPid parentPid index).1.pages parentPid =
      (s.pages parentPid).setKeyAt index
        ((s.pages leftPid).keyAt ((s.pages leftPid).size - 1)) ∧
    (borrowLeftLeaf s leafPid leftPid parentPid index).1.deleted = s.deleted ∧
    (borrowLeftLeaf s leafPid leftPid parentPid index).1.rootPageId =
      s.rootPageId := by
  simp only [borrowLeftLeaf]
  rw [if_neg (show ¬ (decide ((s.pages leftPid).size ≤
    (s.pages leftPid).minSize) = true) from by simp; omega)]
  refine ⟨?_, ?_, ?_, ?_, rfl, rfl⟩
  · rw [setPage_pages_ne _ _ _ _ (fun h => hd3 h.symm),
      setPage_pages_ne _ _ _ _ hd1, setPage_pages_eq]
    show (shiftUpLoop (s.pages leafPid) 0).size + 1 = (s.pages leafPid).size + 1
    rw [shiftUpLoop_size]
  · rw [setPage_pages_ne _ _ _ _ (fun h => hd3 h.symm),
      setPage_pages_ne _ _ _ _ hd1, setPage_pages_eq]
    show ((shiftUpLoop (s.pages leafPid) 0).setKV 0
      ((s.pages leftPid).getKV ((s.pages leftPid).size - 1))).getKV 0 =
      (s.pages leftPid).getKV ((s.pages leftPid).size - 1)
    rw [setKV_getKV, if_pos rfl]
  · rw [setPage_pages_ne _ _ _ _ (fun h => hd4 h.symm),
      setPage_pages_eq]
  · rw [setPage_pages_eq, setPage_pages_ne _ _ _ _ hd4,
      setPage_pages_ne _ _ _ _ hd3]
    show (s.pages parentPid).setKeyAt index
      (((shiftUpLoop (s.pages leafPid) 0).setKV 0
        ((s.pages leftPid).getKV ((s.pages leftPid).size - 1))).keyAt 0) = _
    rw [setKV_keyAt, if_pos rfl]
    rfl

end BPT

namespace BPT

/-- Effect of a successful right borrow at the leaf level: the right
sibling's first pair lands at the leaf's tail, the sibling shifts down
and shrinks, and the parent's separating key at `index + 1` becomes
the sibling's new first key. -/
theorem borrowRightLeaf_effect (s : BTState)
    (leafPid rightPid parentPid index : Nat)
    (hd1 : leafPid ≠ rightPid) (hd3 : parentPid ≠ leafPid)
    (hd5 : parentPid ≠ rightPid)
    (hs : (s.pages rightPid).minSize < (s.pages rightPid).size) :
    ((borrowRightLeaf s leafPid rightPid parentPid index).1.pages leafPid).size =
      (s.pages leafPid).size + 1 ∧
    ((borrowRightLeaf s leafPid rightPid parentPid index).1.pages
      leafPid).getKV ((s.pages leafPid).size) = (s.pages rightPid).getKV 0 ∧
    ((borrowRightLeaf s leafPid rightPid parentPid index).1.pages
      rightPid).size = (s.pages rightPid).size - 1 ∧
    (∀ j, j + 1 < (s.pages rightPid).size →
      ((borrowRightLeaf s leafPid rightPid parentPid index).1.pages
        rightPid).getKV j = (s.pages rightPid).getKV (j + 1)) ∧
    (borrowRightLeaf s leafPid rightPid parentPid index).1.pages parentPid =
      (s.pages parentPid).setKeyAt (index + 1)
        ((shiftDownLoop (s.pages rightPid) 1 (s.pages rightPid).size).keyAt 0) ∧
    (borrowRightLeaf s leafPid rightPid parentPid index).1.deleted =
      s.deleted ∧
    (borrowRightLeaf s leafPid rightPid parentPid index).1.rootPageId =
      s.rootPageId := by
  simp only [borrowRightLeaf]
  rw [if_neg (show ¬ (decide ((s.pages rightPid).size ≤
    (s.pages rightPid).minSize) = true) from by simp; omega)]
  refine ⟨?_, ?_, ?_, ?_, ?_, rfl, rfl⟩
  · rw [setPage_pages_ne _ _ _ _ (fun h => hd3 h.symm),
      setPage_pages_ne _ _ _ _ hd1, setPage_pages_eq]
    rfl
  · rw [setPage_pages_ne _ _ _ _ (fun h => hd3 h.symm),
      setPage_pages_ne _ _ _ _ hd1, setPage_pages_eq]
    show ((s.pages leafPid).setKV (s.pages leafPid).size
      ((s.pages rightPid).getKV 0)).getKV ((s.pages leafPid).size) =
      (s.pages rightPid).getKV 0
    rw [setKV_getKV, if_pos rfl]
  · rw [setPage_pages_ne _ _ _ _ (fun h => hd5 h.symm), setPage_pages_eq]
    show (shiftDownLoop (s.pages rightPid) 1 (s.pages rightPid).size).size - 1 =
      (s.pages rightPid).size - 1
    rw [shiftDownLoop_size]
  · intro j hj
    rw [setPage_pages_ne _ _ _ _ (fun h => hd5 h.symm), setPage_pages_eq]
    show (shiftDownLoop (s.pages rightPid) 1 (s.pages rightPid).size).getKV j =
      (s.pages rightPid).getKV (j + 1)
    rw [shiftDownLoop_getKV _ _ _ (le_refl 1) j,
      if_pos (show 1 ≤ j + 1 ∧ j + 1 < 1 + ((s.pages rightPid).size - 1) from
        by omega)]
  · rw [setPage_pages_eq, setPage_pages_ne _ _ _ _ hd5,
      setPage_pages_ne _ _ _ _ hd3]

end BPT

namespace BPT

theorem setPage_deleted (s : BTState) (pid : Nat) (p : BTPage) :
    (setPage s pid p).deleted = s.deleted := rfl

theorem setPage_rootPageId (s : BTState) (pid : Nat) (p : BTPage) :
    (setPage s pid p).rootPageId = s.rootPageId := rfl

theorem foldl_setKV_copy_size (src : BTPage) (dstOff srcOff : Nat)
    (l : List Nat) :
    ∀ p : BTPage,
      (l.foldl (fun q i => q.setKV (dstOff + i) (src.getKV (srcOff + i)))
        p).size = p.size := by
  induction l with
  | nil => intro p; rfl
  | cons a l ih => intro p; exact ih _

theorem copyLoop_size (dst : BTPage) (dstOff : Nat) (src : BTPage)
    (srcOff n : Nat) : (copyLoop dst dstOff src srcOff n).size = dst.size :=
  foldl_setKV_copy_size src dstOff srcOff _ dst

/-- Effect of `LeafMergeRightToLeft`: the left page absorbs the right
page's pairs and forward link, the right page joins the deleted set, the
parent loses the entry at `right_index` (entries above shift down), and
an underflowing parent is handed to the recursion argument in exactly
that state. -/
theorem leafMergeRTL_effect (recurse : BTState → Nat → Nat → BTState)
    (s : BTState) (a b parentPid rIdx : Nat)
    (hab : a ≠ b) (hpa : parentPid ≠ a) (hpb : parentPid ≠ b) :
    (¬ ((s.pages parentPid).size - 1 < (s.pages parentPid).minSize) →
      ((leafMergeRightToLeftFn recurse s a b parentPid rIdx).1.deleted =
        s.deleted ++ [b] ∧
      ((leafMergeRightToLeftFn recurse s a b parentPid rIdx).1.pages a).size =
        (s.pages a).size + (s.pages b).size ∧
      ((leafMergeRightToLeftFn recurse s a b parentPid
        rIdx).1.pages a).nextPageId = (s.pages b).nextPageId ∧
      ((leafMergeRightToLeftFn recurse s a b parentPid
        rIdx).1.pages parentPid).size = (s.pages parentPid).size - 1 ∧
      (∀ j, rIdx ≤ j → j + 1 < (s.pages parentPid).size →
        ((leafMergeRightToLeftFn recurse s a b parentPid
          rIdx).1.pages parentPid).getKV j =
          (s.pages parentPid).getKV (j + 1)) ∧
      (∀ j, j < rIdx →
        ((leafMergeRightToLeftFn recurse s a b parentPid
          rIdx).1.pages parentPid).getKV j = (s.pages parentPid).getKV j) ∧
      (leafMergeRightToLeftFn recurse s a b parentPid rIdx).1.rootPageId =
        s.rootPageId)) ∧
    (((s.pages parentPid).size - 1 < (s.pages parentPid).minSize) →
      ∃ t : BTState,
        (leafMergeRightToLeftFn recurse s a b parentPid rIdx).1 =
          recurse t parentPid ((s.pages parentPid).keyAt 1) ∧
        t.deleted = s.deleted ++ [b] ∧
        (t.pages a).size = (s.pages a).size + (s.pages b).size ∧
        (t.pages a).nextPageId = (s.pages b).nextPageId ∧
        (t.pages parentPid).size = (s.pages parentPid).size - 1 ∧
        (∀ j, rIdx ≤ j → j + 1 < (s.pages parentPid).size →
          (t.pages parentPid).getKV j = (s.pages parentPid).getKV (j + 1))) := by
  simp only [leafMergeRightToLeftFn]
  rw [setPage_pages_ne _ _ _ _ hpa]
  constructor
  · intro hm
    rw [if_neg (show ¬ (({ shiftDownLoop (s.pages parentPid) (rIdx + 1)
        (s.pages parentPid).size with
        size := (shiftDownLoop (s.pages parentPid) (rIdx + 1)
          (s.pages parentPid).size).size - 1 } : BTPage).needMerge = true)
      from by
        simp [BTPage.needMerge, shiftDownLoop_size, shiftDownLoop_minSize]
        omega)]
    refine ⟨by simp [setPage_deleted], ?_, ?_, ?_, ?_, ?_,
      by simp [setPage_rootPageId]⟩
    · rw [setPage_pages_ne _ _ _ _ (fun h => hpa h.symm)]
      show ((setPage s a _).pages a).size = _
      rw [setPage_pages_eq]
      show (copyLoop (s.pages a) (s.pages a).size (s.pages b) 0
        (s.pages b).size).size + (s.pages b).size =
        (s.pages a).size + (s.pages b).size
      rw [copyLoop_size]
    · rw [setPage_pages_ne _ _ _ _ (fun h => hpa h.symm)]
      show ((setPage s a _).pages a).nextPageId = _
      rw [setPage_pages_eq]
    · rw [setPage_pages_eq]
      show (shiftDownLoop (s.pages parentPid) (rIdx + 1)
        (s.pages parentPid).size).size - 1 = (s.pages parentPid).size - 1
      rw [shiftDownLoop_size]
    · intro j hj1 hj2
      rw [setPage_pages_eq]
      show (shiftDownLoop (s.pages parentPid) (rIdx + 1)
        (s.pages parentPid).size).getKV j = (s.pages parentPid).getKV (j + 1)
      rw [shiftDownLoop_getKV _ _ _ (by omega) j,
        if_pos (show rIdx + 1 ≤ j + 1 ∧ j + 1 < rIdx + 1 +
          ((s.pages parentPid).size - (rIdx + 1)) from by omega)]
    · intro j hj
      rw [setPage_pages_eq]
      show (shiftDownLoop (s.pages parentPid) (rIdx + 1)
        (s.pages parentPid).size).getKV j = (s.pages parentPid).getKV j
      rw [shiftDownLoop_getKV _ _ _ (by omega) j,
        if_neg (show ¬ (rIdx + 1 ≤ j + 1 ∧ j + 1 < rIdx + 1 +
          ((s.pages parentPid).size - (rIdx + 1))) from by omega)]
  · intro hm
    rw [if_pos (show (({ shiftDownLoop (s.pages parentPid) (rIdx + 1)
        (s.pages parentPid).size with
        size := (shiftDownLoop (s.pages parentPid) (rIdx + 1)
          (s.pages parentPid).size).size - 1 } : BTPage).needMerge = true)
      from by
        simp [BTPage.needMerge, shiftDownLoop_size, shiftDownLoop_minSize]
        omega)]
    refine ⟨_, rfl, by simp [setPage_deleted], ?_, ?_, ?_, ?_⟩
    · rw [setPage_pages_ne _ _ _ _ (fun h => hpa h.symm)]
      show ((setPage s a _).pages a).size = _
      rw [setPage_pages_eq]
      show (copyLoop (s.pages a) (s.pages a).size (s.pages b) 0
        (s.pages b).size).size + (s.pages b).size =
        (s.pages a).size + (s.pages b).size
      rw [copyLoop_size]
    · rw [setPage_pages_ne _ _ _ _ (fun h => hpa h.symm)]
      show ((setPage s a _).pages a).nextPageId = _
      rw [setPage_pages_eq]
    · rw [setPage_pages_eq]
      show (shiftDownLoop (s.pages parentPid) (rIdx + 1)
        (s.pages parentPid).size).size - 1 = (s.pages parentPid).size - 1
      rw [shiftDownLoop_size]
    · intro j hj1 hj2
      rw [setPage_pages_eq]
      show (shiftDownLoop (s.pages parentPid) (rIdx + 1)
        (s.pages parentPid).size).getKV j = (s.pages parentPid).getKV (j + 1)
      rw [shiftDownLoop_getKV _ _ _ (by omega) j,
        if_pos (show rIdx + 1 ≤ j + 1 ∧ j + 1 < rIdx + 1 +
          ((s.pages parentPid).size - (rIdx + 1)) from by omega)]

end BPT

namespace BPT

/-- `InternalMerge` at the root: a root with exactly one child is
deleted — the child is reparented to none and becomes the new root;
any other root is left alone. -/
theorem internalMergeFn_root (fuel : Nat) (s : BTState) (pid minKey : Nat)
    (hroot : (s.pages pid).isRootPage = true) :
    ((s.pages pid).size = 1 →
      ((internalMergeFn (fuel + 1) s pid minKey).rootPageId =
        Int.ofNat ((s.pages pid).valAt 0) ∧
      (internalMergeFn (fuel + 1) s pid minKey).deleted =
        s.deleted ++ [pid] ∧
      ((internalMergeFn (fuel + 1) s pid minKey).pages
        ((s.pages pid).valAt 0)).parentPageId = INVALID_PAGE_ID)) ∧
    ((s.pages pid).size ≠ 1 → internalMergeFn (fuel + 1) s pid minKey = s) := by
  constructor
  · intro hsz
    simp only [internalMergeFn]
    rw [if_pos hroot, if_pos hsz]
    refine ⟨rfl, rfl, ?_⟩
    show ((updateParentPageId s ((s.pages pid).valAt 0)
      INVALID_PAGE_ID).pages ((s.pages pid).valAt 0)).parentPageId =
      INVALID_PAGE_ID
    show ((setPage s ((s.pages pid).valAt 0)
      { s.pages ((s.pages pid).valAt 0) with
          parentPageId := INVALID_PAGE_ID }).pages
      ((s.pages pid).valAt 0)).parentPageId = INVALID_PAGE_ID
    rw [setPage_pages_eq]
  · intro hsz
    simp only [internalMergeFn]
    rw [if_pos hroot, if_neg hsz]

end BPT

/-- Characterization of the rebalance cascade: on underflow of a
non-root page, `LeafMerge` and `InternalMerge` attempt exactly, in this
order, borrow from the left sibling, borrow from the right sibling,
merge into the left sibling, merge the right sibling into this page
(the root is never rebalanced at leaf level); a leaf borrow moves one
pair and rewrites the parent key at `leaf_index` (borrow-left) or
`leaf_index + 1` (borrow-right); a merge moves the right page's pairs
into the left page, deletes the right page and removes its entry from
the parent, recursing into `InternalMerge` when the parent underflows;
a root internal page left with one child is deleted with the child
becoming the new root. -/
theorem remove_rebalance_chain (fuel : Nat) (s : BPT.BTState)
    (leafPid minKey parentPid index leftPid rightPid : Nat)
    (hpp : parentPid = (s.pages leafPid).parentPageId.toNat)
    (hidx : index = BPT.upperBound (s.pages parentPid) minKey - 1)
    (hlp : leftPid = (s.pages parentPid).valAt (index - 1))
    (hrp : rightPid = (s.pages parentPid).valAt (index + 1))
    (hd1 : leafPid ≠ leftPid) (hd2 : leafPid ≠ rightPid)
    (hd3 : parentPid ≠ leafPid) (hd4 : parentPid ≠ leftPid)
    (hd5 : parentPid ≠ rightPid) :
    ((s.pages leafPid).isRootPage = true →
      BPT.leafMergeFn fuel s leafPid minKey = s) ∧
    ((s.pages leafPid).isRootPage = false →
      BPT.leafMergeFn fuel s leafPid minKey =
        if 1 ≤ index ∧ (s.pages leftPid).minSize < (s.pages leftPid).size then
          (BPT.borrowLeftLeaf s leafPid leftPid parentPid index).1
        else if index + 1 < (s.pages parentPid).size ∧
            (s.pages rightPid).minSize < (s.pages rightPid).size then
          (BPT.borrowRightLeaf s leafPid rightPid parentPid index).1
        else if 1 ≤ index then
          (BPT.leafMergeRightToLeftFn (BPT.internalMergeFn fuel) s leftPid
            leafPid parentPid index).1
        else if index + 1 < (s.pages parentPid).size then
          (BPT.leafMergeRightToLeftFn (BPT.internalMergeFn fuel) s leafPid
            rightPid parentPid (index + 1)).1
        else s) ∧
    ((s.pages leftPid).minSize < (s.pages leftPid).size →
      ((BPT.borrowLeftLeaf s leafPid leftPid parentPid
         index).1.pages leafPid).size = (s.pages leafPid).size + 1 ∧
      ((BPT.borrowLeftLeaf s leafPid leftPid parentPid
         index).1.pages leafPid).getKV 0 =
        (s.pages leftPid).getKV ((s.pages leftPid).size - 1) ∧
      (BPT.borrowLeftLeaf s leafPid leftPid parentPid index).1.pages leftPid =
        { s.pages leftPid with size := (s.pages leftPid).size - 1 } ∧
      (BPT.borrowLeftLeaf s leafPid leftPid parentPid index).1.pages parentPid =
        (s.pages parentPid).setKeyAt index
          ((s.pages leftPid).keyAt ((s.pages leftPid).size - 1)) ∧
      (BPT.borrowLeftLeaf s leafPid leftPid parentPid index).1.deleted =
        s.deleted ∧
      (BPT.borrowLeftLeaf s leafPid leftPid parentPid index).1.rootPageId =
        s.rootPageId) ∧
    ((s.pages rightPid).minSize < (s.pages rightPid).size →
      ((BPT.borrowRightLeaf s leafPid rightPid parentPid
         index).1.pages leafPid).size = (s.pages leafPid).size + 1 ∧
      ((BPT.borrowRightLeaf s leafPid rightPid parentPid
         index).1.pages leafPid).getKV ((s.pages leafPid).size) =
        (s.pages rightPid).getKV 0 ∧
      ((BPT.borrowRightLeaf s leafPid rightPid parentPid
         index).1.pages rightPid).size = (s.pages rightPid).size - 1 ∧
      (∀ j, j + 1 < (s.pages rightPid).size →
        ((BPT.borrowRightLeaf s leafPid rightPid parentPid
           index).1.pages rightPid).getKV j =
          (s.pages rightPid).getKV (j + 1)) ∧
      (BPT.borrowRightLeaf s leafPid rightPid parentPid
        index).1.pages parentPid =
        (s.pages parentPid).setKeyAt (index + 1)
          ((BPT.shiftDownLoop (s.pages rightPid) 1
            (s.pages rightPid).size).keyAt 0) ∧
      (BPT.borrowRightLeaf s leafPid rightPid parentPid index).1.deleted =
        s.deleted ∧
      (BPT.borrowRightLeaf s leafPid rightPid parentPid index).1.rootPageId =
        s.rootPageId) ∧
    ((¬ ((s.pages parentPid).size - 1 < (s.pages parentPid).minSize) →
      ((BPT.leafMergeRightToLeftFn (BPT.internalMergeFn fuel) s leftPid leafPid
          parentPid index).1.deleted = s.deleted ++ [leafPid] ∧
      ((BPT.leafMergeRightToLeftFn (BPT.internalMergeFn fuel) s leftPid leafPid
          parentPid index).1.pages leftPid).size =
        (s.pages leftPid).size + (s.pages leafPid).size ∧
      ((BPT.leafMergeRightToLeftFn (BPT.internalMergeFn fuel) s leftPid leafPid
          parentPid index).1.pages leftPid).nextPageId =
        (s.pages leafPid).nextPageId ∧
      ((BPT.leafMergeRightToLeftFn (BPT.internalMergeFn fuel) s leftPid leafPid
          parentPid index).1.pages parentPid).size =
        (s.pages parentPid).size - 1 ∧
      (∀ j, index ≤ j → j + 1 < (s.pages parentPid).size →
        ((BPT.leafMergeRightToLeftFn (BPT.internalMergeFn fuel) s leftPid
            leafPid parentPid index).1.pages parentPid).getKV j =
          (s.pages parentPid).getKV (j + 1)) ∧
      (∀ j, j < index →
        ((BPT.leafMergeRightToLeftFn (BPT.internalMergeFn fuel) s leftPid
            leafPid parentPid index).1.pages parentPid).getKV j =
          (s.pages parentPid).getKV j) ∧
      (BPT.leafMergeRightToLeftFn (BPT.internalMergeFn fuel) s leftPid leafPid
        parentPid index).1.rootPageId = s.rootPageId)) ∧
    (((s.pages parentPid).size - 1 < (s.pages parentPid).minSize) →
      ∃ t : BPT.BTState,
        (BPT.leafMergeRightToLeftFn (BPT.internalMergeFn fuel) s leftPid
          leafPid parentPid index).1 =
          BPT.internalMergeFn fuel t parentPid
            ((s.pages parentPid).keyAt 1) ∧
        t.deleted = s.deleted ++ [leafPid] ∧
        (t.pages leftPid).size =
          (s.pages leftPid).size + (s.pages leafPid).size ∧
        (t.pages leftPid).nextPageId = (s.pages leafPid).nextPageId ∧
        (t.pages parentPid).size = (s.pages parentPid).size - 1 ∧
        (∀ j, index ≤ j → j + 1 < (s.pages parentPid).size →
          (t.pages parentPid).getKV j =
            (s.pages parentPid).getKV (j + 1)))) ∧
    (∀ pid2 mk2 pPid2 idx2 lp2 rp2 : Nat,
      pPid2 = (s.pages pid2).parentPageId.toNat →
      idx2 = BPT.upperBound (s.pages pPid2) mk2 - 1 →
      lp2 = (s.pages pPid2).valAt (idx2 - 1) →
      rp2 = (s.pages pPid2).valAt (idx2 + 1) →
      (s.pages pid2).isRootPage = false →
      BPT.internalMergeFn (fuel + 1) s pid2 mk2 =
        if 1 ≤ idx2 ∧ (s.pages lp2).minSize < (s.pages lp2).size then
          (BPT.borrowLeftInternal s pid2 lp2 pPid2 idx2).1
        else if idx2 + 1 < (s.pages pPid2).size ∧
            (s.pages rp2).minSize < (s.pages rp2).size then
          (BPT.borrowRightInternal s pid2 rp2 pPid2 idx2).1
        else if 1 ≤ idx2 then
          (BPT.internalMergeRightToLeftFn (BPT.internalMergeFn fuel) s lp2
            pid2 pPid2 idx2).1
        else if idx2 + 1 < (s.pages pPid2).size then
          (BPT.internalMergeRightToLeftFn (BPT.internalMergeFn fuel) s pid2
            rp2 pPid2 (idx2 + 1)).1
        else s) ∧
    (∀ pid2 mk2 : Nat, (s.pages pid2).isRootPage = true →
      ((s.pages pid2).size = 1 →
        ((BPT.internalMergeFn (fuel + 1) s pid2 mk2).rootPageId =
          Int.ofNat ((s.pages pid2).valAt 0) ∧
        (BPT.internalMergeFn (fuel + 1) s pid2 mk2).deleted =
          s.deleted ++ [pid2] ∧
        ((BPT.internalMergeFn (fuel + 1) s pid2 mk2).pages
          ((s.pages pid2).valAt 0)).parentPageId = BPT.INVALID_PAGE_ID)) ∧
      ((s.pages pid2).size ≠ 1 →
        BPT.internalMergeFn (fuel + 1) s pid2 mk2 = s)) := by
  refine ⟨?_, ?_, ?_, ?_, ?_, ?_, ?_⟩
  · intro h
    simp only [BPT.leafMergeFn]
    rw [if_pos h]
  · intro h
    exact BPT.leafMergeFn_cascade fuel s leafPid minKey parentPid index
      leftPid rightPid hpp hidx hlp hrp h
  · intro h
    exact BPT.borrowLeftLeaf_effect s leafPid leftPid parentPid index
      hd1 hd3 hd4 h
  · intro h
    exact BPT.borrowRightLeaf_effect s leafPid rightPid parentPid index
      hd2 hd3 hd5 h
  · exact BPT.leafMergeRTL_effect (BPT.internalMergeFn fuel) s leftPid leafPid
      parentPid index (fun h => hd1 h.symm) hd4 hd3
  · intro pid2 mk2 pPid2 idx2 lp2 rp2 h1 h2 h3 h4 h5
    exact BPT.internalMergeFn_cascade fuel s pid2 mk2 pPid2 idx2 lp2 rp2
      h1 h2 h3 h4 h5
  · intro pid2 mk2 h
    exact BPT.internalMergeFn_root fuel s pid2 mk2 h

/-- A small tree for exercising the rebalance characterization: internal
root page 1 (size 3, children 3, 2, 5 with separators 20, 30) over leaf
page 2 and its siblings. -/
def c3State : BPT.BTState :=
  { pages := fun pid =>
      if pid = 1 then
        { isLeaf := false, parentPageId := BPT.INVALID_PAGE_ID, size := 3,
          maxSize := 4, minSize := 2, keyAt := fun i => 10 * i + 10,
          valAt := fun i => if i = 1 then 2 else i + 3,
          nextPageId := BPT.INVALID_PAGE_ID }
      else if pid = 2 then
        { isLeaf := true, parentPageId := 1, size := 1, maxSize := 4,
          minSize := 2, keyAt := fun _ => 25, valAt := fun _ => 250,
          nextPageId := 5 }
      else
        { isLeaf := true, parentPageId := 1, size := 2, maxSize := 4,
          minSize := 2, keyAt := fun i => 7 * pid + i, valAt := fun i => i,
          nextPageId := BPT.INVALID_PAGE_ID },
    rootPageId := 1, nextPageId := 6, deleted := [],
    leafMaxSize := 4, internalMaxSize := 4,
    leafMinSize := 2, internalMinSize := 2 }

theorem remove_rebalance_chain_check :
    ((1 : Nat) = (c3State.pages 2).parentPageId.toNat ∧
     (1 : Nat) = BPT.upperBound (c3State.pages 1) 25 - 1 ∧
     (3 : Nat) = (c3State.pages 1).valAt (1 - 1) ∧
     (5 : Nat) = (c3State.pages 1).valAt (1 + 1) ∧
     (2 : Nat) ≠ 3 ∧ (2 : Nat) ≠ 5 ∧ (1 : Nat) ≠ 2 ∧ (1 : Nat) ≠ 3 ∧
     (1 : Nat) ≠ 5) ∧
    (((c3State.pages 2).isRootPage = true →
      BPT.leafMergeFn 3 c3State 2 25 = c3State) ∧
    ((c3State.pages 2).isRootPage = false →
      BPT.leafMergeFn 3 c3State 2 25 =
        if 1 ≤ 1 ∧ (c3State.pages 3).minSize < (c3State.pages 3).size then
          (BPT.borrowLeftLeaf c3State 2 3 1 1).1
        else if 1 + 1 < (c3State.pages 1).size ∧
            (c3State.pages 5).minSize < (c3State.pages 5).size then
          (BPT.borrowRightLeaf c3State 2 5 1 1).1
        else if 1 ≤ 1 then
          (BPT.leafMergeRightToLeftFn (BPT.internalMergeFn 3) c3State 3
            2 1 1).1
        else if 1 + 1 < (c3State.pages 1).size then
          (BPT.leafMergeRightToLeftFn (BPT.internalMergeFn 3) c3State 2
            5 1 (1 + 1)).1
        else c3State) ∧
    ((c3State.pages 3).minSize < (c3State.pages 3).size →
      ((BPT.borrowLeftLeaf c3State 2 3 1 1).1.pages 2).size =
        (c3State.pages 2).size + 1 ∧
      ((BPT.borrowLeftLeaf c3State 2 3 1 1).1.pages 2).getKV 0 =
        (c3State.pages 3).getKV ((c3State.pages 3).size - 1) ∧
      (BPT.borrowLeftLeaf c3State 2 3 1 1).1.pages 3 =
        { c3State.pages 3 with size := (c3State.pages 3).size - 1 } ∧
      (BPT.borrowLeftLeaf c3State 2 3 1 1).1.pages 1 =
        (c3State.pages 1).setKeyAt 1
          ((c3State.pages 3).keyAt ((c3State.pages 3).size - 1)) ∧
      (BPT.borrowLeftLeaf c3State 2 3 1 1).1.deleted = c3State.deleted ∧
      (BPT.borrowLeftLeaf c3State 2 3 1 1).1.rootPageId =
        c3State.rootPageId) ∧
    ((c3State.pages 5).minSize < (c3State.pages 5).size →
      ((BPT.borrowRightLeaf c3State 2 5 1 1).1.pages 2).size =
        (c3State.pages 2).size + 1 ∧
      ((BPT.borrowRightLeaf c3State 2 5 1 1).1.pages 2).getKV
        ((c3State.pages 2).size) = (c3State.pages 5).getKV 0 ∧
      ((BPT.borrowRightLeaf c3State 2 5 1 1).1.pages 5).size =
        (c3State.pages 5).size - 1 ∧
      (∀ j, j + 1 < (c3State.pages 5).size →
        ((BPT.borrowRightLeaf c3State 2 5 1 1).1.pages 5).getKV j =
          (c3State.pages 5).getKV (j + 1)) ∧
      (BPT.borrowRightLeaf c3State 2 5 1 1).1.pages 1 =
        (c3State.pages 1).setKeyAt (1 + 1)
          ((BPT.shiftDownLoop (c3State.pages 5) 1
            (c3State.pages 5).size).keyAt 0) ∧
      (BPT.borrowRightLeaf c3State 2 5 1 1).1.deleted = c3State.deleted ∧
      (BPT.borrowRightLeaf c3State 2 5 1 1).1.rootPageId =
        c3State.rootPageId) ∧
    ((¬ ((c3State.pages 1).size - 1 < (c3State.pages 1).minSize) →
      ((BPT.leafMergeRightToLeftFn (BPT.internalMergeFn 3) c3State 3 2
          1 1).1.deleted = c3State.deleted ++ [2] ∧
      ((BPT.leafMergeRightToLeftFn (BPT.internalMergeFn 3) c3State 3 2
          1 1).1.pages 3).size =
        (c3State.pages 3).size + (c3State.pages 2).size ∧
      ((BPT.leafMergeRightToLeftFn (BPT.internalMergeFn 3) c3State 3 2
          1 1).1.pages 3).nextPageId = (c3State.pages 2).nextPageId ∧
      ((BPT.leafMergeRightToLeftFn (BPT.internalMergeFn 3) c3State 3 2
          1 1).1.pages 1).size = (c3State.pages 1).size - 1 ∧
      (∀ j, 1 ≤ j → j + 1 < (c3State.pages 1).size →
        ((BPT.leafMergeRightToLeftFn (BPT.internalMergeFn 3) c3State 3 2
            1 1).1.pages 1).getKV j = (c3State.pages 1).getKV (j + 1)) ∧
      (∀ j, j < 1 →
        ((BPT.leafMergeRightToLeftFn (BPT.internalMergeFn 3) c3State 3 2
            1 1).1.pages 1).getKV j = (c3State.pages 1).getKV j) ∧
      (BPT.leafMergeRightToLeftFn (BPT.internalMergeFn 3) c3State 3 2
        1 1).1.rootPageId = c3State.rootPageId)) ∧
    (((c3State.pages 1).size - 1 < (c3State.pages 1).minSize) →
      ∃ t : BPT.BTState,
        (BPT.leafMergeRightToLeftFn (BPT.internalMergeFn 3) c3State 3 2
          1 1).1 =
          BPT.internalMergeFn 3 t 1 ((c3State.pages 1).keyAt 1) ∧
        t.deleted = c3State.deleted ++ [2] ∧
        (t.pages 3).size = (c3State.pages 3).size + (c3State.pages 2).size ∧
        (t.pages 3).nextPageId = (c3State.pages 2).nextPageId ∧
        (t.pages 1).size = (c3State.pages 1).size - 1 ∧
        (∀ j, 1 ≤ j → j + 1 < (c3State.pages 1).size →
          (t.pages 1).getKV j = (c3State.pages 1).getKV (j + 1)))) ∧
    (∀ pid2 mk2 pPid2 idx2 lp2 rp2 : Nat,
      pPid2 = (c3State.pages pid2).parentPageId.toNat →
      idx2 = BPT.upperBound (c3State.pages pPid2) mk2 - 1 →
      lp2 = (c3State.pages pPid2).valAt (idx2 - 1) →
      rp2 = (c3State.pages pPid2).valAt (idx2 + 1) →
      (c3State.pages pid2).isRootPage = false →
      BPT.internalMergeFn (3 + 1) c3State pid2 mk2 =
        if 1 ≤ idx2 ∧ (c3State.pages lp2).minSize < (c3State.pages lp2).size then
          (BPT.borrowLeftInternal c3State pid2 lp2 pPid2 idx2).1
        else if idx2 + 1 < (c3State.pages pPid2).size ∧
            (c3State.pages rp2).minSize < (c3State.pages rp2).size then
          (BPT.borrowRightInternal c3State pid2 rp2 pPid2 idx2).1
        else if 1 ≤ idx2 then
          (BPT.internalMergeRightToLeftFn (BPT.internalMergeFn 3) c3State lp2
            pid2 pPid2 idx2).1
        else if idx2 + 1 < (c3State.pages pPid2).size then
          (BPT.internalMergeRightToLeftFn (BPT.internalMergeFn 3) c3State pid2
            rp2 pPid2 (idx2 + 1)).1
        else c3State) ∧
    (∀ pid2 mk2 : Nat, (c3State.pages pid2).isRootPage = true →
      (((c3State.pages pid2).size = 1 →
        ((BPT.internalMergeFn (3 + 1) c3State pid2 mk2).rootPageId =
          Int.ofNat ((c3State.pages pid2).valAt 0) ∧
        (BPT.internalMergeFn (3 + 1) c3State pid2 mk2).deleted =
          c3State.deleted ++ [pid2] ∧
        ((BPT.internalMergeFn (3 + 1) c3State pid2 mk2).pages
          ((c3State.pages pid2).valAt 0)).parentPageId =
          BPT.INVALID_PAGE_ID)) ∧
      ((c3State.pages pid2).size ≠ 1 →
        BPT.internalMergeFn (3 + 1) c3State pid2 mk2 = c3State)))) :=
  ⟨⟨by decide, by decide, by decide, by decide, by decide, by decide,
    by decide, by decide, by decide⟩,
   remove_rebalance_chain 3 c3State 2 25 1 1 3 5 (by decide) (by decide)
     (by decide) (by decide) (by decide) (by decide) (by decide) (by decide)
     (by decide)⟩

/-- A tree whose `Remove` drives the internal borrow-from-right path:
internal root page 1 (separator 30) over internal pages 2 and 3;
page 2 (separator 20) holds leaves 5 = [10, 15] and 6 = [20, 25];
page 3 (separators 40, 50) holds leaves 7 = [30, 35], 8 = [40, 45] and
9 = [50, 55]. Removing 25 underflows leaf 6, the leaf merges into
leaf 5, page 2 underflows (no left sibling) and borrows from page 3. -/
def c3BugState : BPT.BTState :=
  { pages := fun pid =>
      if pid = 1 then
        { isLeaf := false, parentPageId := BPT.INVALID_PAGE_ID, size := 2,
          maxSize := 4, minSize := 2,
          keyAt := fun i => if i = 1 then 30 else 0,
          valAt := fun i => if i = 0 then 2 else if i = 1 then 3 else 0,
          nextPageId := BPT.INVALID_PAGE_ID }
      else if pid = 2 then
        { isLeaf := false, parentPageId := 1, size := 2, maxSize := 4,
          minSize := 2,
          keyAt := fun i => if i = 1 then 20 else 0,
          valAt := fun i => if i = 0 then 5 else if i = 1 then 6 else 0,
          nextPageId := BPT.INVALID_PAGE_ID }
      else if pid = 3 then
        { isLeaf := false, parentPageId := 1, size := 3, maxSize := 4,
          minSize := 2,
          keyAt := fun i => if i = 1 then 40 else if i = 2 then 50 else 0,
          valAt := fun i =>
            if i = 0 then 7 else if i = 1 then 8 else if i = 2 then 9 else 0,
          nextPageId := BPT.INVALID_PAGE_ID }
      else if pid = 5 then
        { isLeaf := true, parentPageId := 2, size := 2, maxSize := 4,
          minSize := 2,
          keyAt := fun i => if i = 0 then 10 else if i = 1 then 15 else 0,
          valAt := fun i => i, nextPageId := 6 }
      else if pid = 6 then
        { isLeaf := true, parentPageId := 2, size := 2, maxSize := 4,
          minSize := 2,
          keyAt := fun i => if i = 0 then 20 else if i = 1 then 25 else 0,
          valAt := fun i => i, nextPageId := 7 }
      else if pid = 7 then
        { isLeaf := true, parentPageId := 3, size := 2, maxSize := 4,
          minSize := 2,
          keyAt := fun i => if i = 0 then 30 else if i = 1 then 35 else 0,
          valAt := fun i => i, nextPageId := 8 }
      else if pid = 8 then
        { isLeaf := true, parentPageId := 3, size := 2, maxSize := 4,
          minSize := 2,
          keyAt := fun i => if i = 0 then 40 else if i = 1 then 45 else 0,
          valAt := fun i => i, nextPageId := 9 }
      else if pid = 9 then
        { isLeaf := true, parentPageId := 3, size := 2, maxSize := 4,
          minSize := 2,
          keyAt := fun i => if i = 0 then 50 else if i = 1 then 55 else 0,
          valAt := fun i => i, nextPageId := BPT.INVALID_PAGE_ID }
      else
        { isLeaf := true, parentPageId := BPT.INVALID_PAGE_ID, size := 0,
          maxSize := 0, minSize := 0, keyAt := fun _ => 0,
          valAt := fun _ => 0, nextPageId := BPT.INVALID_PAGE_ID },
    rootPageId := 1, nextPageId := 10, deleted := [],
    leafMaxSize := 4, internalMaxSize := 4,
    leafMinSize := 2, internalMinSize := 2 }

def c3BugRes : BPT.BTState := BPT.remove 5 c3BugState 25

/-- C3 (code bug): the claim says every borrow updates the separating
key in the parent. Internal borrow-from-right does not: on `c3BugState`,
`Remove 25` underflows leaf 6, which merges into leaf 5, underflowing
internal page 2, which then borrows the first child of its right
sibling page 3. `BorrowRightInternal` pulls the old separator
`parent->KeyAt(internal_index + 1)` down (key 30 moves into page 2 over
the borrowed child 7), but writes the replacement with
`parent->SetKeyAt(internal_index, right->KeyAt(1))` — at index 0
instead of index 1 — so the root's separating key between pages 2 and 3
stays 30 while the new separator 40 lands in the root's unused key
slot 0 (the leaf borrows write `leaf_index` and `leaf_index + 1`
correctly). The moved leaf [30, 35] now hangs under page 2, yet the
descent for the still-present key 35 follows the stale separator into
page 3 and ends at leaf 8 = [40, 45], which does not hold 35: the tree
loses the key. -/
theorem C3_borrow_right_internal_stale :
    ((c3BugRes.pages 2).size = 2 ∧ (c3BugRes.pages 2).valAt 0 = 5 ∧
      (c3BugRes.pages 2).valAt 1 = 7 ∧ (c3BugRes.pages 2).keyAt 1 = 30 ∧
      (c3BugRes.pages 3).size = 2 ∧ (c3BugRes.pages 3).valAt 0 = 8 ∧
      (c3BugRes.pages 3).keyAt 1 = 50 ∧
      (c3BugRes.pages 7).parentPageId = 2) ∧
    (c3BugRes.pages 1).keyAt 0 = 40 ∧
    (c3BugRes.pages 1).keyAt 1 = 30 ∧
    ((c3BugRes.pages 7).keyAt 1 = 35 ∧ (c3BugRes.pages 7).size = 2) ∧
    BPT.findLeaf 5 c3BugRes 35 c3BugRes.rootPageId.toNat = 8 ∧
    (∀ i, i < (c3BugRes.pages 8).size → (c3BugRes.pages 8).keyAt i ≠ 35) := by
  decide

/-!
Deadlock detection (`LockManager::BuildWaitsForGraph`, `Dfs`,
`HasCycle`, `RunCycleDetection`). The `waits_for_` `std::map` becomes a
key-sorted association list (`operator[]` inserts a fresh key in
order); the color map is an association list read with default 0
(`operator[]` default-constructs). The table-queue and row-queue loops
of `BuildWaitsForGraph` take one combined list of request queues, each
queue a list of (transaction id, granted) in queue order. The unbounded
C++ recursion of `Dfs` gets fuel one more than the node count, which the
recursion (whose stack is the duplicate-free gray path) never exhausts,
and the detection loop gets fuel one more than the key count, which
suffices because every victim is a key and its key is erased. -/

namespace DLD

/-- The wait-for adjacency map: key-sorted association list. -/
abbrev Graph := List (Nat × List Nat)

def adjGet (g : Graph) (u : Nat) : List Nat :=
  (List.lookup u (g : List (Nat × List Nat))).getD []

/-- `AddEdge t1 t2`: `waits_for_[t1].emplace_back(t2)`, inserting the
key in map order when absent. -/
def alAdd : List (Nat × List Nat) → Nat → Nat → List (Nat × List Nat)
  | [], t1, t2 => [(t1, [t2])]
  | (k, vs) :: rest, t1, t2 =>
    if t1 = k then (k, vs ++ [t2]) :: rest
    else if t1 < k then (t1, [t2]) :: (k, vs) :: rest
    else (k, vs) :: alAdd rest t1 t2

def keysOf (g : Graph) : List Nat :=
  (g : List (Nat × List Nat)).map Prod.fst

/-- `waits_for_.erase(txn_id)`. -/
def eraseKey (g : Graph) (t : Nat) : Graph :=
  (g : List (Nat × List Nat)).filter (fun e => e.1 != t)

/-- `RemoveEdge(k, txn_id)` over every key: erase the first occurrence
of the victim from each adjacency list. -/
def removeEdgeAll (g : Graph) (t : Nat) : Graph :=
  (g : List (Nat × List Nat)).map (fun e => (e.1, e.2.erase t))

/-- The final `std::sort` of every adjacency list. -/
def sortAdj (g : Graph) : Graph :=
  (g : List (Nat × List Nat)).map (fun e => (e.1, e.2.insertionSort (· ≤ ·)))

/-- One request of `BuildWaitsForGraph`'s queue walk: a granted
request joins the holder list, an ungranted one gets an edge from every
holder seen so far. -/
def pqStep (acc : Graph × List Nat) (r : Nat × Bool) : Graph × List Nat :=
  if r.2 then (acc.1, acc.2 ++ [r.1])
  else (acc.2.foldl (fun g2 u => alAdd g2 u r.1) acc.1, acc.2)

/-- One queue of `BuildWaitsForGraph`: walk the requests in queue
order, remembering granted holders, and for each ungranted waiter add
an edge from every holder seen so far to the waiter. -/
def processQueue (g : Graph) (q : List (Nat × Bool)) : Graph :=
  (q.foldl pqStep (g, [])).1

def buildWaitsForGraph (queues : List (List (Nat × Bool))) : Graph :=
  sortAdj (queues.foldl processQueue [])

abbrev ColorMap := List (Nat × Nat)

def colorGet (c : ColorMap) (x : Nat) : Nat :=
  (List.lookup x (c : List (Nat × Nat))).getD 0

def colorSet (c : ColorMap) (x v : Nat) : ColorMap :=
  ((x, v) :: c : List (Nat × Nat))

/-- The victim computation on a found cycle: scan the path from the
first occurrence of the revisited node and take the largest id. -/
def cycleMax (path : List Nat) (u : Nat) (maxT : Int) : Int :=
  (path.dropWhile (fun x => x != u)).foldl (fun m x => max m (Int.ofNat x))
    maxT

/-- The neighbor loop of `Dfs`: skip black neighbors, recurse into the
rest, stopping at the first found cycle. -/
def dfsList (next : Nat → ColorMap → List Nat → Int → Bool × ColorMap × Int) :
    List Nat → ColorMap → List Nat → Int → Bool × ColorMap × Int
  | [], colors, _, maxT => (false, colors, maxT)
  | v :: vs, colors, path, maxT =>
    if colorGet colors v ≠ 2 then
      let r := next v colors path maxT
      if r.1 then r else dfsList next vs r.2.1 path r.2.2
    else dfsList next vs colors path maxT

/-- `Dfs`: push the node, report a cycle on a gray hit (computing the
victim), otherwise color gray, visit neighbors, and blacken. -/
def dfs : Nat → Graph → Nat → ColorMap → List Nat → Int →
    Bool × ColorMap × Int
  | 0, _, _, colors, _, maxT => (false, colors, maxT)
  | fuel + 1, g, u, colors, path, maxT =>
    if colorGet colors u = 1 then
      (true, colors, cycleMax (path ++ [u]) u maxT)
    else
      let r := dfsList (dfs fuel g) (adjGet g u) (colorSet colors u 1)
        (path ++ [u]) maxT
      if r.1 then r else (false, colorSet r.2.1 u 2, r.2.2)

def nodesOf (g : Graph) : List Nat :=
  keysOf g ++ ((g : List (Nat × List Nat)).map Prod.snd).flatten

/-- The root loop of `HasCycle`: try a DFS from every key in ascending
map order, skipping keys already black. -/
def hasCycleAux (fuel : Nat) (g : Graph) :
    List Nat → ColorMap → Bool × Int
  | [], _ => (false, -1)
  | k :: ks, colors =>
    if colorGet colors k = 2 then hasCycleAux fuel g ks colors
    else
      let r := dfs fuel g k colors [] (-1)
      if r.1 then (true, r.2.2) else hasCycleAux fuel g ks r.2.1

def hasCycle (g : Graph) : Bool × Int :=
  hasCycleAux ((nodesOf g).length + 1) g (keysOf g) []

/-- The `while (HasCycle(&txn_id))` loop of `RunCycleDetection`: erase
the victim's key, remove it from every adjacency list, and record it
(the transaction is aborted). -/
def detectLoop : Nat → Graph → List Nat → Graph × List Nat
  | 0, g, acc => (g, acc)
  | fuel + 1, g, acc =>
    let r := hasCycle g
    if r.1 then
      detectLoop fuel (removeEdgeAll (eraseKey g r.2.toNat) r.2.toNat)
        (acc ++ [r.2.toNat])
    else (g, acc)

def runCycleDetection (g : Graph) : Graph × List Nat :=
  detectLoop ((keysOf g).length + 1) g []

end DLD


namespace DLD

theorem keysOf_nil : keysOf ([] : List (Nat × List Nat)) = [] := rfl

theorem keysOf_cons (k : Nat) (vs : List Nat) (rest : List (Nat × List Nat)) :
    keysOf ((k, vs) :: rest) = k :: keysOf rest := rfl

theorem adjGet_nil (u : Nat) : adjGet ([] : List (Nat × List Nat)) u = [] := rfl

theorem lookup_cons (k : Nat) (vs : List Nat) (rest : List (Nat × List Nat))
    (u : Nat) :
    List.lookup u ((k, vs) :: rest) =
      if u = k then some vs else List.lookup u rest := by
  by_cases h : u = k
  · subst h; simp [List.lookup]
  · have hb : (u == k) = false := by simp [h]
    simp [List.lookup, hb, h]

theorem adjGet_cons (k : Nat) (vs : List Nat) (rest : List (Nat × List Nat))
    (u : Nat) :
    adjGet ((k, vs) :: rest) u = if u = k then vs else adjGet rest u := by
  by_cases h : u = k
  · simp [adjGet, lookup_cons, h]
  · simp [adjGet, lookup_cons, h]

theorem alAdd_cons_eq (k : Nat) (vs : List Nat) (rest : List (Nat × List Nat))
    (t2 : Nat) :
    alAdd ((k, vs) :: rest) k t2 = (k, vs ++ [t2]) :: rest := by
  simp [alAdd]

theorem alAdd_cons_lt (k : Nat) (vs : List Nat) (rest : List (Nat × List Nat))
    (t1 t2 : Nat) (h : t1 < k) :
    alAdd ((k, vs) :: rest) t1 t2 = (t1, [t2]) :: (k, vs) :: rest := by
  have h1 : ¬ t1 = k := by omega
  simp [alAdd, h1, h]

theorem alAdd_cons_gt (k : Nat) (vs : List Nat) (rest : List (Nat × List Nat))
    (t1 t2 : Nat) (h : k < t1) :
    alAdd ((k, vs) :: rest) t1 t2 = (k, vs) :: alAdd rest t1 t2 := by
  have h1 : ¬ t1 = k := by omega
  have h2 : ¬ t1 < k := by omega
  simp [alAdd, h1, h2]

theorem lookup_map (g : List (Nat × List Nat)) (f : Nat → List Nat → List Nat)
    (u : Nat) :
    List.lookup u (g.map (fun e => (e.1, f e.1 e.2))) =
      (List.lookup u g).map (f u) := by
  induction g with
  | nil => rfl
  | cons e rest ih =>
    obtain ⟨k, vs⟩ := e
    by_cases h : u = k
    · subst h
      simp [lookup_cons]
    · simp [lookup_cons, h, ih]

theorem lookup_eq_none_of_not_mem (g : List (Nat × List Nat)) (u : Nat)
    (h : u ∉ keysOf g) : List.lookup u g = none := by
  induction g with
  | nil => rfl
  | cons e rest ih =>
    obtain ⟨k, vs⟩ := e
    rw [keysOf_cons] at h
    simp at h
    rw [lookup_cons, if_neg h.1]
    exact ih h.2

theorem adjGet_eq_nil_of_not_mem (g : List (Nat × List Nat)) (u : Nat)
    (h : u ∉ keysOf g) : adjGet g u = [] := by
  simp [adjGet, lookup_eq_none_of_not_mem g u h]

theorem keysOf_alAdd (g : List (Nat × List Nat)) (t1 t2 x : Nat) :
    x ∈ keysOf (alAdd g t1 t2) ↔ x = t1 ∨ x ∈ keysOf g := by
  induction g with
  | nil => simp [alAdd, keysOf]
  | cons e rest ih =>
    obtain ⟨k, vs⟩ := e
    rcases Nat.lt_trichotomy t1 k with h | h | h
    · rw [alAdd_cons_lt k vs rest t1 t2 h]
      simp only [keysOf_cons]
      simp
      try tauto
    · subst h
      rw [alAdd_cons_eq]
      simp only [keysOf_cons]
      simp
      try tauto
    · rw [alAdd_cons_gt k vs rest t1 t2 h]
      simp only [keysOf_cons]
      simp [ih]
      try tauto

theorem sorted_keys_alAdd (g : List (Nat × List Nat)) (t1 t2 : Nat)
    (hs : List.Sorted (· < ·) (keysOf g)) :
    List.Sorted (· < ·) (keysOf (alAdd g t1 t2)) := by
  induction g with
  | nil => simp [alAdd, keysOf]
  | cons e rest ih =>
    obtain ⟨k, vs⟩ := e
    rw [keysOf_cons, List.sorted_cons] at hs
    obtain ⟨hklt, hrest⟩ := hs
    rcases Nat.lt_trichotomy t1 k with h | h | h
    · rw [alAdd_cons_lt k vs rest t1 t2 h, keysOf_cons, keysOf_cons,
        List.sorted_cons, List.sorted_cons]
      refine ⟨?_, hklt, hrest⟩
      intro b hb
      simp at hb
      rcases hb with hb | hb
      · omega
      · exact lt_trans h (hklt b hb)
    · subst h
      rw [alAdd_cons_eq, keysOf_cons, List.sorted_cons]
      exact ⟨hklt, hrest⟩
    · rw [alAdd_cons_gt k vs rest t1 t2 h, keysOf_cons, List.sorted_cons]
      refine ⟨?_, ih hrest⟩
      intro b hb
      rcases (keysOf_alAdd rest t1 t2 b).1 hb with hb | hb
      · omega
      · exact hklt b hb

theorem adjGet_alAdd (g : List (Nat × List Nat)) (t1 t2 u : Nat)
    (hs : List.Sorted (· < ·) (keysOf g)) :
    adjGet (alAdd g t1 t2) u =
      if u = t1 then adjGet g u ++ [t2] else adjGet g u := by
  induction g with
  | nil =>
    by_cases h : u = t1
    · subst h; simp [alAdd, adjGet_cons, adjGet_nil]
    · simp [alAdd, adjGet_cons, adjGet_nil, h]
  | cons e rest ih =>
    obtain ⟨k, vs⟩ := e
    rw [keysOf_cons, List.sorted_cons] at hs
    obtain ⟨hklt, hrest⟩ := hs
    rcases Nat.lt_trichotomy t1 k with h | h | h
    · have hnil : adjGet rest t1 = [] := by
        refine adjGet_eq_nil_of_not_mem rest t1 (fun hm => ?_)
        have := hklt t1 hm
        omega
      have hk1 : ¬ t1 = k := by omega
      rw [alAdd_cons_lt k vs rest t1 t2 h]
      by_cases hu : u = t1
      · subst hu
        simp [adjGet_cons, hk1, hnil]
      · simp [adjGet_cons, hu]
    · subst h
      rw [alAdd_cons_eq]
      by_cases hu : u = t1
      · subst hu; simp [adjGet_cons]
      · simp [adjGet_cons, hu]
    · have hk1 : ¬ u = t1 ∨ ¬ u = k := by omega
      rw [alAdd_cons_gt k vs rest t1 t2 h]
      by_cases hu : u = k
      · subst hu
        have : ¬ u = t1 := by omega
        simp [adjGet_cons, this]
      · simp [adjGet_cons, hu, ih hrest]

theorem adjGet_foldl_alAdd (gr : List Nat) (t : Nat)
    (g : List (Nat × List Nat)) (u w : Nat)
    (hs : List.Sorted (· < ·) (keysOf g)) :
    (w ∈ adjGet (gr.foldl (fun g2 v => alAdd g2 v t) g) u ↔
      w ∈ adjGet g u ∨ (u ∈ gr ∧ w = t)) ∧
    List.Sorted (· < ·) (keysOf (gr.foldl (fun g2 v => alAdd g2 v t) g)) := by
  induction gr generalizing g with
  | nil => simpa using hs
  | cons v gr ih =>
    have hs2 := sorted_keys_alAdd g v t hs
    have ih2 := ih (alAdd g v t) hs2
    simp only [List.foldl_cons]
    refine ⟨?_, ih2.2⟩
    rw [ih2.1, adjGet_alAdd g v t u hs]
    by_cases h : u = v
    · subst h; simp; try tauto
    · simp [h]; try tauto

theorem split_cons {α : Type} (a b : α) (q : List α) :
    (∃ l2 l3, b :: q = l2 ++ a :: l3) ↔ b = a ∨ ∃ l2 l3, q = l2 ++ a :: l3 := by
  constructor
  · rintro ⟨l2, l3, he⟩
    cases l2 with
    | nil => simp at he; exact Or.inl he.1
    | cons c l2 =>
      simp at he
      exact Or.inr ⟨l2, l3, he.2⟩
  · rintro (he | ⟨l2, l3, he⟩)
    · exact ⟨[], q, by simp [he]⟩
    · exact ⟨b :: l2, l3, by simp [he]⟩

theorem split2_cons {α : Type} (a1 a2 b : α) (q : List α) :
    (∃ l1 l2 l3, b :: q = l1 ++ a1 :: (l2 ++ a2 :: l3)) ↔
      (b = a1 ∧ ∃ l2 l3, q = l2 ++ a2 :: l3) ∨
      ∃ l1 l2 l3, q = l1 ++ a1 :: (l2 ++ a2 :: l3) := by
  constructor
  · rintro ⟨l1, l2, l3, he⟩
    cases l1 with
    | nil => simp at he; exact Or.inl ⟨he.1, l2, l3, he.2⟩
    | cons c l1 =>
      simp at he
      exact Or.inr ⟨l1, l2, l3, he.2⟩
  · rintro (⟨hb, l2, l3, he⟩ | ⟨l1, l2, l3, he⟩)
    · exact ⟨[], l2, l3, by simp [hb, he]⟩
    · exact ⟨b :: l1, l2, l3, by simp [he]⟩

end DLD

namespace DLD

theorem pqStep_true (g : Graph) (gr : List Nat) (t : Nat) :
    pqStep (g, gr) (t, true) = (g, gr ++ [t]) := rfl

theorem pqStep_false (g : Graph) (gr : List Nat) (t : Nat) :
    pqStep (g, gr) (t, false) =
      (gr.foldl (fun g2 u => alAdd g2 u t) g, gr) := rfl

theorem processQueue_go (q : List (Nat × Bool)) :
    ∀ (g : List (Nat × List Nat)) (gr : List Nat),
    List.Sorted (· < ·) (keysOf g) →
    List.Sorted (· < ·) (keysOf (q.foldl pqStep (g, gr)).1) ∧
    ∀ u w, w ∈ adjGet (q.foldl pqStep (g, gr)).1 u ↔
      (w ∈ adjGet g u ∨ (u ∈ gr ∧ ∃ l2 l3, q = l2 ++ (w, false) :: l3) ∨
        ∃ l1 l2 l3, q = l1 ++ (u, true) :: (l2 ++ (w, false) :: l3)) := by
  induction q with
  | nil =>
    intro g gr hs
    refine ⟨hs, fun u w => ?_⟩
    simp
  | cons r q ih =>
    intro g gr hs
    obtain ⟨t, b⟩ := r
    cases b with
    | true =>
      have ih2 := ih g (gr ++ [t]) hs
      simp only [List.foldl_cons, pqStep_true]
      refine ⟨ih2.1, fun u w => ?_⟩
      rw [ih2.2 u w, split_cons ((w, false) : Nat × Bool) ((t, true) : Nat × Bool) q,
        split2_cons ((u, true) : Nat × Bool) ((w, false) : Nat × Bool)
          ((t, true) : Nat × Bool) q,
        show (((t, true) : Nat × Bool) = (w, false)) ↔ False from by simp,
        show (((t, true) : Nat × Bool) = (u, true)) ↔ u = t from by
          simp [eq_comm],
        show (u ∈ gr ++ [t]) ↔ (u ∈ gr ∨ u = t) from by simp]
      generalize (w ∈ adjGet g u) = A
      generalize (u ∈ gr) = G
      generalize (∃ l2 l3, q = l2 ++ ((w, false) : Nat × Bool) :: l3) = D2
      generalize (∃ l1 l2 l3,
        q = l1 ++ ((u, true) : Nat × Bool) :: (l2 ++ (w, false) :: l3)) = D3
      tauto
    | false =>
      have hmem := adjGet_foldl_alAdd gr t g
      have hsr := (hmem 0 0 hs).2
      have ih2 := ih (gr.foldl (fun g2 u => alAdd g2 u t) g) gr hsr
      simp only [List.foldl_cons, pqStep_false]
      refine ⟨ih2.1, fun u w => ?_⟩
      rw [ih2.2 u w, (hmem u w hs).1,
        split_cons ((w, false) : Nat × Bool) ((t, false) : Nat × Bool) q,
        split2_cons ((u, true) : Nat × Bool) ((w, false) : Nat × Bool)
          ((t, false) : Nat × Bool) q,
        show (((t, false) : Nat × Bool) = (w, false)) ↔ w = t from by
          simp [eq_comm],
        show (((t, false) : Nat × Bool) = (u, true)) ↔ False from by simp]
      generalize (w ∈ adjGet g u) = A
      generalize (u ∈ gr) = G
      generalize (∃ l2 l3, q = l2 ++ ((w, false) : Nat × Bool) :: l3) = D2
      generalize (∃ l1 l2 l3,
        q = l1 ++ ((u, true) : Nat × Bool) :: (l2 ++ (w, false) :: l3)) = D3
      tauto

theorem processQueue_spec (g : List (Nat × List Nat)) (q : List (Nat × Bool))
    (hs : List.Sorted (· < ·) (keysOf g)) :
    List.Sorted (· < ·) (keysOf (processQueue g q)) ∧
    ∀ u w, w ∈ adjGet (processQueue g q) u ↔
      (w ∈ adjGet g u ∨
        ∃ l1 l2 l3, q = l1 ++ (u, true) :: (l2 ++ (w, false) :: l3)) := by
  have h := processQueue_go q g [] hs
  refine ⟨h.1, fun u w => ?_⟩
  rw [show processQueue g q = (q.foldl pqStep (g, [])).1 from rfl, h.2 u w]
  simp

theorem build_go (queues : List (List (Nat × Bool))) :
    ∀ g : List (Nat × List Nat), List.Sorted (· < ·) (keysOf g) →
    List.Sorted (· < ·) (keysOf (queues.foldl processQueue g)) ∧
    ∀ u w, w ∈ adjGet (queues.foldl processQueue g) u ↔
      (w ∈ adjGet g u ∨ ∃ q ∈ queues,
        ∃ l1 l2 l3, q = l1 ++ (u, true) :: (l2 ++ (w, false) :: l3)) := by
  induction queues with
  | nil =>
    intro g hs
    refine ⟨hs, fun u w => ?_⟩
    simp
  | cons q queues ih =>
    intro g hs
    have hq := processQueue_spec g q hs
    have ih2 := ih (processQueue g q) hq.1
    simp only [List.foldl_cons]
    refine ⟨ih2.1, fun u w => ?_⟩
    rw [ih2.2 u w, hq.2 u w]
    constructor
    · rintro ((hA | hDq) | ⟨q2, hq2, hdec⟩)
      · exact Or.inl hA
      · exact Or.inr ⟨q, by simp, hDq⟩
      · exact Or.inr ⟨q2, by simp [hq2], hdec⟩
    · rintro (hA | ⟨q2, hq2, hdec⟩)
      · exact Or.inl (Or.inl hA)
      · rcases List.mem_cons.1 hq2 with he | hm
        · subst he; exact Or.inl (Or.inr hdec)
        · exact Or.inr ⟨q2, hm, hdec⟩

theorem keysOf_sortAdj (g : List (Nat × List Nat)) :
    keysOf (sortAdj g) = keysOf g := by
  simp [keysOf, sortAdj]

theorem adjGet_sortAdj (g : List (Nat × List Nat)) (u : Nat) :
    adjGet (sortAdj g) u = (adjGet g u).insertionSort (· ≤ ·) := by
  have h := lookup_map g (fun k vs => vs.insertionSort (· ≤ ·)) u
  simp only [adjGet, sortAdj]
  rw [show ((g : List (Nat × List Nat)).map
      (fun e => (e.1, e.2.insertionSort (· ≤ ·)))) =
    ((g : List (Nat × List Nat)).map
      (fun e => (e.1, (fun (k : Nat) (vs : List Nat) =>
        vs.insertionSort (· ≤ ·)) e.1 e.2))) from rfl, h]
  cases List.lookup u g with
  | none => simp
  | some vs => simp

theorem build_mem (queues : List (List (Nat × Bool))) (u w : Nat) :
    w ∈ adjGet (buildWaitsForGraph queues) u ↔
      ∃ q ∈ queues,
        ∃ l1 l2 l3, q = l1 ++ (u, true) :: (l2 ++ (w, false) :: l3) := by
  have h := build_go queues [] (by simp [keysOf])
  rw [buildWaitsForGraph, adjGet_sortAdj,
    (List.perm_insertionSort (· ≤ ·) (adjGet (queues.foldl processQueue []) u)).mem_iff,
    h.2 u w]
  simp [adjGet_nil]

theorem build_adj_sorted (queues : List (List (Nat × Bool))) (u : Nat) :
    List.Sorted (· ≤ ·) (adjGet (buildWaitsForGraph queues) u) := by
  rw [buildWaitsForGraph, adjGet_sortAdj]
  exact List.sorted_insertionSort (· ≤ ·) _

theorem build_keys_sorted (queues : List (List (Nat × Bool))) :
    List.Sorted (· < ·) (keysOf (buildWaitsForGraph queues)) := by
  rw [buildWaitsForGraph, keysOf_sortAdj]
  exact (build_go queues [] (by simp [keysOf])).1

end DLD

namespace DLD

theorem colorGet_colorSet (c : ColorMap) (x v y : Nat) :
    colorGet (colorSet c x v) y = if y = x then v else colorGet c y := by
  by_cases h : y = x
  · subst h; simp [colorGet, colorSet, List.lookup]
  · have hb : (y == x) = false := by simp [h]
    simp [colorGet, colorSet, List.lookup, hb, h]

/-- An edge of the waits-for graph: `a`'s adjacency list holds `b`. -/
def Edge (g : Graph) (a b : Nat) : Prop := b ∈ adjGet g a

/-- The black nodes in finishing order: a node is appended only when
its whole adjacency is already black, so every neighbor of a listed
node appears strictly earlier. -/
def OrderInv (g : Graph) (order : List Nat) : Prop :=
  order.Nodup ∧
  ∀ x ∈ order, ∀ v ∈ adjGet g x, v ∈ order ∧
    order.indexOf v < order.indexOf x

theorem orderInv_append (g : Graph) (order : List Nat) (u : Nat)
    (h : OrderInv g order) (hu : u ∉ order)
    (hadj : ∀ v ∈ adjGet g u, v ∈ order) : OrderInv g (order ++ [u]) := by
  refine ⟨by simp [List.nodup_append, h.1, hu], ?_⟩
  intro x hx v hv
  rcases List.mem_append.1 hx with hx | hx
  · obtain ⟨hvm, hlt⟩ := h.2 x hx v hv
    refine ⟨List.mem_append.2 (Or.inl hvm), ?_⟩
    rw [List.indexOf_append_of_mem hvm, List.indexOf_append_of_mem hx]
    exact hlt
  · have hxu : x = u := by simpa using hx
    subst hxu
    have hvm := hadj v hv
    refine ⟨List.mem_append.2 (Or.inl hvm), ?_⟩
    rw [List.indexOf_append_of_mem hvm, List.indexOf_append_of_not_mem hu]
    have := List.indexOf_lt_length.2 hvm
    simp
    omega

theorem mem_of_lookup (g : List (Nat × List Nat)) (u : Nat) (vs : List Nat)
    (h : List.lookup u g = some vs) : (u, vs) ∈ g := by
  induction g with
  | nil => simp [List.lookup] at h
  | cons e rest ih =>
    obtain ⟨k, ws⟩ := e
    rw [lookup_cons] at h
    by_cases hk : u = k
    · subst hk
      rw [if_pos rfl] at h
      have : ws = vs := by simpa using h
      subst this
      exact List.mem_cons_self _ _
    · rw [if_neg hk] at h
      exact List.mem_cons_of_mem _ (ih h)

theorem keys_sub_nodes (g : Graph) : ∀ x ∈ keysOf g, x ∈ nodesOf g := by
  intro x hx
  exact List.mem_append.2 (Or.inl hx)

theorem adj_sub_nodes (g : Graph) (u : Nat) :
    ∀ v ∈ adjGet g u, v ∈ nodesOf g := by
  intro v hv
  cases hl : List.lookup u g with
  | none => simp [adjGet, hl] at hv
  | some vs =>
    have hm := mem_of_lookup g u vs hl
    have hmap : vs ∈ g.map Prod.snd := List.mem_map.2 ⟨(u, vs), hm, rfl⟩
    have hv2 : v ∈ vs := by simpa [adjGet, hl] using hv
    exact List.mem_append.2 (Or.inr (List.mem_flatten.2 ⟨vs, hmap, hv2⟩))

theorem path_length_le (path L : List Nat) (hn : path.Nodup)
    (hs : ∀ x ∈ path, x ∈ L) : path.length ≤ L.length :=
  (hn.subperm (fun x hx => hs x hx)).length_le

theorem dropWhile_ne_head (l : List Nat) (u : Nat) (h : u ∈ l) :
    ∃ t, l.dropWhile (fun x => x != u) = u :: t := by
  induction l with
  | nil => cases h
  | cons x xs ih =>
    by_cases hx : x = u
    · subst hx
      exact ⟨xs, by simp [List.dropWhile_cons]⟩
    · have hm : u ∈ xs := by
        rcases List.mem_cons.1 h with he | hm
        · exact absurd he.symm hx
        · exact hm
      obtain ⟨t, ht⟩ := ih hm
      exact ⟨t, by simp [List.dropWhile_cons, hx, ht]⟩

theorem dropWhile_append_of_mem (l1 l2 : List Nat) (u : Nat) (h : u ∈ l1) :
    (l1 ++ l2).dropWhile (fun x => x != u) =
      l1.dropWhile (fun x => x != u) ++ l2 := by
  induction l1 with
  | nil => cases h
  | cons x xs ih =>
    by_cases hx : x = u
    · subst hx
      simp [List.dropWhile_cons]
    · have hm : u ∈ xs := by
        rcases List.mem_cons.1 h with he | hm
        · exact absurd he.symm hx
        · exact hm
      simp [List.dropWhile_cons, hx, ih hm]

theorem getLast_concat (l : List Nat) (a : Nat) :
    (l ++ [a]).getLast? = some a := by
  rw [List.getLast?_append_cons]
  rfl

end DLD

namespace DLD

/-- What a cycle report means: the reported victim value is the fold of
`max` over a closed walk of the graph, starting from the incoming
accumulator. -/
def CycleWitness (g : Graph) (maxT m : Int) : Prop :=
  ∃ c : List Nat, 2 ≤ c.length ∧ c.head? = c.getLast? ∧
    List.Chain' (Edge g) c ∧
    m = c.foldl (fun a x => max a (Int.ofNat x)) maxT

/-- Postcondition of a cycle-free `Dfs` call: the gray set is restored
to the path, the black set grows to some extension of the finish order
that now holds the visited node, and the victim accumulator is
untouched. -/
def DfsFalsePost (g : Graph) (u : Nat) (path order : List Nat) (maxT : Int)
    (res : Bool × ColorMap × Int) : Prop :=
  ∃ order2, order <+: order2 ∧ u ∈ order2 ∧
    (∀ x, colorGet res.2.1 x = 1 ↔ x ∈ path) ∧
    (∀ x, colorGet res.2.1 x = 2 ↔ x ∈ order2) ∧
    OrderInv g order2 ∧ res.2.2 = maxT

/-- Postcondition of a cycle-free neighbor loop: as `DfsFalsePost`, with
every listed neighbor black at the end. -/
def DLFalsePost (g : Graph) (vs path1 order : List Nat) (maxT : Int)
    (res : Bool × ColorMap × Int) : Prop :=
  ∃ order2, order <+: order2 ∧ (∀ v ∈ vs, v ∈ order2) ∧
    (∀ x, colorGet res.2.1 x = 1 ↔ x ∈ path1) ∧
    (∀ x, colorGet res.2.1 x = 2 ↔ x ∈ order2) ∧
    OrderInv g order2 ∧ res.2.2 = maxT

theorem dfsList_main (g : Graph) (fuel : Nat)
    (hIH : ∀ (u : Nat) (colors : ColorMap) (path order : List Nat)
      (maxT : Int),
      (nodesOf g).length + 1 ≤ fuel + path.length →
      path.Nodup →
      (∀ x ∈ path, x ∈ nodesOf g) →
      u ∈ nodesOf g →
      u ∉ order →
      (∀ x, colorGet colors x = 1 ↔ x ∈ path) →
      (∀ x, colorGet colors x = 2 ↔ x ∈ order) →
      OrderInv g order →
      List.Chain' (Edge g) (path ++ [u]) →
      ((dfs fuel g u colors path maxT).1 = false →
        DfsFalsePost g u path order maxT (dfs fuel g u colors path maxT)) ∧
      ((dfs fuel g u colors path maxT).1 = true →
        CycleWitness g maxT (dfs fuel g u colors path maxT).2.2)) :
    ∀ (vs : List Nat) (colors : ColorMap) (path1 order : List Nat)
      (maxT : Int),
      (nodesOf g).length + 1 ≤ fuel + path1.length →
      path1.Nodup →
      (∀ x ∈ path1, x ∈ nodesOf g) →
      (∀ v ∈ vs, v ∈ nodesOf g) →
      (∀ x, colorGet colors x = 1 ↔ x ∈ path1) →
      (∀ x, colorGet colors x = 2 ↔ x ∈ order) →
      OrderInv g order →
      (∀ v ∈ vs, List.Chain' (Edge g) (path1 ++ [v])) →
      ((dfsList (dfs fuel g) vs colors path1 maxT).1 = false →
        DLFalsePost g vs path1 order maxT
          (dfsList (dfs fuel g) vs colors path1 maxT)) ∧
      ((dfsList (dfs fuel g) vs colors path1 maxT).1 = true →
        CycleWitness g maxT
          (dfsList (dfs fuel g) vs colors path1 maxT).2.2) := by
  intro vs
  induction vs with
  | nil =>
    intro colors path1 order maxT hfuel hnd hsub hvs hgray hblack hoinv hch
    constructor
    · intro _
      exact ⟨order, ⟨[], by simp⟩, by simp, hgray, hblack, hoinv, rfl⟩
    · intro h
      simp [dfsList] at h
  | cons v vs ih =>
    intro colors path1 order maxT hfuel hnd hsub hvs hgray hblack hoinv hch
    simp only [dfsList]
    by_cases hv2 : colorGet colors v = 2
    · rw [if_neg (not_not_intro hv2)]
      have htail := ih colors path1 order maxT hfuel hnd hsub
        (fun x hx => hvs x (List.mem_cons_of_mem v hx)) hgray hblack hoinv
        (fun x hx => hch x (List.mem_cons_of_mem v hx))
      refine ⟨?_, htail.2⟩
      intro h
      obtain ⟨order2, hpre, hmem, hg2, hb2, ho2, hm2⟩ := htail.1 h
      refine ⟨order2, hpre, ?_, hg2, hb2, ho2, hm2⟩
      intro x hx
      rcases List.mem_cons.1 hx with he | hm
      · subst he
        exact hpre.sublist.subset ((hblack x).1 hv2)
      · exact hmem x hm
    · rw [if_pos hv2]
      have hvnode := hvs v (List.mem_cons_self v vs)
      have hvnotord : v ∉ order := fun hm => hv2 ((hblack v).2 hm)
      have hmain := hIH v colors path1 order maxT hfuel hnd hsub hvnode
        hvnotord hgray hblack hoinv (hch v (List.mem_cons_self v vs))
      by_cases hr : (dfs fuel g v colors path1 maxT).1 = true
      · rw [if_pos hr]
        constructor
        · intro h
          exact absurd hr (by simp [h])
        · intro _
          exact hmain.2 hr
      · rw [if_neg hr]
        have hrf : (dfs fuel g v colors path1 maxT).1 = false := by
          revert hr
          cases (dfs fuel g v colors path1 maxT).1 <;> simp
        obtain ⟨order2, hpre, hvmem, hg2, hb2, ho2, hm2⟩ := hmain.1 hrf
        have htail := ih (dfs fuel g v colors path1 maxT).2.1 path1 order2
          (dfs fuel g v colors path1 maxT).2.2 hfuel hnd hsub
          (fun x hx => hvs x (List.mem_cons_of_mem v hx)) hg2 hb2 ho2
          (fun x hx => hch x (List.mem_cons_of_mem v hx))
        constructor
        · intro h
          obtain ⟨order3, hpre3, hmem3, hg3, hb3, ho3, hm3⟩ := htail.1 h
          refine ⟨order3, hpre.trans hpre3, ?_, hg3, hb3, ho3,
            by rw [hm3, hm2]⟩
          intro x hx
          rcases List.mem_cons.1 hx with he | hm
          · subst he
            exact hpre3.sublist.subset hvmem
          · exact hmem3 x hm
        · intro h
          have hcw := htail.2 h
          nth_rewrite 1 [hm2] at hcw
          exact hcw

theorem dfs_main (fuel : Nat) :
    ∀ (g : Graph) (u : Nat) (colors : ColorMap) (path order : List Nat)
      (maxT : Int),
      (nodesOf g).length + 1 ≤ fuel + path.length →
      path.Nodup →
      (∀ x ∈ path, x ∈ nodesOf g) →
      u ∈ nodesOf g →
      u ∉ order →
      (∀ x, colorGet colors x = 1 ↔ x ∈ path) →
      (∀ x, colorGet colors x = 2 ↔ x ∈ order) →
      OrderInv g order →
      List.Chain' (Edge g) (path ++ [u]) →
      ((dfs fuel g u colors path maxT).1 = false →
        DfsFalsePost g u path order maxT (dfs fuel g u colors path maxT)) ∧
      ((dfs fuel g u colors path maxT).1 = true →
        CycleWitness g maxT (dfs fuel g u colors path maxT).2.2) := by
  induction fuel with
  | zero =>
    intro g u colors path order maxT hfuel hnd hsub hu hub hgray hblack
      hoinv hchain
    exfalso
    have hlen := path_length_le path (nodesOf g) hnd hsub
    omega
  | succ fuel ih =>
    intro g u colors path order maxT hfuel hnd hsub hu hub hgray hblack
      hoinv hchain
    simp only [dfs]
    by_cases hg : colorGet colors u = 1
    · rw [if_pos hg]
      constructor
      · intro h
        simp at h
      · intro _
        have hup : u ∈ path := (hgray u).1 hg
        have hsplit := dropWhile_append_of_mem path [u] u hup
        obtain ⟨t2, ht2⟩ := dropWhile_ne_head path u hup
        refine ⟨path.dropWhile (fun x => x != u) ++ [u], ?_, ?_, ?_, ?_⟩
        · rw [ht2]; simp
        · rw [ht2]
          have h1 : ((u :: t2) ++ [u]).head? = some u := by simp
          have h2 : ((u :: t2) ++ [u]).getLast? = some u :=
            getLast_concat (u :: t2) u
          rw [h1, h2]
        · have hdecomp : path ++ [u] =
              path.takeWhile (fun x => x != u) ++
                (path.dropWhile (fun x => x != u) ++ [u]) := by
            rw [← List.append_assoc, List.takeWhile_append_dropWhile]
          have hc := hchain
          rw [hdecomp] at hc
          exact (List.chain'_append.mp hc).2.1
        · simp only [cycleMax]
          rw [hsplit]
    · rw [if_neg hg]
      have hnp : u ∉ path := fun hm => hg ((hgray u).2 hm)
      have hnd1 : (path ++ [u]).Nodup := by
        simp [List.nodup_append, hnd, hnp]
      have hsub1 : ∀ x ∈ path ++ [u], x ∈ nodesOf g := by
        intro x hx
        rcases List.mem_append.1 hx with hx | hx
        · exact hsub x hx
        · have hxu : x = u := by simpa using hx
          subst hxu; exact hu
      have hgray1 : ∀ x, colorGet (colorSet colors u 1) x = 1 ↔
          x ∈ path ++ [u] := by
        intro x
        rw [colorGet_colorSet]
        by_cases hx : x = u
        · subst hx; simp
        · rw [if_neg hx, hgray x]
          simp [hx]
      have hblack1 : ∀ x, colorGet (colorSet colors u 1) x = 2 ↔
          x ∈ order := by
        intro x
        rw [colorGet_colorSet]
        by_cases hx : x = u
        · subst hx; simp [hub]
        · rw [if_neg hx]
          exact hblack x
      have hfuel1 : (nodesOf g).length + 1 ≤ fuel + (path ++ [u]).length := by
        simp
        omega
      have hchains : ∀ v ∈ adjGet g u,
          List.Chain' (Edge g) ((path ++ [u]) ++ [v]) := by
        intro v hv
        refine List.chain'_append.mpr ⟨hchain, List.chain'_singleton v, ?_⟩
        intro x hx y hy
        have hxu : u = x := by
          rw [getLast_concat] at hx
          simpa using hx
        have hyv : v = y := by simpa using hy
        subst hxu; subst hyv
        exact hv
      have hdl := dfsList_main g fuel (ih g) (adjGet g u)
        (colorSet colors u 1) (path ++ [u]) order maxT hfuel1 hnd1 hsub1
        (adj_sub_nodes g u) hgray1 hblack1 hoinv hchains
      by_cases hr : (dfsList (dfs fuel g) (adjGet g u) (colorSet colors u 1)
          (path ++ [u]) maxT).1 = true
      · rw [if_pos hr]
        exact ⟨fun h => absurd hr (by simp [h]), fun _ => hdl.2 hr⟩
      · rw [if_neg hr]
        have hrf : (dfsList (dfs fuel g) (adjGet g u) (colorSet colors u 1)
            (path ++ [u]) maxT).1 = false := by
          revert hr
          cases (dfsList (dfs fuel g) (adjGet g u) (colorSet colors u 1)
            (path ++ [u]) maxT).1 <;> simp
        obtain ⟨order2, hpre, hvmem, hg2, hb2, ho2, hm2⟩ := hdl.1 hrf
        constructor
        · intro _
          have hu2 : u ∉ order2 := by
            intro hm
            have hb := (hb2 u).2 hm
            have hgu := (hg2 u).2 (by simp)
            omega
          refine ⟨order2 ++ [u], hpre.trans ⟨[u], rfl⟩, by simp, ?_, ?_, ?_,
            hm2⟩
          · intro x
            rw [colorGet_colorSet]
            by_cases hx : x = u
            · subst hx; simp [hnp]
            · rw [if_neg hx, hg2 x]
              simp [hx]
          · intro x
            rw [colorGet_colorSet]
            by_cases hx : x = u
            · subst hx; simp
            · rw [if_neg hx, hb2 x]
              simp [hx]
          · exact orderInv_append g order2 u ho2 hu2 hvmem
        · intro h
          simp at h

end DLD

namespace DLD

theorem hasCycleAux_main (g : Graph) :
    ∀ (ks : List Nat) (colors : ColorMap) (order : List Nat),
      (∀ k ∈ ks, k ∈ nodesOf g) →
      (∀ x, colorGet colors x = 1 ↔ x ∈ ([] : List Nat)) →
      (∀ x, colorGet colors x = 2 ↔ x ∈ order) →
      OrderInv g order →
      ((hasCycleAux ((nodesOf g).length + 1) g ks colors).1 = false →
        ∃ orderF, order <+: orderF ∧ (∀ k ∈ ks, k ∈ orderF) ∧
          OrderInv g orderF) ∧
      ((hasCycleAux ((nodesOf g).length + 1) g ks colors).1 = true →
        CycleWitness g (-1)
          (hasCycleAux ((nodesOf g).length + 1) g ks colors).2) := by
  intro ks
  induction ks with
  | nil =>
    intro colors order hks hgray hblack hoinv
    constructor
    · intro _
      exact ⟨order, ⟨[], by simp⟩, by simp, hoinv⟩
    · intro h
      simp [hasCycleAux] at h
  | cons k ks ih =>
    intro colors order hks hgray hblack hoinv
    simp only [hasCycleAux]
    by_cases hk2 : colorGet colors k = 2
    · rw [if_pos hk2]
      have htail := ih colors order
        (fun x hx => hks x (List.mem_cons_of_mem k hx)) hgray hblack hoinv
      refine ⟨?_, htail.2⟩
      intro h
      obtain ⟨orderF, hpre, hmem, hOF⟩ := htail.1 h
      refine ⟨orderF, hpre, ?_, hOF⟩
      intro x hx
      rcases List.mem_cons.1 hx with he | hm
      · subst he
        exact hpre.sublist.subset ((hblack x).1 hk2)
      · exact hmem x hm
    · rw [if_neg hk2]
      have hknode := hks k (List.mem_cons_self k ks)
      have hkord : k ∉ order := fun hm => hk2 ((hblack k).2 hm)
      have hmain := dfs_main ((nodesOf g).length + 1) g k colors [] order
        (-1) (by simp) (by simp) (by simp) hknode hkord hgray hblack hoinv
        (by simpa using List.chain'_singleton k)
      by_cases hr : (dfs ((nodesOf g).length + 1) g k colors [] (-1)).1 = true
      · rw [if_pos hr]
        constructor
        · intro h
          simp at h
        · intro _
          exact hmain.2 hr
      · rw [if_neg hr]
        have hrf : (dfs ((nodesOf g).length + 1) g k colors [] (-1)).1 =
            false := by
          revert hr
          cases (dfs ((nodesOf g).length + 1) g k colors [] (-1)).1 <;> simp
        obtain ⟨order2, hpre, hkmem, hg2, hb2, ho2, hm2⟩ := hmain.1 hrf
        have htail := ih (dfs ((nodesOf g).length + 1) g k colors [] (-1)).2.1
          order2 (fun x hx => hks x (List.mem_cons_of_mem k hx)) hg2 hb2 ho2
        refine ⟨?_, htail.2⟩
        intro h
        obtain ⟨orderF, hpre3, hmem3, hOF⟩ := htail.1 h
        refine ⟨orderF, hpre.trans hpre3, ?_, hOF⟩
        intro x hx
        rcases List.mem_cons.1 hx with he | hm
        · subst he
          exact hpre3.sublist.subset hkmem
        · exact hmem3 x hm

theorem hasCycle_true_spec (g : Graph) (m : Int)
    (h : hasCycle g = (true, m)) : CycleWitness g (-1) m := by
  have hmain := hasCycleAux_main g (keysOf g) [] [] (keys_sub_nodes g)
    (fun x => by simp [colorGet, List.lookup]) (fun x => by
      simp [colorGet, List.lookup]) ⟨List.nodup_nil, by simp⟩
  have h1 : (hasCycleAux ((nodesOf g).length + 1) g (keysOf g) []).1 =
      true := by rw [show hasCycleAux ((nodesOf g).length + 1) g
        (keysOf g) [] = hasCycle g from rfl, h]
  have h2 := hmain.2 h1
  rw [show (hasCycleAux ((nodesOf g).length + 1) g (keysOf g) []).2 =
    (hasCycle g).2 from rfl, h] at h2
  exact h2

theorem hasCycle_false_acyclic (g : Graph) (m : Int)
    (h : hasCycle g = (false, m)) :
    ¬ ∃ c : List Nat, 2 ≤ c.length ∧ c.head? = c.getLast? ∧
      List.Chain' (Edge g) c := by
  have hmain := hasCycleAux_main g (keysOf g) [] [] (keys_sub_nodes g)
    (fun x => by simp [colorGet, List.lookup]) (fun x => by
      simp [colorGet, List.lookup]) ⟨List.nodup_nil, by simp⟩
  have h1 : (hasCycleAux ((nodesOf g).length + 1) g (keysOf g) []).1 =
      false := by rw [show hasCycleAux ((nodesOf g).length + 1) g
        (keysOf g) [] = hasCycle g from rfl, h]
  obtain ⟨orderF, _, hkeys, hOF⟩ := hmain.1 h1
  rintro ⟨c, hlen, hhl, hchain⟩
  have hne : c ≠ [] := by
    intro he
    rw [he] at hlen
    simp at hlen
  have hpos : 0 < c.length := List.length_pos.2 hne
  have hlt : c.length - 1 < c.length := by omega
  have hheadq : c.head? = some (c.get ⟨0, hpos⟩) := by
    cases c with
    | nil => exact absurd rfl hne
    | cons a r => rfl
  have hlastq : c.getLast? = some (c.get ⟨c.length - 1, hlt⟩) := by
    rw [List.getLast?_eq_getLast_of_ne_nil hne]
    exact congrArg some (List.get_length_sub_one hlt).symm
  have heq : c.get ⟨0, hpos⟩ = c.get ⟨c.length - 1, hlt⟩ := by
    rw [hheadq, hlastq] at hhl
    exact Option.some.inj hhl
  have hedge0 : Edge g (c.get ⟨0, hpos⟩) (c.get ⟨1, by omega⟩) :=
    List.chain'_iff_get.mp hchain 0 (by omega)
  have hkey0 : c.get ⟨0, hpos⟩ ∈ keysOf g := by
    by_contra hnm
    have hnil := adjGet_eq_nil_of_not_mem g _ hnm
    have hmem : c.get ⟨1, by omega⟩ ∈ adjGet g (c.get ⟨0, hpos⟩) := hedge0
    rw [hnil] at hmem
    cases hmem
  have hhead : c.get ⟨0, hpos⟩ ∈ orderF := hkeys _ hkey0
  have key : ∀ i, ∀ hi : i < c.length, c.get ⟨i, hi⟩ ∈ orderF ∧
      orderF.indexOf (c.get ⟨i, hi⟩) + i ≤
        orderF.indexOf (c.get ⟨0, hpos⟩) := by
    intro i
    induction i with
    | zero =>
      intro hi
      exact ⟨hhead, by simp⟩
    | succ i ih2 =>
      intro hi
      have hi2 : i < c.length := Nat.lt_of_succ_lt hi
      obtain ⟨hmem, hle⟩ := ih2 hi2
      have hedge : Edge g (c.get ⟨i, hi2⟩) (c.get ⟨i + 1, hi⟩) :=
        List.chain'_iff_get.mp hchain i (by omega)
      obtain ⟨hm2, hlt2⟩ := hOF.2 _ hmem _ hedge
      exact ⟨hm2, by omega⟩
  have hfin := (key (c.length - 1) hlt).2
  rw [← heq] at hfin
  omega

end DLD

namespace DLD

theorem foldl_max_ge_init (c : List Nat) :
    ∀ a : Int, a ≤ c.foldl (fun m y => max m (Int.ofNat y)) a := by
  induction c with
  | nil => intro a; simp
  | cons y ys ih =>
    intro a
    simp only [List.foldl_cons]
    exact le_trans (le_max_left a (Int.ofNat y)) (ih (max a (Int.ofNat y)))

theorem foldl_max_ge (c : List Nat) :
    ∀ (a : Int) (x : Nat), x ∈ c →
      Int.ofNat x ≤ c.foldl (fun m y => max m (Int.ofNat y)) a := by
  induction c with
  | nil => intro a x hx; cases hx
  | cons y ys ih =>
    intro a x hx
    simp only [List.foldl_cons]
    rcases List.mem_cons.1 hx with he | hm
    · subst he
      exact le_trans (le_max_right a (Int.ofNat x))
        (foldl_max_ge_init ys (max a (Int.ofNat x)))
    · exact ih (max a (Int.ofNat y)) x hm

theorem foldl_max_cases (c : List Nat) :
    ∀ a : Int, c.foldl (fun m y => max m (Int.ofNat y)) a = a ∨
      ∃ x ∈ c, c.foldl (fun m y => max m (Int.ofNat y)) a = Int.ofNat x := by
  induction c with
  | nil => intro a; exact Or.inl rfl
  | cons y ys ih =>
    intro a
    simp only [List.foldl_cons]
    rcases ih (max a (Int.ofNat y)) with hc | ⟨x, hx, hc⟩
    · rcases le_or_lt (Int.ofNat y) a with hle | hlt
      · have hmax : max a (Int.ofNat y) = a := max_eq_left hle
        rw [hmax] at hc ⊢
        exact Or.inl hc
      · have hmax : max a (Int.ofNat y) = Int.ofNat y :=
          max_eq_right (le_of_lt hlt)
        rw [hmax] at hc ⊢
        exact Or.inr ⟨y, List.mem_cons_self y ys, hc⟩
    · exact Or.inr ⟨x, List.mem_cons_of_mem y hx, hc⟩

theorem cycle_mem_keys (g : Graph) (c : List Nat) (hlen : 2 ≤ c.length)
    (hhl : c.head? = c.getLast?) (hchain : List.Chain' (Edge g) c) :
    ∀ x ∈ c, x ∈ keysOf g := by
  have hne : c ≠ [] := by
    intro he
    rw [he] at hlen
    simp at hlen
  have hpos : 0 < c.length := List.length_pos.2 hne
  have hlt : c.length - 1 < c.length := by omega
  have hheadq : c.head? = some (c.get ⟨0, hpos⟩) := by
    cases c with
    | nil => exact absurd rfl hne
    | cons a r => rfl
  have hlastq : c.getLast? = some (c.get ⟨c.length - 1, hlt⟩) := by
    rw [List.getLast?_eq_getLast_of_ne_nil hne]
    exact congrArg some (List.get_length_sub_one hlt).symm
  have heq : c.get ⟨0, hpos⟩ = c.get ⟨c.length - 1, hlt⟩ := by
    rw [hheadq, hlastq] at hhl
    exact Option.some.inj hhl
  have hsource : ∀ (i : Nat) (hi : i < c.length), i + 1 < c.length →
      c.get ⟨i, hi⟩ ∈ keysOf g := by
    intro i hi hi1
    have hedge : Edge g (c.get ⟨i, hi⟩) (c.get ⟨i + 1, hi1⟩) :=
      List.chain'_iff_get.mp hchain i (by omega)
    by_contra hnm
    have hnil := adjGet_eq_nil_of_not_mem g _ hnm
    have hmem : c.get ⟨i + 1, hi1⟩ ∈ adjGet g (c.get ⟨i, hi⟩) := hedge
    rw [hnil] at hmem
    cases hmem
  intro x hx
  obtain ⟨⟨i, hi⟩, hget⟩ := List.mem_iff_get.1 hx
  by_cases hi1 : i + 1 < c.length
  · rw [← hget]
    exact hsource i hi hi1
  · have hieq : i = c.length - 1 := by omega
    have hx0 : c.get ⟨i, hi⟩ = c.get ⟨0, hpos⟩ := by
      rw [heq]
      congr 1
      exact Fin.ext hieq
    rw [← hget, hx0]
    exact hsource 0 hpos (by omega)

theorem keysOf_removeEdgeAll (g : Graph) (t : Nat) :
    keysOf (removeEdgeAll g t) = keysOf g := by
  simp [keysOf, removeEdgeAll]

theorem keysOf_length (g : Graph) : (keysOf g).length = g.length :=
  List.length_map g Prod.fst

theorem eraseKey_length_lt (g : Graph) (v : Nat) (h : v ∈ keysOf g) :
    (eraseKey g v).length < g.length := by
  induction g with
  | nil => cases h
  | cons e rest ih =>
    obtain ⟨k, vs⟩ := e
    by_cases hk : k = v
    · subst hk
      show (List.filter _ ((k, vs) :: rest)).length < _
      rw [List.filter_cons]
      have hle := List.length_filter_le (fun e : Nat × List Nat => e.1 != k)
        rest
      simp
      omega
    · rw [keysOf_cons] at h
      have hm : v ∈ keysOf rest := by
        rcases List.mem_cons.1 h with he | hm
        · exact absurd he.symm hk
        · exact hm
      show (List.filter _ ((k, vs) :: rest)).length < _
      rw [List.filter_cons]
      have hb : ((k, vs).1 != v) = true := by simp [hk]
      rw [hb]
      simp
      exact ih hm

theorem detectLoop_ends (fuel : Nat) :
    ∀ (g : Graph) (acc : List Nat), (keysOf g).length < fuel →
      (hasCycle (detectLoop fuel g acc).1).1 = false := by
  induction fuel with
  | zero =>
    intro g acc hf
    omega
  | succ fuel ih =>
    intro g acc hf
    simp only [detectLoop]
    by_cases hr : (hasCycle g).1 = true
    · rw [if_pos hr]
      have hpair : hasCycle g = (true, (hasCycle g).2) := by
        rw [← hr]
      obtain ⟨c, hlen, hhl, hchain, hfold⟩ :=
        hasCycle_true_spec g (hasCycle g).2 hpair
      have hne : c ≠ [] := by
        intro he
        rw [he] at hlen
        simp at hlen
      obtain ⟨x, hx, hxeq⟩ : ∃ x ∈ c,
          (hasCycle g).2 = Int.ofNat x := by
        rcases foldl_max_cases c (-1) with hc | ⟨x, hx, hc⟩
        · obtain ⟨x0, hx0⟩ := List.exists_mem_of_ne_nil c hne
          have hge := foldl_max_ge c (-1) x0 hx0
          rw [hc] at hge
          have h0 : (0 : Int) ≤ Int.ofNat x0 := Int.ofNat_nonneg x0
          omega
        · exact ⟨x, hx, by rw [hfold, hc]⟩
      have hxkey : x ∈ keysOf g := cycle_mem_keys g c hlen hhl hchain x hx
      have htn : (hasCycle g).2.toNat = x := by
        rw [hxeq]
        rfl
      apply ih
      rw [keysOf_removeEdgeAll, keysOf_length, htn]
      have hel := eraseKey_length_lt g x hxkey
      have hkl := keysOf_length g
      omega
    · rw [if_neg hr]
      revert hr
      cases (hasCycle g).1 <;> simp

theorem runCycleDetection_acyclic (g : Graph) :
    (hasCycle (runCycleDetection g).1).1 = false ∧
    ¬ ∃ c : List Nat, 2 ≤ c.length ∧ c.head? = c.getLast? ∧
      List.Chain' (Edge (runCycleDetection g).1) c := by
  have h1 : (hasCycle (runCycleDetection g).1).1 = false :=
    detectLoop_ends ((keysOf g).length + 1) g [] (by omega)
  refine ⟨h1, ?_⟩
  have hpair : hasCycle (runCycleDetection g).1 =
      (false, (hasCycle (runCycleDetection g).1).2) := by
    rw [← h1]
  exact hasCycle_false_acyclic (runCycleDetection g).1
    (hasCycle (runCycleDetection g).1).2 hpair

end DLD

/-- C2 (corrected): Each deadlock-detection tick rebuilds the waits-for
graph so that, for every request queue, every already-granted holder
seen earlier in the queue gets an outgoing edge to each later ungranted
waiter (the reverse direction of the claim's waiter-to-holder edges),
each node's adjacency list is sorted ascending and the DFS roots are
scanned in ascending key order; `HasCycle` reporting `(true, m)`
exhibits a closed walk of the graph whose largest transaction id is the
victim `m`, `HasCycle` reporting false means the graph has no closed
walk, and the detection loop (erase the victim's key, drop it from
every adjacency list, abort it, repeat) ends with an acyclic graph. -/
theorem C2_deadlock_detection (queues : List (List (Nat × Bool))) :
    (∀ u w, w ∈ DLD.adjGet (DLD.buildWaitsForGraph queues) u ↔
      ∃ q ∈ queues, ∃ l1 l2 l3,
        q = l1 ++ (u, true) :: (l2 ++ (w, false) :: l3)) ∧
    (∀ u, List.Sorted (· ≤ ·)
      (DLD.adjGet (DLD.buildWaitsForGraph queues) u)) ∧
    List.Sorted (· < ·) (DLD.keysOf (DLD.buildWaitsForGraph queues)) ∧
    (∀ m, DLD.hasCycle (DLD.buildWaitsForGraph queues) = (true, m) →
      ∃ c : List Nat, 2 ≤ c.length ∧ c.head? = c.getLast? ∧
        List.Chain' (DLD.Edge (DLD.buildWaitsForGraph queues)) c ∧
        (∀ x ∈ c, Int.ofNat x ≤ m) ∧ ∃ x ∈ c, Int.ofNat x = m) ∧
    (∀ m, DLD.hasCycle (DLD.buildWaitsForGraph queues) = (false, m) →
      ¬ ∃ c : List Nat, 2 ≤ c.length ∧ c.head? = c.getLast? ∧
        List.Chain' (DLD.Edge (DLD.buildWaitsForGraph queues)) c) ∧
    (DLD.hasCycle
      (DLD.runCycleDetection (DLD.buildWaitsForGraph queues)).1).1 =
        false ∧
    ¬ ∃ c : List Nat, 2 ≤ c.length ∧ c.head? = c.getLast? ∧
      List.Chain'
        (DLD.Edge (DLD.runCycleDetection (DLD.buildWaitsForGraph queues)).1)
        c := by
  have hacy := DLD.runCycleDetection_acyclic (DLD.buildWaitsForGraph queues)
  refine ⟨fun u w => DLD.build_mem queues u w,
    fun u => DLD.build_adj_sorted queues u, DLD.build_keys_sorted queues,
    ?_, ?_, hacy.1, hacy.2⟩
  · intro m hm
    obtain ⟨c, hlen, hhl, hchain, hfold⟩ :=
      DLD.hasCycle_true_spec (DLD.buildWaitsForGraph queues) m hm
    have hne : c ≠ [] := by
      intro he
      rw [he] at hlen
      simp at hlen
    refine ⟨c, hlen, hhl, hchain, ?_, ?_⟩
    · intro x hx
      rw [hfold]
      exact DLD.foldl_max_ge c (-1) x hx
    · rcases DLD.foldl_max_cases c (-1) with hc | ⟨x, hx, hc⟩
      · exfalso
        obtain ⟨x0, hx0⟩ := List.exists_mem_of_ne_nil c hne
        have hge := DLD.foldl_max_ge c (-1) x0 hx0
        rw [hc] at hge
        have h0 : (0 : Int) ≤ Int.ofNat x0 := Int.ofNat_nonneg x0
        omega
      · exact ⟨x, hx, by rw [hfold, hc]⟩
  · intro m hm
    exact DLD.hasCycle_false_acyclic (DLD.buildWaitsForGraph queues) m hm

/-- C2 counterexample to the claim's edge direction: in the single
queue holding granted transaction 1 and then ungranted waiter 2, the
built graph gives the waiter no outgoing edge at all — the edge goes
from the granted holder 1 to the waiter 2, the reverse of the claim's
"every ungranted waiter has an outgoing edge to every already-granted
holder". -/
theorem C2_deadlock_detection_counterexample :
    ¬ (1 ∈ DLD.adjGet (DLD.buildWaitsForGraph [[(1, true), (2, false)]]) 2) ∧
    2 ∈ DLD.adjGet (DLD.buildWaitsForGraph [[(1, true), (2, false)]]) 1 := by
  decide

/-- C2 witness: the edge characterization evaluated on the concrete
one-queue input (granted 1, then waiting 2). -/
theorem C2_deadlock_detection_witness :
    2 ∈ DLD.adjGet (DLD.buildWaitsForGraph [[(1, true), (2, false)]]) 1 ↔
      ∃ q ∈ [[(1, true), (2, false)]], ∃ l1 l2 l3,
        q = l1 ++ (1, true) :: (l2 ++ (2, false) :: l3) :=
  (C2_deadlock_detection [[(1, true), (2, false)]]).1 1 2
